import Mathlib

/-!
Shallow embedding of the N-puzzle search engine (utils.py, node.py,
algorithms.py).  Board states are lists of naturals of length n*n, the
blank is 0.  Moves are the four directional symbols.  The five search
strategies are embedded as executable functions; the unbounded while
loops of the Python source become fuel-indexed recursions, and
`random.choice` in the shuffler becomes an explicit choice oracle.
-/

namespace NPuzzle

/-- The four directional move symbols of the puzzle. -/
inductive Move where
  | UP
  | DOWN
  | LEFT
  | RIGHT
deriving DecidableEq, Repr

/-- utils.get_goal_state: the solved configuration `(1, 2, ..., n*n-1, 0)`. -/
def get_goal_state (n : Nat) : List Nat :=
  List.range' 1 (n * n - 1) ++ [0]

/-- utils.get_possible_moves: legal moves for the blank, determined by its
row and column, in the fixed order UP, DOWN, LEFT, RIGHT. -/
def get_possible_moves (state : List Nat) (n : Nat) : List Move :=
  let empty_index := state.indexOf 0
  let row := empty_index / n
  let col := empty_index % n
  ((if 0 < row then [Move.UP] else []) ++ (if row < n - 1 then [Move.DOWN] else [])) ++
    ((if 0 < col then [Move.LEFT] else []) ++ (if col < n - 1 then [Move.RIGHT] else []))

/-- The flat-array index of the tile that `apply_move` swaps with the blank,
as the signed integer computed by the source (`empty_index - n`,
`empty_index + n`, `empty_index - 1`, `empty_index + 1`). -/
def swap_index_of (state : List Nat) (move : Move) (n : Nat) : Int :=
  let empty_index : Int := state.indexOf 0
  match move with
  | Move.UP => empty_index - n
  | Move.DOWN => empty_index + n
  | Move.LEFT => empty_index - 1
  | Move.RIGHT => empty_index + 1

/-- utils.apply_move: swap the blank with the tile at the move's swap index.
Precondition (source contract): the move is legal for `state`, so the swap
index is a non-negative in-range position. -/
def apply_move (state : List Nat) (move : Move) (n : Nat) : List Nat :=
  let empty_index := state.indexOf 0
  let swap_index := (swap_index_of state move n).toNat
  (state.set empty_index (state.getD swap_index 0)).set swap_index (state.getD empty_index 0)

/-- `abs (a - b)` on naturals, used for the row/column distances. -/
def natDiff (a b : Nat) : Nat := ((a : Int) - (b : Int)).natAbs

/-- The Manhattan contribution of one tile: current flat index `i`,
goal flat index `gi`, on an `n` columns wide grid. -/
def tile_dist (n i gi : Nat) : Nat :=
  natDiff (i / n) (gi / n) + natDiff (i % n) (gi % n)

/-- utils.manhattan_distance: sum over the non-blank tiles of the row plus
column distance between the tile's position and its goal position. -/
def manhattan_distance (state goal : List Nat) (n : Nat) : Nat :=
  ((List.range state.length).map (fun i =>
    let value := state.getD i 0
    if value = 0 then 0 else tile_dist n i (goal.indexOf value))).sum

/-- utils.misplaced_tiles_heuristic: the number of non-blank positions whose
tile differs from the goal's tile at that position. -/
def misplaced_tiles_heuristic (state goal : List Nat) (_n : Nat) : Nat :=
  ((List.range state.length).map (fun i =>
    if state.getD i 0 ≠ 0 ∧ state.getD i 0 ≠ goal.getD i 0 then 1 else 0)).sum

/-- node.Node: a search-tree node.  The Python class stores
`parent = None, action = None` exactly for roots, so the embedding splits
the two shapes into constructors; `cost` of a root is 0. -/
inductive Node where
  | root (state : List Nat) (heuristic : Nat)
  | child (state : List Nat) (parent : Node) (action : Move) (cost : Nat) (heuristic : Nat)
deriving DecidableEq, Repr

/-- The board configuration stored in a node. -/
def Node.state : Node → List Nat
  | .root s _ => s
  | .child s _ _ _ _ => s

/-- The accumulated path cost g of a node (0 for a root). -/
def Node.cost : Node → Nat
  | .root _ _ => 0
  | .child _ _ _ c _ => c

/-- The heuristic value h stored in a node. -/
def Node.heuristic : Node → Nat
  | .root _ h => h
  | .child _ _ _ _ h => h

/-- The move that produced the node from its parent (none for a root). -/
def Node.action : Node → Option Move
  | .root _ _ => none
  | .child _ _ a _ _ => some a

/-- One element of a returned solution path: the dict
`{'state': ..., 'action': ...}` built by utils.reconstruct_path. -/
structure PathElem where
  state : List Nat
  action : Option Move
deriving DecidableEq, Repr

/-- The goal-to-root traversal of utils.reconstruct_path (the `while node`
loop, collecting state and action along the parent links). -/
def reconstruct_aux : Node → List PathElem
  | .root s _ => [⟨s, none⟩]
  | .child s p a _ _ => ⟨s, some a⟩ :: reconstruct_aux p

/-- utils.reconstruct_path: the collected elements, reversed so the root
comes first. -/
def reconstruct_path (node : Node) : List PathElem :=
  (reconstruct_aux node).reverse

/-- utils.shuffle_board: apply `n * n * 15` randomly chosen legal moves
starting from the given state.  `random.choice` over the non-empty move
list is embedded as an explicit oracle `choice`, reduced modulo the number
of available moves. -/
def shuffle_board (choice : Nat → Nat) (goal_state : List Nat) (n : Nat) : List Nat :=
  let shuffle_count := n * n * 15
  (List.range shuffle_count).foldl (fun temp_state k =>
    let moves := get_possible_moves temp_state n
    let move := moves.getD (choice k % moves.length) Move.UP
    apply_move temp_state move n) goal_state

/-- A board state is valid when it is a permutation of `0..n*n-1`
(hence of length `n*n`). -/
def ValidState (state : List Nat) (n : Nat) : Prop :=
  state.Perm (List.range (n * n))

instance (state : List Nat) (n : Nat) : Decidable (ValidState state n) :=
  inferInstanceAs (Decidable (state.Perm (List.range (n * n))))

/-! ### algorithms.breadth_first_search -/

/-- One BFS expansion: push the unexplored neighbors of `node` onto the back
of the queue (the `for move in get_possible_moves` loop). -/
def bfsExpand (n : Nat) (node : Node) (acc : List Node × List (List Nat)) : List Node × List (List Nat) :=
  (get_possible_moves node.state n).foldl (fun acc move =>
    let neighbor_state := apply_move node.state move n
    if neighbor_state ∈ acc.2 then acc
    else (acc.1 ++ [Node.child neighbor_state node move (node.cost + 1) 0],
          neighbor_state :: acc.2)) acc

/-- The `while frontier` loop of algorithms.breadth_first_search, with an
explicit fuel bound standing in for the unbounded iteration.  The frontier
list is the FIFO deque (pop at the head, append at the back); `explored` is
the set of enqueued states; `cnt` the running expansion count. -/
def bfsLoop (goal_state : List Nat) (n : Nat) :
    Nat → List Node → List (List Nat) → Nat → Option (List PathElem) × Nat
  | 0, _, _, cnt => (none, cnt)
  | _ + 1, [], _, cnt => (none, cnt)
  | fuel + 1, node :: rest, explored, cnt =>
    let cnt := cnt + 1
    if node.state = goal_state then (some (reconstruct_path node), cnt)
    else
      let step := bfsExpand n node (rest, explored)
      bfsLoop goal_state n fuel step.1 step.2 cnt

/-- algorithms.breadth_first_search (fuel-indexed). -/
def breadth_first_search (initial_state goal_state : List Nat) (n fuel : Nat) :
    Option (List PathElem) × Nat :=
  bfsLoop goal_state n fuel [Node.root initial_state 0] [initial_state] 0

/-! ### algorithms.depth_first_search -/

/-- The child pushes of one DFS expansion: `for move in reversed(...)` with
stack appends, so that the head of the resulting stack is the first legal
move's child. -/
def dfsExpand (n : Nat) (node : Node) (rest : List Node) : List Node :=
  (get_possible_moves node.state n).reverse.foldl (fun st move =>
    Node.child (apply_move node.state move n) node move (node.cost + 1) 0 :: st) rest

/-- The `while frontier` loop of algorithms.depth_first_search (fuel-indexed):
LIFO stack, explored set filled at expansion time, depth bound `2 * n * n`. -/
def dfsLoop (goal_state : List Nat) (n : Nat) :
    Nat → List Node → List (List Nat) → Nat → Option (List PathElem) × Nat
  | 0, _, _, cnt => (none, cnt)
  | _ + 1, [], _, cnt => (none, cnt)
  | fuel + 1, node :: rest, explored, cnt =>
    let cnt := cnt + 1
    if node.state ∈ explored then dfsLoop goal_state n fuel rest explored cnt
    else
      let explored := node.state :: explored
      if node.state = goal_state then (some (reconstruct_path node), cnt)
      else if node.cost > n * n * 2 then dfsLoop goal_state n fuel rest explored cnt
      else dfsLoop goal_state n fuel (dfsExpand n node rest) explored cnt

/-- algorithms.depth_first_search (fuel-indexed). -/
def depth_first_search (initial_state goal_state : List Nat) (n fuel : Nat) :
    Option (List PathElem) × Nat :=
  dfsLoop goal_state n fuel [Node.root initial_state 0] [] 0

/-! ### algorithms.depth_limited_search / iterative_deepening_search -/

/-- The three outcomes of the depth-limited search: a reconstructed path,
the string `'cutoff'`, or Python `None`. -/
inductive DLSRes where
  | found (p : List PathElem)
  | cutoff
  | noSol
deriving DecidableEq, Repr

mutual

/-- algorithms.depth_limited_search.  The mutable counter
`expanded_nodes_ref` is threaded as the second component of the result. -/
def depth_limited_search (goal_state : List Nat) (n : Nat) (node : Node) (limit : Nat) (cnt : Nat) :
    DLSRes × Nat :=
  let cnt := cnt + 1
  if node.state = goal_state then (DLSRes.found (reconstruct_path node), cnt)
  else
    match limit with
    | 0 => (DLSRes.cutoff, cnt)
    | l + 1 =>
      dlsChildren goal_state n node (get_possible_moves node.state n) l false cnt
termination_by (limit, 0)

/-- The `for move in get_possible_moves` loop of depth_limited_search:
recurse into each child with the decremented limit, tracking whether any
branch signalled cutoff. -/
def dlsChildren (goal_state : List Nat) (n : Nat) (node : Node) (moves : List Move)
    (limit : Nat) (cutoff_occurred : Bool) (cnt : Nat) : DLSRes × Nat :=
  match moves with
  | [] => (if cutoff_occurred then DLSRes.cutoff else DLSRes.noSol, cnt)
  | move :: restMoves =>
    let child_state := apply_move node.state move n
    let child_node := Node.child child_state node move (node.cost + 1) 0
    match depth_limited_search goal_state n child_node limit cnt with
    | (DLSRes.found p, cnt2) => (DLSRes.found p, cnt2)
    | (DLSRes.cutoff, cnt2) => dlsChildren goal_state n node restMoves limit true cnt2
    | (DLSRes.noSol, cnt2) => dlsChildren goal_state n node restMoves limit cutoff_occurred cnt2
termination_by (limit, moves.length)

end

/-- The `for depth in range(100)` loop of iterative_deepening_search,
counted down by `remaining = 100 - depth`. -/
def idsLoop (initial_state goal_state : List Nat) (n : Nat) :
    Nat → Nat → Nat → Option (List PathElem) × Nat
  | 0, _, cnt => (none, cnt)
  | remaining + 1, depth, cnt =>
    match depth_limited_search goal_state n (Node.root initial_state 0) depth 0 with
    | (DLSRes.found p, used) => (some p, cnt + used)
    | (DLSRes.noSol, used) => (none, cnt + used)
    | (DLSRes.cutoff, used) => idsLoop initial_state goal_state n remaining (depth + 1) (cnt + used)

/-- algorithms.iterative_deepening_search. -/
def iterative_deepening_search (initial_state goal_state : List Nat) (n : Nat) :
    Option (List PathElem) × Nat :=
  idsLoop initial_state goal_state n 100 0 0

/-! ### heapq

The priority frontier of A* and greedy search is Python's `heapq` over
`(priority, Node)` tuples; the embedding follows CPython's `heappush` /
`heappop` with `_siftdown` / `_siftup`.  Out-of-range reads cannot occur at
the call sites (CPython indexes are in range by construction), so `getD`
defaults are chosen as the item being sifted, which keeps them harmless. -/

/-- Python `<` on `(priority, node)` tuples: compare priorities first; on
equal priorities tuple comparison moves to the nodes, where `Node.__eq__`
compares states and `Node.__lt__` compares `cost + heuristic`. -/
def tupLt (a b : Nat × Node) : Bool :=
  if a.1 ≠ b.1 then a.1 < b.1
  else if a.2.state ≠ b.2.state then a.2.cost + a.2.heuristic < b.2.cost + b.2.heuristic
  else false

/-- CPython `_siftdown(heap, startpos, pos)` with `newitem` already read. -/
def siftdownLoop (startpos : Nat) (newitem : Nat × Node) (heap : List (Nat × Node)) (pos : Nat) :
    List (Nat × Node) :=
  if startpos < pos then
    let parentpos := (pos - 1) / 2
    let parent := heap.getD parentpos newitem
    if tupLt newitem parent then
      siftdownLoop startpos newitem (heap.set pos parent) parentpos
    else heap.set pos newitem
  else heap.set pos newitem
termination_by pos
decreasing_by
  simp_wf
  omega

/-- The descending phase of CPython `_siftup`: move the smaller child up
until a leaf position is reached; returns the heap and the final position. -/
def siftupLoop (endpos : Nat) (newitem : Nat × Node) (heap : List (Nat × Node)) (pos : Nat) :
    List (Nat × Node) × Nat :=
  let childpos := 2 * pos + 1
  if h : childpos < endpos then
    let rightpos := childpos + 1
    let childpos :=
      if rightpos < endpos ∧ ¬ tupLt (heap.getD childpos newitem) (heap.getD rightpos newitem) then
        rightpos
      else childpos
    siftupLoop endpos newitem (heap.set pos (heap.getD childpos newitem)) childpos
  else (heap.set pos newitem, pos)
termination_by endpos - pos
decreasing_by
  simp_wf
  split <;> omega

/-- CPython `_siftup(heap, pos)`. -/
def siftup (heap : List (Nat × Node)) (pos : Nat) : List (Nat × Node) :=
  let endpos := heap.length
  let newitem := heap.getD pos (0, Node.root [] 0)
  let res := siftupLoop endpos newitem heap pos
  siftdownLoop pos newitem res.1 res.2

/-- CPython `heappush`: append, then sift down towards the root. -/
def heappush (heap : List (Nat × Node)) (item : Nat × Node) : List (Nat × Node) :=
  siftdownLoop 0 item (heap ++ [item]) heap.length

/-- CPython `heappop`: none on an empty heap (IndexError in Python),
otherwise the root item and the re-heapified remainder. -/
def heappop (heap : List (Nat × Node)) : Option ((Nat × Node) × List (Nat × Node)) :=
  match heap.getLast? with
  | none => none
  | some lastelt =>
    match heap.dropLast with
    | [] => some (lastelt, [])
    | r0 :: _ => some (r0, siftup ((heap.dropLast).set 0 lastelt) 0)

/-! ### algorithms.a_star_search -/

/-- Lookup in the `explored` dict (state to best known g); the dict is an
association list where insertion conses, so the first hit is the latest. -/
def dictGet (d : List (List Nat × Nat)) (k : List Nat) : Option Nat :=
  match d with
  | [] => none
  | (k2, v) :: rest => if k2 = k then some v else dictGet rest k

/-- One A* expansion: push every unseen or strictly improved neighbor. -/
def astarExpand (goal_state : List Nat) (n : Nat)
    (heuristic_func : List Nat → List Nat → Nat → Nat) (node : Node)
    (acc : List (Nat × Node) × List (List Nat × Nat)) :
    List (Nat × Node) × List (List Nat × Nat) :=
  (get_possible_moves node.state n).foldl (fun acc move =>
    let neighbor_state := apply_move node.state move n
    let new_cost := node.cost + 1
    let better :=
      match dictGet acc.2 neighbor_state with
      | none => true
      | some c => decide (new_cost < c)
    if better then
      let h_val := heuristic_func neighbor_state goal_state n
      (heappush acc.1 (new_cost + h_val, Node.child neighbor_state node move new_cost h_val),
       (neighbor_state, new_cost) :: acc.2)
    else acc) acc

/-- The body of one neighbor update of `astarExpand` with the Manhattan
heuristic, named for the proofs (definitionally equal to the fold body). -/
def astarStep (goal_state : List Nat) (n : Nat) (node : Node)
    (acc : List (Nat × Node) × List (List Nat × Nat)) (move : Move) :
    List (Nat × Node) × List (List Nat × Nat) :=
  let neighbor_state := apply_move node.state move n
  let new_cost := node.cost + 1
  let better :=
    match dictGet acc.2 neighbor_state with
    | none => true
    | some c => decide (new_cost < c)
  if better then
    let h_val := manhattan_distance neighbor_state goal_state n
    (heappush acc.1 (new_cost + h_val, Node.child neighbor_state node move new_cost h_val),
     (neighbor_state, new_cost) :: acc.2)
  else acc

/-- The `while frontier` loop of algorithms.a_star_search (fuel-indexed). -/
def astarLoop (goal_state : List Nat) (n : Nat)
    (heuristic_func : List Nat → List Nat → Nat → Nat) :
    Nat → List (Nat × Node) → List (List Nat × Nat) → Nat → Option (List PathElem) × Nat
  | 0, _, _, cnt => (none, cnt)
  | fuel + 1, heap, explored, cnt =>
    match heappop heap with
    | none => (none, cnt)
    | some ((_, node), heap2) =>
      let cnt := cnt + 1
      if node.state = goal_state then (some (reconstruct_path node), cnt)
      else
        let step := astarExpand goal_state n heuristic_func node (heap2, explored)
        astarLoop goal_state n heuristic_func fuel step.1 step.2 cnt

/-- algorithms.a_star_search (fuel-indexed; the heuristic defaults to
Manhattan distance at call sites). -/
def a_star_search (initial_state goal_state : List Nat) (n fuel : Nat)
    (heuristic_func : List Nat → List Nat → Nat → Nat) : Option (List PathElem) × Nat :=
  let h := heuristic_func initial_state goal_state n
  astarLoop goal_state n heuristic_func fuel [(h, Node.root initial_state h)] [(initial_state, 0)] 0

/-! ### algorithms.greedy_search -/

/-- One greedy expansion: push every unexplored neighbor keyed by h alone. -/
def greedyExpand (goal_state : List Nat) (n : Nat)
    (heuristic_func : List Nat → List Nat → Nat → Nat) (node : Node)
    (explored : List (List Nat)) (heap : List (Nat × Node)) : List (Nat × Node) :=
  (get_possible_moves node.state n).foldl (fun heap move =>
    let neighbor_state := apply_move node.state move n
    if neighbor_state ∈ explored then heap
    else
      let h_val := heuristic_func neighbor_state goal_state n
      heappush heap (h_val, Node.child neighbor_state node move (node.cost + 1) h_val)) heap

/-- The `while frontier` loop of algorithms.greedy_search (fuel-indexed). -/
def greedyLoop (goal_state : List Nat) (n : Nat)
    (heuristic_func : List Nat → List Nat → Nat → Nat) :
    Nat → List (Nat × Node) → List (List Nat) → Nat → Option (List PathElem) × Nat
  | 0, _, _, cnt => (none, cnt)
  | fuel + 1, heap, explored, cnt =>
    match heappop heap with
    | none => (none, cnt)
    | some ((_, node), heap2) =>
      let cnt := cnt + 1
      if node.state ∈ explored then greedyLoop goal_state n heuristic_func fuel heap2 explored cnt
      else
        let explored := node.state :: explored
        if node.state = goal_state then (some (reconstruct_path node), cnt)
        else
          greedyLoop goal_state n heuristic_func fuel
            (greedyExpand goal_state n heuristic_func node explored heap2) explored cnt

/-- algorithms.greedy_search (fuel-indexed). -/
def greedy_search (initial_state goal_state : List Nat) (n fuel : Nat)
    (heuristic_func : List Nat → List Nat → Nat → Nat) : Option (List PathElem) × Nat :=
  let h := heuristic_func initial_state goal_state n
  greedyLoop goal_state n heuristic_func fuel [(h, Node.root initial_state h)] [] 0

/-! ### Specification-level predicates -/

/-- Both flat-array positions read and written by `apply_move` lie in
`0..n*n-1` (the blank's own index always does for a valid state; the
discriminating one is the swap index). -/
def move_in_bounds (state : List Nat) (move : Move) (n : Nat) : Prop :=
  0 ≤ swap_index_of state move n ∧ swap_index_of state move n < (n * n : Nat)

instance (state : List Nat) (move : Move) (n : Nat) : Decidable (move_in_bounds state move n) :=
  inferInstanceAs (Decidable (_ ∧ _))

/-- `ReachIn n k s t`: state `t` arises from state `s` by exactly `k` legal
moves. -/
inductive ReachIn (n : Nat) : Nat → List Nat → List Nat → Prop where
  | refl (s : List Nat) : ReachIn n 0 s s
  | step {m : Move} {s t : List Nat} {k : Nat} (hm : m ∈ get_possible_moves s n)
      (h : ReachIn n k (apply_move s m n) t) : ReachIn n (k + 1) s t

/-- A search node whose ancestor chain is rooted at `initial_state`, each
link labelled by a legal move whose application produced the link's state,
with the cost counting the links. -/
def ChainOK (initial_state : List Nat) (n : Nat) : Node → Prop
  | .root s _ => s = initial_state
  | .child s p a c _ =>
    ChainOK initial_state n p ∧ a ∈ get_possible_moves p.state n ∧
      s = apply_move p.state a n ∧ c = p.cost + 1

/-- Every consecutive pair of path elements is one legal move: the later
element's action is a legal move of the earlier state and produces the later
state. -/
def StepsOK (n : Nat) : List PathElem → Prop
  | [] => True
  | [_] => True
  | a :: b :: rest =>
    (∃ m, b.action = some m ∧ m ∈ get_possible_moves a.state n ∧
      b.state = apply_move a.state m n) ∧ StepsOK n (b :: rest)

/-- The valid-walk contract of a returned solution path: starts at the
initial state with no action, ends at the goal, every step is a legal move,
and the path is the reconstruction of a terminal node whose accumulated cost
g equals the number of moves (path length minus one). -/
def PathSpec (initial_state goal_state : List Nat) (n : Nat) (p : List PathElem) : Prop :=
  p.head? = some ⟨initial_state, none⟩ ∧
  p.getLast?.map PathElem.state = some goal_state ∧
  StepsOK n p ∧
  ∃ nd, ChainOK initial_state n nd ∧ nd.state = goal_state ∧
    p = reconstruct_path nd ∧ p.length = nd.cost + 1

/-- `IsDist init n s d`: the shortest legal-move walk from `init` to `s` has
length exactly `d`. -/
def IsDist (init : List Nat) (n : Nat) (s : List Nat) (d : Nat) : Prop :=
  ReachIn n d init s ∧ ∀ j, ReachIn n j init s → d ≤ j

/-- The cardinality bound used to cap the explored set of a search: the
number of functions on the flat board positions. -/
def stateBound (n : Nat) : Nat :=
  Fintype.card (Fin (n * n) → Fin (n * n))

/-- The loop invariant of the breadth-first search: frontier nodes are
rooted chains at their exact distance, frontier costs are nondecreasing and
span at most two levels, the explored set is exactly the discovered states
(each either still in the frontier or fully expanded), and everything below
the current level is already discovered. -/
structure BfsInv (init goal : List Nat) (n : Nat)
    (frontier : List Node) (explored : List (List Nat)) : Prop where
  chain : ∀ nd ∈ frontier, ChainOK init n nd
  costdist : ∀ nd ∈ frontier, IsDist init n nd.state nd.cost
  sorted : frontier.Pairwise (fun a b => a.cost ≤ b.cost)
  span : ∀ a ∈ frontier, ∀ b ∈ frontier, a.cost ≤ b.cost + 1
  expl_node : ∀ s ∈ explored, (∃ nd ∈ frontier, nd.state = s) ∨
    (∀ m ∈ get_possible_moves s n, apply_move s m n ∈ explored)
  front_expl : ∀ nd ∈ frontier, nd.state ∈ explored
  init_expl : init ∈ explored
  low_expl : ∀ s k, IsDist init n s k → (∀ nd ∈ frontier, k < nd.cost) →
    s ∈ explored ∧ ∀ nd ∈ frontier, nd.state ≠ s
  goal_front : goal ∈ explored → ∃ nd ∈ frontier, nd.state = goal
  expl_nodup : explored.Nodup
  expl_valid : ∀ s ∈ explored, ValidState s n

/-- Default entry used to read heap cells (only ever hit out of range). -/
def dEntry : Nat × Node := (0, Node.root [] 0)

/-- The key (first tuple component) of the heap entry at index `i`. -/
def keyAt (heap : List (Nat × Node)) (i : Nat) : Nat :=
  (heap.getD i dEntry).1

/-- The binary-heap shape invariant maintained by CPython heapq: every
non-root cell is at least its parent on keys. -/
def HeapProp (heap : List (Nat × Node)) : Prop :=
  ∀ j, 0 < j → j < heap.length → keyAt heap ((j - 1) / 2) ≤ keyAt heap j

/-- On entries satisfying `P`, the Python tuple comparison agrees with the
plain order on first components. -/
def KeyIff (P : Nat × Node → Prop) : Prop :=
  ∀ a b, P a → P b → (tupLt a b = true ↔ a.1 < b.1)

/-- A well-formed A* frontier entry: the priority is g + h and the stored
heuristic is the Manhattan distance of the stored state. -/
def EntryOK (goal : List Nat) (n : Nat) (e : Nat × Node) : Prop :=
  e.1 = e.2.cost + e.2.heuristic ∧
  e.2.heuristic = manhattan_distance e.2.state goal n

/-- The distinct keys of the `explored` association dict. -/
def dictKeys (d : List (List Nat × Nat)) : List (List Nat) :=
  (d.map Prod.fst).dedup

/-- The sum of the current values of the `explored` dict. -/
def dictSum (d : List (List Nat × Nat)) : Nat :=
  ((dictKeys d).map (fun k => (dictGet d k).getD 0)).sum

/-- Strict progress order on `explored` dicts: either a new key appeared,
or the key set is unchanged and some value strictly decreased. -/
def dictLt (d2 d : List (List Nat × Nat)) : Prop :=
  (dictKeys d).length < (dictKeys d2).length ∨
    ((dictKeys d2).length = (dictKeys d).length ∧ dictSum d2 < dictSum d)

/-- The loop invariant of the A* search (with the Manhattan heuristic),
relative to a fixed shortest solution path laid out as the vertex list
`vs` of length `L + 1` from the initial state to the goal: frontier
entries are well-formed rooted chains, the frontier is a well-shaped heap,
and along the fixed path, any vertex discovered at an optimal-or-better
dict value either still has a frontier entry at that cost or has already
pushed its successor's dict value down to the successor's optimal value. -/
structure AstarInv (init goal : List Nat) (n : Nat) (vs : List (List Nat)) (L : Nat)
    (heap : List (Nat × Node)) (dict : List (List Nat × Nat)) : Prop where
  entry_ok : ∀ e ∈ heap, EntryOK goal n e ∧ ChainOK init n e.2
  hprop : HeapProp heap
  pathinv : ∀ i c, i ≤ L → dictGet dict (vs.getD i []) = some c → c ≤ i →
    (∃ e ∈ heap, e.2.state = vs.getD i [] ∧ e.2.cost ≤ i) ∨
    (i < L ∧ ∃ c2, dictGet dict (vs.getD (i + 1) []) = some c2 ∧ c2 ≤ i + 1)
  base : ∃ c0, dictGet dict (vs.getD 0 []) = some c0 ∧ c0 ≤ 0
  keys_valid : ∀ p ∈ dict, ValidState p.1 n

/-! ## Basic facts about the move model -/

theorem length_apply_move (state : List Nat) (move : Move) (n : Nat) :
    (apply_move state move n).length = state.length := by
  simp [apply_move]

theorem set_getElem_self_eq (l : List Nat) (i : Nat) (h : i < l.length) :
    l.set i l[i] = l := by
  apply List.ext_getElem
  · simp
  · intro k hk hk2
    rcases eq_or_ne i k with rfl | hne
    · simp
    · simp [List.getElem_set_ne hne]

/-- Swapping two in-range positions of a list yields a permutation of it. -/
theorem perm_set_set (s : List Nat) (i j : Nat) (hi : i < s.length) (hj : j < s.length) :
    ((s.set i (s.getD j 0)).set j (s.getD i 0)).Perm s := by
  rcases eq_or_ne i j with rfl | hne
  · rw [List.getD_eq_getElem s 0 hi, List.set_set, set_getElem_self_eq s i hi]
  · rw [List.perm_iff_count]
    intro b
    rw [List.getD_eq_getElem s 0 hi, List.getD_eq_getElem s 0 hj]
    have hj2 : j < (s.set i s[j]).length := by simpa using hj
    rw [List.count_set _ _ _ _ hj2, List.count_set _ _ _ _ hi]
    have hsj : (s.set i s[j])[j] = s[j] := List.getElem_set_ne hne _
    rw [hsj]
    have h1 : s[i] ∈ s := List.getElem_mem hi
    have hle : (if (s[i] == b) = true then 1 else 0) ≤ s.count b := by
      split
      · rename_i h
        rw [beq_iff_eq] at h
        subst h
        exact List.one_le_count_iff.2 h1
      · exact Nat.zero_le _
    omega

/-- For a valid state (with `n ≥ 1`), the blank is present and its index is
in range. -/
theorem blank_lt_length {s : List Nat} {n : Nat} (hs : ValidState s n) (hn : 1 ≤ n) :
    s.indexOf 0 < s.length := by
  apply List.indexOf_lt_length.2
  exact hs.mem_iff.2 (List.mem_range.2 (by positivity))

theorem length_of_valid {s : List Nat} {n : Nat} (hs : ValidState s n) :
    s.length = n * n := by
  simpa using hs.length_eq

/-- `apply_move` preserves validity for every move, legal or not: a legal
move swaps two in-range cells; the degenerate cases reduce to the identity. -/
theorem valid_apply_move {s : List Nat} {n : Nat} (m : Move) (hs : ValidState s n) :
    ValidState (apply_move s m n) n := by
  rcases Nat.eq_zero_or_pos n with rfl | hn
  · have : s = [] := by simpa using hs.eq_nil
    subst this
    simpa [apply_move] using hs
  · have he : s.indexOf 0 < s.length := blank_lt_length hs hn
    set e := s.indexOf 0 with hedef
    set j := (swap_index_of s m n).toNat with hjdef
    by_cases hj : j < s.length
    · exact (perm_set_set s e j he hj).trans hs
    · push_neg at hj
      have h1 : (s.set e (s.getD j 0)).length ≤ j := by simpa using hj
      unfold apply_move
      rw [← hedef, ← hjdef, List.set_eq_of_length_le h1, List.getD_eq_default _ _ hj]
      have h0 : s[e] = 0 := List.getElem_indexOf he
      rw [← h0, set_getElem_self_eq s e he]
      exact hs

/-- Characterization of legality by the blank's row and column. -/
theorem UP_mem_iff {s : List Nat} {n : Nat} :
    Move.UP ∈ get_possible_moves s n ↔ 0 < s.indexOf 0 / n := by
  simp [get_possible_moves]

theorem DOWN_mem_iff {s : List Nat} {n : Nat} :
    Move.DOWN ∈ get_possible_moves s n ↔ s.indexOf 0 / n < n - 1 := by
  simp [get_possible_moves]

theorem LEFT_mem_iff {s : List Nat} {n : Nat} :
    Move.LEFT ∈ get_possible_moves s n ↔ 0 < s.indexOf 0 % n := by
  simp [get_possible_moves]

theorem RIGHT_mem_iff {s : List Nat} {n : Nat} :
    Move.RIGHT ∈ get_possible_moves s n ↔ s.indexOf 0 % n < n - 1 := by
  simp [get_possible_moves]

/-- A legal move can only exist on a board of positive dimension. -/
theorem legal_n_pos {n : Nat} {s : List Nat} {m : Move} (hs : ValidState s n)
    (hm : m ∈ get_possible_moves s n) : 1 ≤ n := by
  by_contra h
  have hn0 : n = 0 := by omega
  subst hn0
  have hsnil : s = [] := by simpa using hs.eq_nil
  subst hsnil
  rw [show get_possible_moves [] 0 = [] from rfl] at hm
  exact absurd hm (List.not_mem_nil m)

/-- For a legal move the swap index is non-negative, in range, and differs
from the blank's index. -/
theorem legal_swap_spec {n : Nat} {s : List Nat} {m : Move} (hs : ValidState s n)
    (hm : m ∈ get_possible_moves s n) :
    0 ≤ swap_index_of s m n ∧ (swap_index_of s m n).toNat < n * n ∧
      (swap_index_of s m n).toNat ≠ s.indexOf 0 := by
  have hn1 := legal_n_pos hs hm
  have he : s.indexOf 0 < n * n := by
    have h := blank_lt_length hs hn1
    rwa [length_of_valid hs] at h
  have hdm := Nat.div_add_mod (s.indexOf 0) n
  have hmlt : s.indexOf 0 % n < n := Nat.mod_lt _ (by omega)
  have hmle : s.indexOf 0 % n ≤ s.indexOf 0 := Nat.mod_le _ _
  have hmul : (n - 1) * n + n = n * n := by
    have h := Nat.succ_mul (n - 1) n
    have h2 : (n - 1).succ = n := by omega
    rw [h2] at h
    omega
  cases m with
  | UP =>
    rw [UP_mem_iff] at hm
    have h1 : 1 * n ≤ s.indexOf 0 := (Nat.le_div_iff_mul_le (by omega)).1 (by omega)
    simp only [swap_index_of]
    omega
  | DOWN =>
    rw [DOWN_mem_iff] at hm
    have h1 : s.indexOf 0 < (n - 1) * n := (Nat.div_lt_iff_lt_mul (by omega)).1 hm
    simp only [swap_index_of]
    omega
  | LEFT =>
    rw [LEFT_mem_iff] at hm
    simp only [swap_index_of]
    omega
  | RIGHT =>
    rw [RIGHT_mem_iff] at hm
    have hq : s.indexOf 0 / n < n := (Nat.div_lt_iff_lt_mul (by omega)).2 (by omega)
    have hle2 : n * (s.indexOf 0 / n) ≤ n * (n - 1) := Nat.mul_le_mul_left n (by omega)
    have hmul2 : n * (n - 1) + n = n * n := by
      rw [Nat.mul_comm n (n - 1)]
      exact hmul
    simp only [swap_index_of]
    omega

/-! ## C6: applying a move and then its opposite -/

/-- Unfolding of `apply_move` as a double `set`. -/
theorem apply_move_eq (state : List Nat) (move : Move) (n : Nat) :
    apply_move state move n =
      (state.set (state.indexOf 0) (state.getD ((swap_index_of state move n).toNat) 0)).set
        ((swap_index_of state move n).toNat) (state.getD (state.indexOf 0) 0) := rfl

/-- Swapping positions `e` and `j` and then swapping `j` and `e` restores
the original list. -/
theorem swap_swap (s : List Nat) (e j : Nat) (he : e < s.length) (hj : j < s.length) :
    ((((s.set e (s.getD j 0)).set j (s.getD e 0)).set j
        (((s.set e (s.getD j 0)).set j (s.getD e 0)).getD e 0)).set e
        (((s.set e (s.getD j 0)).set j (s.getD e 0)).getD j 0)) = s := by
  have hgde : s.getD e 0 = s[e] := List.getD_eq_getElem s 0 he
  have hgdj : s.getD j 0 = s[j] := List.getD_eq_getElem s 0 hj
  rw [hgde, hgdj]
  have hte : e < ((s.set e s[j]).set j s[e]).length := by simpa using he
  have htj : j < ((s.set e s[j]).set j s[e]).length := by simpa using hj
  rw [List.getD_eq_getElem _ 0 hte, List.getD_eq_getElem _ 0 htj]
  apply List.ext_getElem
  · simp
  · intro k hk1 hk2
    simp only [List.getElem_set]
    split_ifs <;> simp_all

/-- A valid state has no duplicate tiles. -/
theorem valid_nodup {s : List Nat} {n : Nat} (hs : ValidState s n) : s.Nodup :=
  (List.nodup_range _).perm hs.symm

/-- After a legal move, the blank sits at the move's swap index. -/
theorem indexOf_apply_move {n : Nat} {s : List Nat} {m : Move} (hs : ValidState s n)
    (hm : m ∈ get_possible_moves s n) :
    (apply_move s m n).indexOf 0 = (swap_index_of s m n).toNat := by
  have hn1 := legal_n_pos hs hm
  obtain ⟨hpos, hlt, hne⟩ := legal_swap_spec hs hm
  have hsl : s.length = n * n := length_of_valid hs
  have he : s.indexOf 0 < s.length := blank_lt_length hs hn1
  have hj : (swap_index_of s m n).toNat < s.length := by omega
  have h0 : s[s.indexOf 0] = 0 := List.getElem_indexOf he
  have hs2 : ValidState (apply_move s m n) n := valid_apply_move m hs
  have hnodup : (apply_move s m n).Nodup := valid_nodup hs2
  have hlen2 : (apply_move s m n).length = s.length := length_apply_move s m n
  have hjl : (swap_index_of s m n).toNat < (apply_move s m n).length := by omega
  have hval : (apply_move s m n)[(swap_index_of s m n).toNat] = 0 := by
    simp only [apply_move_eq s m n, List.getElem_set_self]
    rw [List.getD_eq_getElem s 0 he, h0]
  have h := List.indexOf_getElem hnodup ((swap_index_of s m n).toNat) hjl
  rw [hval] at h
  exact h

/-- Applying a legal move and then any move whose swap index points back at
the original blank restores the state. -/
theorem apply_move_back {n : Nat} {s : List Nat} {m m2 : Move} (hs : ValidState s n)
    (hm : m ∈ get_possible_moves s n)
    (hback : (swap_index_of (apply_move s m n) m2 n).toNat = s.indexOf 0) :
    apply_move (apply_move s m n) m2 n = s := by
  have hn1 := legal_n_pos hs hm
  obtain ⟨hpos, hlt, hne⟩ := legal_swap_spec hs hm
  have hsl : s.length = n * n := length_of_valid hs
  have he : s.indexOf 0 < s.length := blank_lt_length hs hn1
  have hj : (swap_index_of s m n).toNat < s.length := by omega
  rw [apply_move_eq (apply_move s m n) m2 n, indexOf_apply_move hs hm, hback,
    apply_move_eq s m n]
  exact swap_swap s (s.indexOf 0) ((swap_index_of s m n).toNat) he hj

/-- C6.  On a valid state, applying a legal move and then the opposite
direction returns the original state, for all four direction pairs. -/
theorem apply_move_opposite {n : Nat} {s : List Nat} (hs : ValidState s n) :
    (Move.UP ∈ get_possible_moves s n →
      apply_move (apply_move s Move.UP n) Move.DOWN n = s) ∧
    (Move.DOWN ∈ get_possible_moves s n →
      apply_move (apply_move s Move.DOWN n) Move.UP n = s) ∧
    (Move.LEFT ∈ get_possible_moves s n →
      apply_move (apply_move s Move.LEFT n) Move.RIGHT n = s) ∧
    (Move.RIGHT ∈ get_possible_moves s n →
      apply_move (apply_move s Move.RIGHT n) Move.LEFT n = s) := by
  refine ⟨fun hm => ?_, fun hm => ?_, fun hm => ?_, fun hm => ?_⟩
  all_goals
    have hn1 := legal_n_pos hs hm
    obtain ⟨hpos, hlt, hne⟩ := legal_swap_spec hs hm
    apply apply_move_back hs hm
    simp only [swap_index_of] at hpos hlt hne ⊢
    rw [indexOf_apply_move hs hm]
    simp only [swap_index_of]
  · rw [UP_mem_iff] at hm
    have h1 : 1 * n ≤ s.indexOf 0 := (Nat.le_div_iff_mul_le (by omega)).1 (by omega)
    omega
  · omega
  · rw [LEFT_mem_iff] at hm
    have h1 : s.indexOf 0 % n ≤ s.indexOf 0 := Nat.mod_le _ _
    omega
  · omega

/-- C6 witness: a concrete instance of `apply_move_opposite`. -/
theorem apply_move_opposite_witness :
    apply_move (apply_move [1, 2, 3, 0] Move.UP 2) Move.DOWN 2 = [1, 2, 3, 0] :=
  (apply_move_opposite (by decide)).1 (by decide)

/-! ## C5: legality versus index bounds -/

/-- C5 counterexample.  In the 2x2 board `(1, 0, 2, 3)` the move RIGHT is
not returned by `get_possible_moves`, yet the index `apply_move` would
access (the blank index plus one, i.e. 2) is within `0..n*n-1`: legality is
not characterized by in-bounds index access alone. -/
theorem legal_moves_bounds_counterexample :
    ValidState [1, 0, 2, 3] 2 ∧ Move.RIGHT ∉ get_possible_moves [1, 0, 2, 3] 2 ∧
      move_in_bounds [1, 0, 2, 3] Move.RIGHT 2 := by decide

/-- C5 amended.  For board sizes 2..5 and every valid state, every returned
move's application stays within `0..n*n-1`; the converse characterization
survives only for UP and DOWN (a LEFT/RIGHT move at a row boundary can stay
in bounds of the flat array while illegal). -/
theorem legal_moves_in_bounds {n : Nat} (hn : n = 2 ∨ n = 3 ∨ n = 4 ∨ n = 5)
    {s : List Nat} (hs : ValidState s n) (m : Move) :
    (m ∈ get_possible_moves s n → move_in_bounds s m n) ∧
    ((m = Move.UP ∨ m = Move.DOWN) →
      (m ∈ get_possible_moves s n ↔ move_in_bounds s m n)) := by
  have hn1 : 1 ≤ n := by rcases hn with rfl | rfl | rfl | rfl <;> omega
  have he : s.indexOf 0 < n * n := by
    have h := blank_lt_length hs hn1
    rwa [length_of_valid hs] at h
  set e := s.indexOf 0 with hedef
  clear_value e
  have hdm := Nat.div_add_mod e n
  have hmlt : e % n < n := Nat.mod_lt _ (by omega)
  have hmle : e % n ≤ e := Nat.mod_le _ _
  have hmul : (n - 1) * n + n = n * n := by
    have h := Nat.succ_mul (n - 1) n
    have h2 : (n - 1).succ = n := by omega
    rw [h2] at h
    omega
  have hUP : Move.UP ∈ get_possible_moves s n ↔ move_in_bounds s Move.UP n := by
    rw [UP_mem_iff]
    have h1 : 0 < e / n ↔ 1 * n ≤ e := by
      rw [← Nat.le_div_iff_mul_le (by omega)]
      omega
    simp only [move_in_bounds, swap_index_of, ← hedef]
    rw [h1]
    omega
  have hDOWN : Move.DOWN ∈ get_possible_moves s n ↔ move_in_bounds s Move.DOWN n := by
    rw [DOWN_mem_iff]
    have h1 : e / n < n - 1 ↔ e < (n - 1) * n := Nat.div_lt_iff_lt_mul (by omega)
    simp only [move_in_bounds, swap_index_of, ← hedef]
    rw [h1]
    constructor
    · intro h2
      omega
    · intro h2
      omega
  have hLEFT : Move.LEFT ∈ get_possible_moves s n → move_in_bounds s Move.LEFT n := by
    rw [LEFT_mem_iff]
    simp only [move_in_bounds, swap_index_of, ← hedef]
    intro h1
    omega
  have hRIGHT : Move.RIGHT ∈ get_possible_moves s n → move_in_bounds s Move.RIGHT n := by
    rw [RIGHT_mem_iff]
    simp only [move_in_bounds, swap_index_of, ← hedef]
    intro h1
    have hq : e / n < n := (Nat.div_lt_iff_lt_mul (by omega)).2 (by omega)
    have hle2 : n * (e / n) ≤ n * (n - 1) := Nat.mul_le_mul_left n (by omega)
    have hmul2 : n * (n - 1) + n = n * n := by
      rw [Nat.mul_comm n (n - 1)]
      exact hmul
    omega
  cases m with
  | UP => exact ⟨hUP.1, fun _ => hUP⟩
  | DOWN => exact ⟨hDOWN.1, fun _ => hDOWN⟩
  | LEFT => exact ⟨hLEFT, by simp⟩
  | RIGHT => exact ⟨hRIGHT, by simp⟩

/-- C5 amended witness: a concrete instance of `legal_moves_in_bounds`. -/
theorem legal_moves_in_bounds_witness :
    ValidState [1, 2, 3, 0] 2 ∧ move_in_bounds [1, 2, 3, 0] Move.UP 2 :=
  ⟨by decide, (legal_moves_in_bounds (Or.inl rfl) (by decide) Move.UP).1 (by decide)⟩

/-! ## C3: the permutation invariant -/

/-- The goal state is a permutation of `0..n*n-1` for every positive board
dimension. -/
theorem goal_state_valid {n : Nat} (hn : 1 ≤ n) : ValidState (get_goal_state n) n := by
  unfold ValidState get_goal_state
  have h1 : n * n = (n * n - 1) + 1 := by
    have : 1 ≤ n * n := Nat.one_le_iff_ne_zero.2 (by positivity)
    omega
  rw [h1, List.range_eq_range', List.range'_succ]
  exact (List.perm_append_comm).trans (by simp)

/-- Shuffling preserves validity for every choice oracle. -/
theorem shuffle_board_valid {n : Nat} (choice : Nat → Nat) {s : List Nat}
    (hs : ValidState s n) : ValidState (shuffle_board choice s n) n := by
  simp only [shuffle_board]
  generalize List.range (n * n * 15) = l
  induction l generalizing s with
  | nil => exact hs
  | cons k rest ih =>
    simp only [List.foldl_cons]
    exact ih (valid_apply_move _ hs)

/-- C3.  Valid states (permutations of `0..n*n-1`) are preserved: the goal
state is valid, a legal move keeps validity and never changes the length,
and every shuffle result is valid. -/
theorem permutation_invariant {n : Nat} (hn : 1 ≤ n) :
    ValidState (get_goal_state n) n ∧
    (∀ s m, ValidState s n → m ∈ get_possible_moves s n →
      ValidState (apply_move s m n) n ∧ (apply_move s m n).length = s.length) ∧
    (∀ choice s, ValidState s n → ValidState (shuffle_board choice s n) n) := by
  refine ⟨goal_state_valid hn, fun s m hs _ => ⟨valid_apply_move m hs, length_apply_move s m n⟩,
    fun choice s hs => shuffle_board_valid choice hs⟩

/-- C3 witness: concrete instances of `permutation_invariant` at `n = 2`. -/
theorem permutation_invariant_witness :
    ValidState (get_goal_state 2) 2 ∧ ValidState (apply_move [1, 0, 2, 3] Move.DOWN 2) 2 ∧
      ValidState (shuffle_board (fun _ => 0) (get_goal_state 2) 2) 2 :=
  ⟨(permutation_invariant (by decide)).1,
   ((permutation_invariant (by decide)).2.1 [1, 0, 2, 3] Move.DOWN (by decide) (by decide)).1,
   (permutation_invariant (by decide)).2.2 (fun _ => 0) (get_goal_state 2) (by decide)⟩

/-! ## C4 and C7: heuristic values -/

theorem natSum_eq_zero_iff (l : List Nat) : l.sum = 0 ↔ ∀ x ∈ l, x = 0 := by
  induction l with
  | nil => simp
  | cons a t ih => simp [ih]

theorem natSum_le_sum (l : List Nat) (f g : Nat → Nat) (h : ∀ i ∈ l, f i ≤ g i) :
    (l.map f).sum ≤ (l.map g).sum := by
  induction l with
  | nil => simp
  | cons a t ih =>
    simp only [List.map_cons, List.sum_cons]
    exact Nat.add_le_add (h a (List.mem_cons_self a t)) (ih fun i hi => h i (List.mem_cons_of_mem a hi))

theorem natDiff_eq_zero_iff {a b : Nat} : natDiff a b = 0 ↔ a = b := by
  unfold natDiff
  omega

theorem tile_dist_eq_zero_iff {n i gi : Nat} :
    tile_dist n i gi = 0 ↔ i / n = gi / n ∧ i % n = gi % n := by
  unfold tile_dist natDiff
  omega

theorem tile_dist_self (n i : Nat) : tile_dist n i i = 0 := by
  unfold tile_dist natDiff
  omega

theorem divmod_inj {n i gi : Nat} (h1 : i / n = gi / n) (h2 : i % n = gi % n) : i = gi := by
  have d1 := Nat.div_add_mod i n
  have d2 := Nat.div_add_mod gi n
  rw [h1, h2] at d1
  omega

/-- Tile values of a valid state live in the goal state. -/
theorem valid_mem_goal {n : Nat} (hn : 1 ≤ n) {S : List Nat} (hS : ValidState S n) {v : Nat}
    (hv : v ∈ S) : v ∈ get_goal_state n :=
  ((goal_state_valid hn).mem_iff).2 (hS.mem_iff.1 hv)

/-- Reading the goal at the index of a present value returns the value. -/
theorem goal_getD_indexOf {n : Nat} {v : Nat} (hv : v ∈ get_goal_state n) :
    (get_goal_state n).getD ((get_goal_state n).indexOf v) 0 = v := by
  have hgi : (get_goal_state n).indexOf v < (get_goal_state n).length :=
    List.indexOf_lt_length.2 hv
  rw [List.getD_eq_getElem _ 0 hgi]
  exact List.getElem_indexOf hgi

/-- A non-blank tile away from its goal cell contributes at least one to the
Manhattan distance. -/
theorem one_le_tile_dist {n : Nat} (hn : 1 ≤ n) {S : List Nat} (hS : ValidState S n) {i : Nat}
    (hi : i < S.length) ( _h0 : S.getD i 0 ≠ 0)
    (hg : S.getD i 0 ≠ (get_goal_state n).getD i 0) :
    1 ≤ tile_dist n i ((get_goal_state n).indexOf (S.getD i 0)) := by
  by_contra hx
  have hz : tile_dist n i ((get_goal_state n).indexOf (S.getD i 0)) = 0 := by omega
  obtain ⟨hdiv, hmod⟩ := tile_dist_eq_zero_iff.1 hz
  have hieq := divmod_inj hdiv hmod
  have hvS : S.getD i 0 ∈ S := by
    rw [List.getD_eq_getElem _ 0 hi]
    exact List.getElem_mem hi
  have hvalD := goal_getD_indexOf (valid_mem_goal hn hS hvS)
  rw [← hieq] at hvalD
  exact hg hvalD.symm

/-- Manhattan distance dominates the misplaced-tiles count on valid states. -/
theorem misplaced_le_manhattan_aux {n : Nat} {S : List Nat} (hS : ValidState S n) :
    misplaced_tiles_heuristic S (get_goal_state n) n ≤
      manhattan_distance S (get_goal_state n) n := by
  unfold manhattan_distance misplaced_tiles_heuristic
  apply natSum_le_sum
  intro i hi
  have hi2 : i < S.length := List.mem_range.1 hi
  have hn : 1 ≤ n := by
    by_contra hc
    have hn0 : n = 0 := by omega
    subst hn0
    rw [length_of_valid hS] at hi2
    simp at hi2
  show (if S.getD i 0 ≠ 0 ∧ S.getD i 0 ≠ (get_goal_state n).getD i 0 then 1 else 0) ≤
    (if S.getD i 0 = 0 then 0 else tile_dist n i ((get_goal_state n).indexOf (S.getD i 0)))
  by_cases h0 : S.getD i 0 = 0
  · rw [if_neg (fun hc => hc.1 h0), if_pos h0]
  · by_cases hg : S.getD i 0 = (get_goal_state n).getD i 0
    · rw [if_neg (fun hc => hc.2 hg), if_neg h0]
      exact Nat.zero_le _
    · rw [if_pos ⟨h0, hg⟩, if_neg h0]
      exact one_le_tile_dist hn hS hi2 h0 hg

/-- C4 counterexample (the claim's negation): there is no valid state whose
Manhattan distance is strictly below its misplaced-tiles count — each
misplaced tile contributes at least 1 to the Manhattan sum. -/
theorem manhattan_lt_misplaced_counterexample :
    ¬ ∃ (n : Nat) (S : List Nat), ValidState S n ∧
      manhattan_distance S (get_goal_state n) n <
        misplaced_tiles_heuristic S (get_goal_state n) n := by
  rintro ⟨n, S, hS, hlt⟩
  exact absurd (misplaced_le_manhattan_aux hS) (by omega)

/-- C4 amended.  On every valid state the Manhattan distance is at least the
misplaced-tiles count (the heuristics are comparable, in this direction). -/
theorem misplaced_le_manhattan {n : Nat} {S : List Nat} (hS : ValidState S n) :
    misplaced_tiles_heuristic S (get_goal_state n) n ≤
      manhattan_distance S (get_goal_state n) n :=
  misplaced_le_manhattan_aux hS

/-- C4 amended witness. -/
theorem misplaced_le_manhattan_witness :
    misplaced_tiles_heuristic [2, 1, 3, 0] (get_goal_state 2) 2 ≤
      manhattan_distance [2, 1, 3, 0] (get_goal_state 2) 2 :=
  misplaced_le_manhattan (by decide)

theorem goal_state_length {n : Nat} (hn : 1 ≤ n) : (get_goal_state n).length = n * n := by
  have h1 : 1 ≤ n * n := Nat.one_le_iff_ne_zero.2 (by positivity)
  simp [get_goal_state]
  omega

theorem goal_state_getD_last {n : Nat} (hn : 1 ≤ n) :
    (get_goal_state n).getD (n * n - 1) 0 = 0 := by
  have h1 : 1 ≤ n * n := Nat.one_le_iff_ne_zero.2 (by positivity)
  have hp : n * n - 1 < (get_goal_state n).length := by
    rw [goal_state_length hn]
    omega
  rw [List.getD_eq_getElem _ 0 hp]
  unfold get_goal_state
  exact List.getElem_concat_length _ _ _ (by simp) _

/-- A valid state that agrees with the goal at every non-blank cell is the
goal. -/
theorem eq_goal_of_pointwise {n : Nat} (hn : 1 ≤ n) {S : List Nat} (hS : ValidState S n)
    (h : ∀ i, i < S.length → S.getD i 0 = 0 ∨ S.getD i 0 = (get_goal_state n).getD i 0) :
    S = get_goal_state n := by
  have h1 : 1 ≤ n * n := Nat.one_le_iff_ne_zero.2 (by positivity)
  have hlenS : S.length = n * n := length_of_valid hS
  have hlenG : (get_goal_state n).length = n * n := goal_state_length hn
  have hnoS : S.Nodup := valid_nodup hS
  have hk : S.indexOf 0 < S.length := blank_lt_length hS hn
  have hSk : S[S.indexOf 0] = 0 := List.getElem_indexOf hk
  have hklast : S.indexOf 0 = n * n - 1 := by
    by_contra hne
    have hp : n * n - 1 < S.length := by omega
    have hS0 : S.getD (n * n - 1) 0 = 0 := by
      rcases h (n * n - 1) hp with h2 | h2
      · exact h2
      · rw [h2, goal_state_getD_last hn]
    rw [List.getD_eq_getElem _ 0 hp] at hS0
    exact hne (hnoS.getElem_inj_iff.1 (hSk.trans hS0.symm))
  apply List.ext_getElem (by omega)
  intro i hi1 hi2
  rcases h i hi1 with h0 | heq
  · rw [List.getD_eq_getElem _ 0 hi1] at h0
    have hik : i = S.indexOf 0 := hnoS.getElem_inj_iff.1 (h0.trans hSk.symm)
    have hgoal : (get_goal_state n).getD i 0 = 0 := by
      rw [hik, hklast]
      exact goal_state_getD_last hn
    rw [List.getD_eq_getElem _ 0 hi2] at hgoal
    rw [h0, hgoal]
  · rw [List.getD_eq_getElem _ 0 hi1, List.getD_eq_getElem _ 0 hi2] at heq
    exact heq

/-- A zero Manhattan distance forces agreement at every non-blank cell. -/
theorem manhattan_zero_pointwise {n : Nat} (hn : 1 ≤ n) {S : List Nat} (hS : ValidState S n)
    (hm : manhattan_distance S (get_goal_state n) n = 0) :
    ∀ i, i < S.length → S.getD i 0 = 0 ∨ S.getD i 0 = (get_goal_state n).getD i 0 := by
  intro i hi
  by_cases h0 : S.getD i 0 = 0
  · exact Or.inl h0
  right
  have hterm : (if S.getD i 0 = 0 then 0
      else tile_dist n i ((get_goal_state n).indexOf (S.getD i 0))) = 0 :=
    (natSum_eq_zero_iff _).1 hm _ (List.mem_map.2 ⟨i, List.mem_range.2 hi, rfl⟩)
  rw [if_neg h0] at hterm
  obtain ⟨hdiv, hmod⟩ := tile_dist_eq_zero_iff.1 hterm
  have hieq := divmod_inj hdiv hmod
  have hvS : S.getD i 0 ∈ S := by
    rw [List.getD_eq_getElem _ 0 hi]
    exact List.getElem_mem hi
  have hvalD := goal_getD_indexOf (valid_mem_goal hn hS hvS)
  rw [← hieq] at hvalD
  exact hvalD.symm

/-- A zero misplaced-tiles count forces agreement at every non-blank cell. -/
theorem misplaced_zero_pointwise {n : Nat} {S : List Nat}
    (hm : misplaced_tiles_heuristic S (get_goal_state n) n = 0) :
    ∀ i, i < S.length → S.getD i 0 = 0 ∨ S.getD i 0 = (get_goal_state n).getD i 0 := by
  intro i hi
  have hterm : (if S.getD i 0 ≠ 0 ∧ S.getD i 0 ≠ (get_goal_state n).getD i 0
      then 1 else 0) = 0 :=
    (natSum_eq_zero_iff _).1 hm _ (List.mem_map.2 ⟨i, List.mem_range.2 hi, rfl⟩)
  by_cases hc : S.getD i 0 ≠ 0 ∧ S.getD i 0 ≠ (get_goal_state n).getD i 0
  · rw [if_pos hc] at hterm
    exact absurd hterm one_ne_zero
  · push_neg at hc
    by_cases h0 : S.getD i 0 = 0
    · exact Or.inl h0
    · exact Or.inr (hc h0)

/-- At the goal both heuristics are zero. -/
theorem manhattan_goal_zero {n : Nat} (hn : 1 ≤ n) :
    manhattan_distance (get_goal_state n) (get_goal_state n) n = 0 := by
  have hnod : (get_goal_state n).Nodup := valid_nodup (goal_state_valid hn)
  rw [manhattan_distance, natSum_eq_zero_iff]
  intro x hx
  obtain ⟨i, hi, rfl⟩ := List.mem_map.1 hx
  have hi2 : i < (get_goal_state n).length := List.mem_range.1 hi
  show (if (get_goal_state n).getD i 0 = 0 then 0
    else tile_dist n i ((get_goal_state n).indexOf ((get_goal_state n).getD i 0))) = 0
  by_cases h0 : (get_goal_state n).getD i 0 = 0
  · rw [if_pos h0]
  · rw [if_neg h0]
    have hidx : (get_goal_state n).indexOf ((get_goal_state n).getD i 0) = i := by
      rw [List.getD_eq_getElem _ 0 hi2]
      exact List.indexOf_getElem hnod i hi2
    rw [hidx]
    exact tile_dist_self n i

theorem misplaced_goal_zero {n : Nat} :
    misplaced_tiles_heuristic (get_goal_state n) (get_goal_state n) n = 0 := by
  rw [misplaced_tiles_heuristic, natSum_eq_zero_iff]
  intro x hx
  obtain ⟨i, _, rfl⟩ := List.mem_map.1 hx
  simp

/-- C7.  On valid states each heuristic is non-negative and vanishes exactly
at the goal state. -/
theorem heuristics_zero_iff_goal {n : Nat} (hn : 1 ≤ n) {S : List Nat} (hS : ValidState S n) :
    0 ≤ manhattan_distance S (get_goal_state n) n ∧
    0 ≤ misplaced_tiles_heuristic S (get_goal_state n) n ∧
    (manhattan_distance S (get_goal_state n) n = 0 ↔ S = get_goal_state n) ∧
    (misplaced_tiles_heuristic S (get_goal_state n) n = 0 ↔ S = get_goal_state n) := by
  refine ⟨Nat.zero_le _, Nat.zero_le _, ⟨fun h => ?_, fun h => ?_⟩, ⟨fun h => ?_, fun h => ?_⟩⟩
  · exact eq_goal_of_pointwise hn hS (manhattan_zero_pointwise hn hS h)
  · rw [h]
    exact manhattan_goal_zero hn
  · exact eq_goal_of_pointwise hn hS (misplaced_zero_pointwise h)
  · rw [h]
    exact misplaced_goal_zero

/-- C7 witness: concrete instance at `n = 2`. -/
theorem heuristics_zero_iff_goal_witness :
    manhattan_distance [1, 2, 3, 0] (get_goal_state 2) 2 = 0 ↔ [1, 2, 3, 0] = get_goal_state 2 :=
  (heuristics_zero_iff_goal (by decide) (by decide)).2.2.1

/-! ## C10: move availability and the shuffler -/

/-- On a board with `n ≥ 2`, every valid state has at least two legal moves
(one vertical, one horizontal). -/
theorem two_le_moves_length {n : Nat} (hn : 2 ≤ n) {s : List Nat} (hs : ValidState s n) :
    2 ≤ (get_possible_moves s n).length := by
  have he : s.indexOf 0 < n * n := by
    have h := blank_lt_length hs (by omega)
    rwa [length_of_valid hs] at h
  have hrow : s.indexOf 0 / n < n := (Nat.div_lt_iff_lt_mul (by omega)).2 (by omega)
  have hcol : s.indexOf 0 % n < n := Nat.mod_lt _ (by omega)
  unfold get_possible_moves
  simp only [List.length_append]
  by_cases h1 : 0 < s.indexOf 0 / n <;> by_cases h2 : s.indexOf 0 / n < n - 1 <;>
    by_cases h3 : 0 < s.indexOf 0 % n <;> by_cases h4 : s.indexOf 0 % n < n - 1 <;>
    simp [h1, h2, h3, h4] <;> omega

/-- One legal step extends an exact-length reachability walk. -/
theorem ReachIn.snoc {n k : Nat} {s t : List Nat} (h : ReachIn n k s t) {m : Move}
    (hm : m ∈ get_possible_moves t n) : ReachIn n (k + 1) s (apply_move t m n) := by
  induction h with
  | refl s => exact ReachIn.step hm (ReachIn.refl _)
  | step hm2 _h ih => exact ReachIn.step hm2 (ih hm)

/-- The shuffle loop performs exactly one legal move per iteration. -/
theorem shuffle_fold_reach {n : Nat} (hn : 2 ≤ n) (choice : Nat → Nat) :
    ∀ (count : Nat) (s : List Nat), ValidState s n →
      ReachIn n count s ((List.range count).foldl (fun temp_state k =>
        apply_move temp_state ((get_possible_moves temp_state n).getD
          (choice k % (get_possible_moves temp_state n).length) Move.UP) n) s) := by
  intro count
  induction count with
  | zero =>
    intro s _
    exact ReachIn.refl s
  | succ k ih =>
    intro s hs
    rw [List.range_succ, List.foldl_append, List.foldl_cons, List.foldl_nil]
    have hvt : ValidState ((List.range k).foldl (fun temp_state k =>
        apply_move temp_state ((get_possible_moves temp_state n).getD
          (choice k % (get_possible_moves temp_state n).length) Move.UP) n) s) n := by
      generalize List.range k = l
      induction l generalizing s with
      | nil => exact hs
      | cons a rest ih2 =>
        simp only [List.foldl_cons]
        exact ih2 _ (valid_apply_move _ hs)
    have hlen : 0 < (get_possible_moves ((List.range k).foldl (fun temp_state k =>
        apply_move temp_state ((get_possible_moves temp_state n).getD
          (choice k % (get_possible_moves temp_state n).length) Move.UP) n) s) n).length := by
      have := two_le_moves_length hn hvt
      omega
    have hmem := List.getElem_mem (l := get_possible_moves ((List.range k).foldl
        (fun temp_state k => apply_move temp_state ((get_possible_moves temp_state n).getD
          (choice k % (get_possible_moves temp_state n).length) Move.UP) n) s) n)
      (Nat.mod_lt (choice k) hlen)
    rw [← List.getD_eq_getElem _ Move.UP (Nat.mod_lt (choice k) hlen)] at hmem
    exact (ih s hs).snoc hmem

/-- C10.  For `n ≥ 2` every valid state has at least two legal moves, so the
random choice in the shuffler is well-defined, and the shuffler performs
exactly `n * n * 15` legal moves from the goal state, yielding a state
reachable from the goal. -/
theorem shuffle_board_reachable {n : Nat} (hn : 2 ≤ n) :
    (∀ s, ValidState s n → 2 ≤ (get_possible_moves s n).length) ∧
    (∀ choice, ReachIn n (n * n * 15) (get_goal_state n)
      (shuffle_board choice (get_goal_state n) n)) := by
  refine ⟨fun s hs => two_le_moves_length hn hs, fun choice => ?_⟩
  have hgv : ValidState (get_goal_state n) n := goal_state_valid (by omega)
  exact shuffle_fold_reach hn choice (n * n * 15) (get_goal_state n) hgv

/-- C10 witness: the 2x2 instance. -/
theorem shuffle_board_reachable_witness :
    2 ≤ (get_possible_moves (get_goal_state 2) 2).length ∧
      ReachIn 2 (2 * 2 * 15) (get_goal_state 2)
        (shuffle_board (fun _ => 1) (get_goal_state 2) 2) :=
  ⟨(shuffle_board_reachable (by decide)).1 (get_goal_state 2) (by decide),
   (shuffle_board_reachable (by decide)).2 (fun _ => 1)⟩

/-! ## C9: returned paths are valid walks -/

theorem reconstruct_path_child (s : List Nat) (p : Node) (a : Move) (c h : Nat) :
    reconstruct_path (Node.child s p a c h) = reconstruct_path p ++ [⟨s, some a⟩] := by
  simp [reconstruct_path, reconstruct_aux]

/-- The reconstruction of a rooted chain has length `cost + 1`. -/
theorem reconstruct_length_chain {init : List Nat} {n : Nat} :
    ∀ {nd : Node}, ChainOK init n nd → (reconstruct_path nd).length = nd.cost + 1 := by
  intro nd
  induction nd with
  | root s h =>
    intro _
    simp [reconstruct_path, reconstruct_aux, Node.cost]
  | child s p a c h ih =>
    intro hc
    obtain ⟨hp, _, _, hcost⟩ := hc
    rw [reconstruct_path_child]
    simp [ih hp, hcost, Node.cost]

/-- The reconstruction of a rooted chain starts at the initial state with no
action. -/
theorem reconstruct_head_chain {init : List Nat} {n : Nat} :
    ∀ {nd : Node}, ChainOK init n nd →
      (reconstruct_path nd).head? = some ⟨init, none⟩ := by
  intro nd
  induction nd with
  | root s h =>
    intro hc
    rw [show s = init from hc]
    rfl
  | child s p a c h ih =>
    intro hc
    rw [reconstruct_path_child]
    rw [List.head?_append_of_ne_nil]
    · exact ih hc.1
    · intro hnil
      have := congrArg List.length hnil
      rw [reconstruct_length_chain hc.1] at this
      simp at this

/-- The reconstruction of a node ends with the node's state and action. -/
theorem reconstruct_getLast (nd : Node) :
    (reconstruct_path nd).getLast? = some ⟨nd.state, nd.action⟩ := by
  cases nd with
  | root s h => rfl
  | child s p a c h =>
    rw [reconstruct_path_child]
    simp [Node.state, Node.action]

theorem StepsOK.snocStep {n : Nat} :
    ∀ {p : List PathElem}, StepsOK n p → ∀ {a b : PathElem}, p.getLast? = some a →
      (∃ m, b.action = some m ∧ m ∈ get_possible_moves a.state n ∧
        b.state = apply_move a.state m n) →
      StepsOK n (p ++ [b]) := by
  intro p
  induction p with
  | nil =>
    intro _ a b hlast _
    simp at hlast
  | cons x xs ih =>
    intro h a b hlast hstep
    cases xs with
    | nil =>
      simp at hlast
      subst hlast
      exact ⟨hstep, trivial⟩
    | cons y rest =>
      refine ⟨h.1, ?_⟩
      exact ih h.2 (by simpa using hlast) hstep

/-- The reconstruction of a rooted chain consists of legal steps. -/
theorem reconstruct_steps_chain {init : List Nat} {n : Nat} :
    ∀ {nd : Node}, ChainOK init n nd → StepsOK n (reconstruct_path nd) := by
  intro nd
  induction nd with
  | root s h =>
    intro _
    exact trivial
  | child s p a c h ih =>
    intro hc
    obtain ⟨hp, hm, hstate, _⟩ := hc
    rw [reconstruct_path_child]
    refine StepsOK.snocStep (ih hp) (reconstruct_getLast p) ⟨a, rfl, hm, hstate⟩

/-- A rooted chain ending at the goal yields the full returned-path
contract. -/
theorem pathSpec_of_chain {init goal : List Nat} {n : Nat} {nd : Node}
    (hc : ChainOK init n nd) (hg : nd.state = goal) :
    PathSpec init goal n (reconstruct_path nd) := by
  refine ⟨reconstruct_head_chain hc, ?_, reconstruct_steps_chain hc,
    nd, hc, hg, rfl, reconstruct_length_chain hc⟩
  rw [reconstruct_getLast nd, hg]
  rfl

/-- Fold induction for loop invariants. -/
theorem foldl_induction {α β : Type} {P : α → Prop} (f : α → β → α) (l : List β) (a : α)
    (h0 : P a) (hf : ∀ acc x, x ∈ l → P acc → P (f acc x)) : P (l.foldl f a) := by
  induction l generalizing a with
  | nil => exact h0
  | cons x xs ih =>
    exact ih (f a x) (hf a x (List.mem_cons_self x xs)
      h0) (fun acc y hy hacc => hf acc y (List.mem_cons_of_mem x hy) hacc)

/-- BFS expansion preserves the rooted-chain invariant of the queue. -/
theorem bfsExpand_chain {init : List Nat} {n : Nat} {node : Node}
    {rest : List Node} {explored : List (List Nat)} (hnode : ChainOK init n node)
    (hrest : ∀ x ∈ rest, ChainOK init n x) :
    ∀ x ∈ (bfsExpand n node (rest, explored)).1, ChainOK init n x := by
  unfold bfsExpand
  refine foldl_induction
    (P := fun (acc : List Node × List (List Nat)) => ∀ x ∈ acc.1, ChainOK init n x)
    _ _ (rest, explored) hrest ?_
  intro acc m hm hacc
  show ∀ x ∈ (if apply_move node.state m n ∈ acc.2 then acc
      else (acc.1 ++ [Node.child (apply_move node.state m n) node m (node.cost + 1) 0],
        apply_move node.state m n :: acc.2)).1, ChainOK init n x
  by_cases hmem : apply_move node.state m n ∈ acc.2
  · simpa [hmem] using hacc
  · simp only [if_neg hmem]
    intro x hx
    rcases List.mem_append.1 hx with hx | hx
    · exact hacc x hx
    · rw [List.mem_singleton.1 hx]
      exact ⟨hnode, hm, rfl, rfl⟩

/-- Every path returned by the BFS loop reconstructs a rooted chain ending
at the goal. -/
theorem bfsLoop_spec {init goal : List Nat} {n : Nat} :
    ∀ (fuel : Nat) (frontier : List Node) (explored : List (List Nat)) (cnt : Nat),
      (∀ x ∈ frontier, ChainOK init n x) →
      ∀ p c, bfsLoop goal n fuel frontier explored cnt = (some p, c) →
      ∃ nd, ChainOK init n nd ∧ nd.state = goal ∧ p = reconstruct_path nd := by
  intro fuel
  induction fuel with
  | zero =>
    intro frontier explored cnt _ p c heq
    simp [bfsLoop] at heq
  | succ fuel ih =>
    intro frontier explored cnt hinv p c heq
    cases frontier with
    | nil => simp [bfsLoop] at heq
    | cons node rest =>
      rw [bfsLoop] at heq
      by_cases hgoal : node.state = goal
      · rw [if_pos hgoal] at heq
        injection heq with h1 _
        injection h1 with h1
        exact ⟨node, hinv node (List.mem_cons_self _ _), hgoal, h1.symm⟩
      · rw [if_neg hgoal] at heq
        exact ih _ _ _ (bfsExpand_chain (hinv node (List.mem_cons_self _ _))
          (fun x hx => hinv x (List.mem_cons_of_mem _ hx))) p c heq

/-- DFS expansion preserves the rooted-chain invariant of the stack. -/
theorem dfsExpand_chain {init : List Nat} {n : Nat} {node : Node} {rest : List Node}
    (hnode : ChainOK init n node) (hrest : ∀ x ∈ rest, ChainOK init n x) :
    ∀ x ∈ dfsExpand n node rest, ChainOK init n x := by
  unfold dfsExpand
  refine foldl_induction (P := fun (st : List Node) => ∀ x ∈ st, ChainOK init n x)
    _ _ rest hrest ?_
  intro acc m hm hacc x hx
  rcases List.mem_cons.1 hx with rfl | hx
  · exact ⟨hnode, List.mem_reverse.1 hm, rfl, rfl⟩
  · exact hacc x hx

/-- Every path returned by the DFS loop reconstructs a rooted chain ending
at the goal. -/
theorem dfsLoop_spec {init goal : List Nat} {n : Nat} :
    ∀ (fuel : Nat) (frontier : List Node) (explored : List (List Nat)) (cnt : Nat),
      (∀ x ∈ frontier, ChainOK init n x) →
      ∀ p c, dfsLoop goal n fuel frontier explored cnt = (some p, c) →
      ∃ nd, ChainOK init n nd ∧ nd.state = goal ∧ p = reconstruct_path nd := by
  intro fuel
  induction fuel with
  | zero =>
    intro frontier explored cnt _ p c heq
    simp [dfsLoop] at heq
  | succ fuel ih =>
    intro frontier explored cnt hinv p c heq
    cases frontier with
    | nil => simp [dfsLoop] at heq
    | cons node rest =>
      rw [dfsLoop] at heq
      have hrest : ∀ x ∈ rest, ChainOK init n x := fun x hx => hinv x (List.mem_cons_of_mem _ hx)
      by_cases hseen : node.state ∈ explored
      · rw [if_pos hseen] at heq
        exact ih _ _ _ hrest p c heq
      · rw [if_neg hseen] at heq
        by_cases hgoal : node.state = goal
        · rw [if_pos hgoal] at heq
          injection heq with h1 _
          injection h1 with h1
          exact ⟨node, hinv node (List.mem_cons_self _ _), hgoal, h1.symm⟩
        · rw [if_neg hgoal] at heq
          by_cases hdepth : node.cost > n * n * 2
          · rw [if_pos hdepth] at heq
            exact ih _ _ _ hrest p c heq
          · rw [if_neg hdepth] at heq
            exact ih _ _ _ (dfsExpand_chain (hinv node (List.mem_cons_self _ _)) hrest) p c heq

/-! ### heapq membership -/

theorem getD_mem_or (l : List (Nat × Node)) (i : Nat) (d : Nat × Node) :
    l.getD i d ∈ l ∨ l.getD i d = d := by
  by_cases h : i < l.length
  · rw [List.getD_eq_getElem _ _ h]
    exact Or.inl (List.getElem_mem h)
  · rw [List.getD_eq_default _ _ (by omega)]
    exact Or.inr rfl

theorem siftdownLoop_mem {startpos : Nat} {newitem : Nat × Node} :
    ∀ (pos : Nat) (heap : List (Nat × Node)) (x : Nat × Node),
      x ∈ siftdownLoop startpos newitem heap pos → x ∈ heap ∨ x = newitem := by
  intro pos
  induction pos using Nat.strong_induction_on with
  | _ pos ih =>
    intro heap x hx
    rw [siftdownLoop] at hx
    split at hx
    · rename_i h1
      simp only [] at hx
      split at hx
      · rcases ih ((pos - 1) / 2) (by omega) _ x hx with hx2 | hx2
        · rcases List.mem_or_eq_of_mem_set hx2 with h3 | h3
          · exact Or.inl h3
          · rcases getD_mem_or heap ((pos - 1) / 2) newitem with h4 | h4
            · exact Or.inl (h3 ▸ h4)
            · exact Or.inr (h3.trans h4)
        · exact Or.inr hx2
      · exact List.mem_or_eq_of_mem_set hx
    · exact List.mem_or_eq_of_mem_set hx

theorem siftupLoop_mem {endpos : Nat} {newitem : Nat × Node} :
    ∀ (k pos : Nat) (heap : List (Nat × Node)), endpos - pos ≤ k →
      ∀ x, x ∈ (siftupLoop endpos newitem heap pos).1 → x ∈ heap ∨ x = newitem := by
  intro k
  induction k with
  | zero =>
    intro pos heap hk x hx
    rw [siftupLoop] at hx
    have hno : ¬ 2 * pos + 1 < endpos := by omega
    rw [dif_neg hno] at hx
    exact List.mem_or_eq_of_mem_set hx
  | succ k ih =>
    intro pos heap hk x hx
    rw [siftupLoop] at hx
    split at hx
    · rename_i h1
      set CP := if 2 * pos + 1 + 1 < endpos ∧
          ¬ tupLt (heap.getD (2 * pos + 1) newitem) (heap.getD (2 * pos + 1 + 1) newitem) = true
          then 2 * pos + 1 + 1 else 2 * pos + 1 with hCP
      have hCPge : 2 * pos + 1 ≤ CP := by
        rw [hCP]
        split <;> omega
      rcases ih CP _ (by omega) x hx with hx2 | hx2
      · rcases List.mem_or_eq_of_mem_set hx2 with h3 | h3
        · exact Or.inl h3
        · rcases getD_mem_or heap CP newitem with h4 | h4
          · exact Or.inl (h3 ▸ h4)
          · exact Or.inr (h3.trans h4)
      · exact Or.inr hx2
    · exact List.mem_or_eq_of_mem_set hx

theorem siftup_mem {X : List (Nat × Node)} (hX : 0 < X.length) :
    ∀ x ∈ siftup X 0, x ∈ X := by
  intro x hx
  simp only [siftup] at hx
  have hnew : X.getD 0 (0, Node.root [] 0) ∈ X := by
    rw [List.getD_eq_getElem _ _ hX]
    exact List.getElem_mem hX
  rcases siftdownLoop_mem _ _ x hx with h | h
  · rcases siftupLoop_mem X.length _ _ (Nat.le_refl _) x h with h2 | h2
    · exact h2
    · exact h2 ▸ hnew
  · exact h ▸ hnew

theorem heappush_mem {heap : List (Nat × Node)} {item : Nat × Node} :
    ∀ x ∈ heappush heap item, x ∈ heap ∨ x = item := by
  intro x hx
  unfold heappush at hx
  rcases siftdownLoop_mem _ _ x hx with h | h
  · rcases List.mem_append.1 h with h2 | h2
    · exact Or.inl h2
    · exact Or.inr (List.mem_singleton.1 h2)
  · exact Or.inr h

theorem heappop_mem {heap h2 : List (Nat × Node)} {it : Nat × Node}
    (h : heappop heap = some (it, h2)) : it ∈ heap ∧ ∀ x ∈ h2, x ∈ heap := by
  unfold heappop at h
  split at h
  · exact absurd h (by simp)
  · rename_i lastelt hlast
    have hlastmem : lastelt ∈ heap := List.mem_of_getLast?_eq_some hlast
    split at h
    · rename_i hdrop
      injection h with h
      injection h with h1 h3
      subst h1
      subst h3
      exact ⟨hlastmem, by simp⟩
    · rename_i r0 rtail hdrop
      injection h with h
      injection h with h1 h3
      subst h3
      have hr0mem : r0 ∈ heap := List.dropLast_subset heap (hdrop ▸ List.mem_cons_self r0 rtail)
      refine ⟨h1 ▸ hr0mem, fun x hx => ?_⟩
      have hlen : 0 < ((heap.dropLast).set 0 lastelt).length := by
        rw [List.length_set, hdrop]
        simp
      rcases List.mem_or_eq_of_mem_set (siftup_mem hlen x hx) with h4 | h4
      · exact List.dropLast_subset heap h4
      · exact h4 ▸ hlastmem

/-! ### A*, greedy and IDS invariants -/

/-- A* expansion preserves the rooted-chain invariant of the heap. -/
theorem astarExpand_chain {init goal : List Nat} {n : Nat}
    {hfunc : List Nat → List Nat → Nat → Nat} {node : Node}
    {acc : List (Nat × Node) × List (List Nat × Nat)} (hnode : ChainOK init n node)
    (hacc : ∀ x ∈ acc.1, ChainOK init n x.2) :
    ∀ x ∈ (astarExpand goal n hfunc node acc).1, ChainOK init n x.2 := by
  unfold astarExpand
  refine foldl_induction
    (P := fun (acc : List (Nat × Node) × List (List Nat × Nat)) =>
      ∀ x ∈ acc.1, ChainOK init n x.2) _ _ acc hacc ?_
  intro acc2 m hm hacc2 x hx
  simp only [] at hx
  split at hx
  · rcases heappush_mem x hx with h2 | h2
    · exact hacc2 x h2
    · rw [h2]
      exact ⟨hnode, hm, rfl, rfl⟩
  · exact hacc2 x hx

/-- Every path returned by the A* loop reconstructs a rooted chain ending at
the goal. -/
theorem astarLoop_spec {init goal : List Nat} {n : Nat}
    {hfunc : List Nat → List Nat → Nat → Nat} :
    ∀ (fuel : Nat) (heap : List (Nat × Node)) (explored : List (List Nat × Nat)) (cnt : Nat),
      (∀ x ∈ heap, ChainOK init n x.2) →
      ∀ p c, astarLoop goal n hfunc fuel heap explored cnt = (some p, c) →
      ∃ nd, ChainOK init n nd ∧ nd.state = goal ∧ p = reconstruct_path nd := by
  intro fuel
  induction fuel with
  | zero =>
    intro heap explored cnt _ p c heq
    simp [astarLoop] at heq
  | succ fuel ih =>
    intro heap explored cnt hinv p c heq
    rw [astarLoop] at heq
    split at heq
    · exact absurd heq (by simp)
    · rename_i pr node heap2 hpop
      obtain ⟨hmem, hsub⟩ := heappop_mem hpop
      have hnode : ChainOK init n node := hinv _ hmem
      by_cases hgoal : node.state = goal
      · rw [if_pos hgoal] at heq
        injection heq with h1 _
        injection h1 with h1
        exact ⟨node, hnode, hgoal, h1.symm⟩
      · rw [if_neg hgoal] at heq
        exact ih _ _ _ (astarExpand_chain hnode (fun x hx => hinv x (hsub x hx))) p c heq

/-- Greedy expansion preserves the rooted-chain invariant of the heap. -/
theorem greedyExpand_chain {init goal : List Nat} {n : Nat}
    {hfunc : List Nat → List Nat → Nat → Nat} {node : Node} {explored : List (List Nat)}
    {heap : List (Nat × Node)} (hnode : ChainOK init n node)
    (hheap : ∀ x ∈ heap, ChainOK init n x.2) :
    ∀ x ∈ greedyExpand goal n hfunc node explored heap, ChainOK init n x.2 := by
  unfold greedyExpand
  refine foldl_induction
    (P := fun (h : List (Nat × Node)) => ∀ x ∈ h, ChainOK init n x.2) _ _ heap hheap ?_
  intro acc m hm hacc x hx
  simp only [] at hx
  split at hx
  · exact hacc x hx
  · rcases heappush_mem x hx with h2 | h2
    · exact hacc x h2
    · rw [h2]
      exact ⟨hnode, hm, rfl, rfl⟩

/-- Every path returned by the greedy loop reconstructs a rooted chain
ending at the goal. -/
theorem greedyLoop_spec {init goal : List Nat} {n : Nat}
    {hfunc : List Nat → List Nat → Nat → Nat} :
    ∀ (fuel : Nat) (heap : List (Nat × Node)) (explored : List (List Nat)) (cnt : Nat),
      (∀ x ∈ heap, ChainOK init n x.2) →
      ∀ p c, greedyLoop goal n hfunc fuel heap explored cnt = (some p, c) →
      ∃ nd, ChainOK init n nd ∧ nd.state = goal ∧ p = reconstruct_path nd := by
  intro fuel
  induction fuel with
  | zero =>
    intro heap explored cnt _ p c heq
    simp [greedyLoop] at heq
  | succ fuel ih =>
    intro heap explored cnt hinv p c heq
    rw [greedyLoop] at heq
    split at heq
    · exact absurd heq (by simp)
    · rename_i pr node heap2 hpop
      obtain ⟨hmem, hsub⟩ := heappop_mem hpop
      have hnode : ChainOK init n node := hinv _ hmem
      have hinv2 : ∀ x ∈ heap2, ChainOK init n x.2 := fun x hx => hinv x (hsub x hx)
      by_cases hseen : node.state ∈ explored
      · rw [if_pos hseen] at heq
        exact ih _ _ _ hinv2 p c heq
      · rw [if_neg hseen] at heq
        by_cases hgoal : node.state = goal
        · rw [if_pos hgoal] at heq
          injection heq with h1 _
          injection h1 with h1
          exact ⟨node, hnode, hgoal, h1.symm⟩
        · rw [if_neg hgoal] at heq
          exact ih _ _ _ (greedyExpand_chain hnode hinv2) p c heq

/-- A found result of the depth-limited search reconstructs a rooted chain
ending at the goal, reached within the limit. -/
theorem dls_found_spec {init goal : List Nat} {n : Nat} :
    ∀ (limit : Nat) (node : Node) (cnt : Nat) (p : List PathElem) (c2 : Nat),
      ChainOK init n node →
      depth_limited_search goal n node limit cnt = (DLSRes.found p, c2) →
      ∃ nd, ChainOK init n nd ∧ nd.state = goal ∧ p = reconstruct_path nd ∧
        ∃ k, k ≤ limit ∧ ReachIn n k node.state goal ∧ nd.cost = node.cost + k := by
  intro limit
  induction limit with
  | zero =>
    intro node cnt p c2 hc heq
    rw [depth_limited_search] at heq
    by_cases hg : node.state = goal
    · rw [if_pos hg] at heq
      injection heq with h1 _
      injection h1 with h1
      exact ⟨node, hc, hg, h1.symm, 0, Nat.le_refl _, hg ▸ ReachIn.refl _, rfl⟩
    · rw [if_neg hg] at heq
      injection heq with h1 _
      exact DLSRes.noConfusion h1
  | succ l ih =>
    intro node cnt p c2 hc heq
    rw [depth_limited_search] at heq
    by_cases hg : node.state = goal
    · rw [if_pos hg] at heq
      injection heq with h1 _
      injection h1 with h1
      exact ⟨node, hc, hg, h1.symm, 0, Nat.zero_le _, hg ▸ ReachIn.refl _, rfl⟩
    · rw [if_neg hg] at heq
      suffices haux : ∀ (moves : List Move) (flag : Bool) (cnt0 : Nat),
          (∀ m ∈ moves, m ∈ get_possible_moves node.state n) →
          dlsChildren goal n node moves l flag cnt0 = (DLSRes.found p, c2) →
          ∃ nd, ChainOK init n nd ∧ nd.state = goal ∧ p = reconstruct_path nd ∧
            ∃ k, k ≤ l + 1 ∧ ReachIn n k node.state goal ∧ nd.cost = node.cost + k by
        exact haux _ false _ (fun m hm => hm) heq
      intro moves
      induction moves with
      | nil =>
        intro flag cnt0 _ heq2
        rw [dlsChildren] at heq2
        injection heq2 with h1 _
        cases flag
        · exact DLSRes.noConfusion h1
        · exact DLSRes.noConfusion h1
      | cons mv rest ihm =>
        intro flag cnt0 hsub heq2
        rw [dlsChildren] at heq2
        split at heq2
        · rename_i p2 c3 hdls
          injection heq2 with h1 h2
          injection h1 with h1
          have hchild : ChainOK init n
              (Node.child (apply_move node.state mv n) node mv (node.cost + 1) 0) :=
            ⟨hc, hsub mv (List.mem_cons_self _ _), rfl, rfl⟩
          obtain ⟨nd, hnd, hgoal2, hp, k, hk, hreach, hcost⟩ := ih _ _ _ _ hchild hdls
          refine ⟨nd, hnd, hgoal2, h1 ▸ hp, k + 1, by omega,
            ReachIn.step (hsub mv (List.mem_cons_self _ _)) hreach, ?_⟩
          have hcost2 : nd.cost = node.cost + 1 + k := hcost
          omega
        · rename_i c3 hdls
          exact ihm true c3 (fun m hm => hsub m (List.mem_cons_of_mem _ hm)) heq2
        · rename_i c3 hdls
          exact ihm flag c3 (fun m hm => hsub m (List.mem_cons_of_mem _ hm)) heq2

/-- Every path returned by the IDS loop reconstructs a rooted chain ending
at the goal. -/
theorem idsLoop_spec {init goal : List Nat} {n : Nat} :
    ∀ (remaining depth cnt : Nat) (p : List PathElem) (c : Nat),
      idsLoop init goal n remaining depth cnt = (some p, c) →
      ∃ nd, ChainOK init n nd ∧ nd.state = goal ∧ p = reconstruct_path nd := by
  intro remaining
  induction remaining with
  | zero =>
    intro depth cnt p c heq
    simp [idsLoop] at heq
  | succ remaining ih =>
    intro depth cnt p c heq
    rw [idsLoop] at heq
    split at heq
    · rename_i p2 used hdls
      injection heq with h1 _
      injection h1 with h1
      obtain ⟨nd, hnd, hgoal2, hp, _⟩ := dls_found_spec depth (Node.root init 0) 0 p2 used
        (show ChainOK init n (Node.root init 0) from rfl) hdls
      exact ⟨nd, hnd, hgoal2, h1 ▸ hp⟩
    · rename_i used hdls
      exact absurd heq (by simp)
    · rename_i used hdls
      exact ih _ _ p c heq

/-- C9.  Every non-none path returned by any of the five strategies is a
valid walk: it starts at the initial state with no action, ends at the goal
state, each consecutive pair is one legal move application, and the number
of moves (path length minus one) is the terminal node's accumulated cost g. -/
theorem returned_paths_valid (initial_state goal_state : List Nat) (n fuel : Nat)
    (heuristic_func : List Nat → List Nat → Nat → Nat) :
    (∀ p c, breadth_first_search initial_state goal_state n fuel = (some p, c) →
      PathSpec initial_state goal_state n p) ∧
    (∀ p c, depth_first_search initial_state goal_state n fuel = (some p, c) →
      PathSpec initial_state goal_state n p) ∧
    (∀ p c, iterative_deepening_search initial_state goal_state n = (some p, c) →
      PathSpec initial_state goal_state n p) ∧
    (∀ p c, a_star_search initial_state goal_state n fuel heuristic_func = (some p, c) →
      PathSpec initial_state goal_state n p) ∧
    (∀ p c, greedy_search initial_state goal_state n fuel heuristic_func = (some p, c) →
      PathSpec initial_state goal_state n p) := by
  have hroot : ChainOK initial_state n (Node.root initial_state 0) := rfl
  refine ⟨fun p c heq => ?_, fun p c heq => ?_, fun p c heq => ?_, fun p c heq => ?_,
    fun p c heq => ?_⟩
  · obtain ⟨nd, hnd, hg, hp⟩ := bfsLoop_spec fuel _ _ _
      (fun x hx => by rw [List.mem_singleton.1 hx]; exact hroot) p c heq
    exact hp ▸ pathSpec_of_chain hnd hg
  · obtain ⟨nd, hnd, hg, hp⟩ := dfsLoop_spec fuel _ _ _
      (fun x hx => by rw [List.mem_singleton.1 hx]; exact hroot) p c heq
    exact hp ▸ pathSpec_of_chain hnd hg
  · obtain ⟨nd, hnd, hg, hp⟩ := idsLoop_spec 100 0 0 p c heq
    exact hp ▸ pathSpec_of_chain hnd hg
  · obtain ⟨nd, hnd, hg, hp⟩ := astarLoop_spec fuel _ _ _
      (fun x hx => by rw [List.mem_singleton.1 hx]; exact rfl) p c heq
    exact hp ▸ pathSpec_of_chain hnd hg
  · obtain ⟨nd, hnd, hg, hp⟩ := greedyLoop_spec fuel _ _ _
      (fun x hx => by rw [List.mem_singleton.1 hx]; exact rfl) p c heq
    exact hp ▸ pathSpec_of_chain hnd hg

/-- C9 witness: the five strategies applied at a solved 2x2 instance. -/
theorem returned_paths_valid_witness :
    PathSpec [1, 2, 3, 0] [1, 2, 3, 0] 2 [⟨[1, 2, 3, 0], none⟩] :=
  (returned_paths_valid [1, 2, 3, 0] [1, 2, 3, 0] 2 1 manhattan_distance).1
    [⟨[1, 2, 3, 0], none⟩] 1 (by decide)

/-! ## C2: iterative deepening returns a minimal path -/

/-- Any legal move forces a board dimension of at least 2. -/
theorem legal_n_two {n : Nat} {s : List Nat} {m : Move} (hs : ValidState s n)
    (hm : m ∈ get_possible_moves s n) : 2 ≤ n := by
  have hn1 := legal_n_pos hs hm
  have he : s.indexOf 0 < n * n := by
    have h := blank_lt_length hs hn1
    rwa [length_of_valid hs] at h
  have hmlt : s.indexOf 0 % n < n := Nat.mod_lt _ (by omega)
  cases m with
  | UP =>
    rw [UP_mem_iff] at hm
    have h1 : 1 * n ≤ s.indexOf 0 := (Nat.le_div_iff_mul_le (by omega)).1 (by omega)
    by_contra hc
    have hn1eq : n = 1 := by omega
    subst hn1eq
    omega
  | DOWN =>
    rw [DOWN_mem_iff] at hm
    by_contra hc
    have hz : n - 1 = 0 := by omega
    rw [hz] at hm
    exact absurd hm (Nat.not_lt_zero _)
  | LEFT =>
    rw [LEFT_mem_iff] at hm
    by_contra hc
    have hn1eq : n = 1 := by omega
    subst hn1eq
    omega
  | RIGHT =>
    rw [RIGHT_mem_iff] at hm
    by_contra hc
    have hz : n - 1 = 0 := by omega
    rw [hz] at hm
    exact absurd hm (Nat.not_lt_zero _)

/-- Depth-limited search is complete: a walk to the goal within the limit
guarantees a found result. -/
theorem dls_complete {goal : List Nat} {n : Nat} :
    ∀ (limit : Nat) (node : Node) (cnt : Nat) {k : Nat}, k ≤ limit →
      ReachIn n k node.state goal →
      ∃ p c2, depth_limited_search goal n node limit cnt = (DLSRes.found p, c2) := by
  intro limit
  induction limit with
  | zero =>
    intro node cnt k hk hreach
    have hk0 : k = 0 := by omega
    subst hk0
    cases hreach with
    | refl =>
      rw [depth_limited_search, if_pos rfl]
      exact ⟨_, _, rfl⟩
  | succ l ih =>
    intro node cnt k hk hreach
    by_cases hg : node.state = goal
    · rw [depth_limited_search, if_pos hg]
      exact ⟨_, _, rfl⟩
    · rw [depth_limited_search, if_neg hg]
      cases hreach with
      | refl => exact absurd rfl hg
      | step hm hreach2 =>
        rename_i m k1
        have hk1 : k1 ≤ l := by omega
        suffices haux : ∀ (moves : List Move) (flag : Bool) (cnt0 : Nat), m ∈ moves →
            ∃ p c2, dlsChildren goal n node moves l flag cnt0 = (DLSRes.found p, c2) by
          exact haux _ false _ hm
        intro moves
        induction moves with
        | nil =>
          intro flag cnt0 hmem
          exact absurd hmem (List.not_mem_nil m)
        | cons mv rest ihm =>
          intro flag cnt0 hmem
          rw [dlsChildren]
          rcases hres : depth_limited_search goal n
              (Node.child (apply_move node.state mv n) node mv (node.cost + 1) 0) l cnt0
            with ⟨res, c3⟩
          cases res with
          | found p2 =>
            refine ⟨p2, c3, ?_⟩
            simp only [hres]
          | cutoff =>
            rcases List.mem_cons.1 hmem with rfl | hmem2
            · obtain ⟨p2, c4, hfound⟩ := ih
                (Node.child (apply_move node.state m n) node m (node.cost + 1) 0) cnt0
                hk1 hreach2
              rw [hres] at hfound
              injection hfound with h1 _
              exact DLSRes.noConfusion h1
            · obtain ⟨p2, c4, hrest⟩ := ihm true c3 hmem2
              refine ⟨p2, c4, ?_⟩
              simp only [hres]
              exact hrest
          | noSol =>
            rcases List.mem_cons.1 hmem with rfl | hmem2
            · obtain ⟨p2, c4, hfound⟩ := ih
                (Node.child (apply_move node.state m n) node m (node.cost + 1) 0) cnt0
                hk1 hreach2
              rw [hres] at hfound
              injection hfound with h1 _
              exact DLSRes.noConfusion h1
            · obtain ⟨p2, c4, hrest⟩ := ihm flag c3 hmem2
              refine ⟨p2, c4, ?_⟩
              simp only [hres]
              exact hrest

/-- On a valid state of a board with `n ≥ 2`, depth-limited search never
returns the Python `None`: the move list is never empty, so exhaustion
without cutoff is impossible. -/
theorem dls_not_noSol {goal : List Nat} {n : Nat} (hn : 2 ≤ n) :
    ∀ (limit : Nat) (node : Node) (cnt : Nat), ValidState node.state n →
      (depth_limited_search goal n node limit cnt).1 ≠ DLSRes.noSol := by
  intro limit
  induction limit with
  | zero =>
    intro node cnt hv
    rw [depth_limited_search]
    by_cases hg : node.state = goal
    · rw [if_pos hg]
      simp
    · rw [if_neg hg]
      simp
  | succ l ih =>
    intro node cnt hv
    rw [depth_limited_search]
    by_cases hg : node.state = goal
    · rw [if_pos hg]
      simp
    · rw [if_neg hg]
      have hmoves : 0 < (get_possible_moves node.state n).length := by
        have := two_le_moves_length hn hv
        omega
      suffices haux : ∀ (moves : List Move) (flag : Bool) (cnt0 : Nat),
          (flag = true ∨ moves ≠ []) →
          (dlsChildren goal n node moves l flag cnt0).1 ≠ DLSRes.noSol by
        refine haux _ false _ (Or.inr ?_)
        intro h
        rw [h] at hmoves
        simp at hmoves
      intro moves
      induction moves with
      | nil =>
        intro flag cnt0 hor
        rcases hor with hflag | hne
        · subst hflag
          rw [dlsChildren]
          simp
        · exact absurd rfl hne
      | cons mv rest ihm =>
        intro flag cnt0 _
        rw [dlsChildren]
        rcases hres : depth_limited_search goal n
            (Node.child (apply_move node.state mv n) node mv (node.cost + 1) 0) l cnt0
          with ⟨res, c3⟩
        cases res with
        | found p2 =>
          simp only [hres]
          simp
        | cutoff =>
          simp only [hres]
          exact ihm true c3 (Or.inl rfl)
        | noSol =>
          have h2 := ih (Node.child (apply_move node.state mv n) node mv (node.cost + 1) 0)
            cnt0 (valid_apply_move mv hv)
          rw [hres] at h2
          exact absurd rfl h2

/-- The IDS driver loop, entered at a depth at most the optimal depth `d`
with enough iterations left, returns a path of length `d + 1`. -/
theorem idsLoop_optimal {init goal : List Nat} {n : Nat} {d : Nat}
    (hreach : ReachIn n d init goal)
    (hmin : ∀ k, ReachIn n k init goal → d ≤ k)
    (hnos : ∀ L cnt, L < d →
      (depth_limited_search goal n (Node.root init 0) L cnt).1 ≠ DLSRes.noSol) :
    ∀ (remaining depth cnt : Nat), depth ≤ d → d < depth + remaining →
      ∃ p c, idsLoop init goal n remaining depth cnt = (some p, c) ∧ p.length = d + 1 := by
  intro remaining
  induction remaining with
  | zero =>
    intro depth cnt h1 h2
    omega
  | succ remaining ih =>
    intro depth cnt h1 h2
    rw [idsLoop]
    by_cases hd : depth = d
    · subst hd
      obtain ⟨p, c2, hfound⟩ := dls_complete depth (Node.root init 0) 0 (Nat.le_refl _) hreach
      obtain ⟨nd, hnd, _, hp, k, hk, hreach2, hcost⟩ :=
        dls_found_spec depth (Node.root init 0) 0 p c2
          (show ChainOK init n (Node.root init 0) from rfl) hfound
      have hkd : k = depth := by
        have := hmin k hreach2
        omega
      have hlen : p.length = depth + 1 := by
        rw [hp, reconstruct_length_chain hnd, hcost]
        have hroot : (Node.root init 0).cost = 0 := rfl
        omega
      refine ⟨p, cnt + c2, ?_, hlen⟩
      simp only [hfound]
    · have hlt : depth < d := by omega
      rcases hres : depth_limited_search goal n (Node.root init 0) depth 0 with ⟨res, used⟩
      cases res with
      | found p2 =>
        obtain ⟨nd, _, _, _, k, hk, hreach2, _⟩ :=
          dls_found_spec depth (Node.root init 0) 0 p2 used
            (show ChainOK init n (Node.root init 0) from rfl) hres
        have := hmin k hreach2
        omega
      | noSol =>
        have h2 := hnos depth 0 hlt
        rw [hres] at h2
        exact absurd rfl h2
      | cutoff =>
        simp only [hres]
        exact ih (depth + 1) (cnt + used) (by omega) (by omega)

/-- C2.  For a solvable instance whose optimal depth `d` is below the hard
ceiling 100, iterative deepening returns a path of minimal length `d + 1`;
no depth-limited run below `d` finds a solution, and the run at limit `d`
does, with a path of the same minimal length. -/
theorem ids_optimal {n : Nat} {initial_state goal_state : List Nat}
    (hv : ValidState initial_state n) {d : Nat}
    (hreach : ReachIn n d initial_state goal_state)
    (hmin : ∀ k, ReachIn n k initial_state goal_state → d ≤ k) (hceil : d < 100) :
    (∃ p c, iterative_deepening_search initial_state goal_state n = (some p, c) ∧
      p.length = d + 1) ∧
    (∀ L, L < d → ∀ cnt q c2,
      depth_limited_search goal_state n (Node.root initial_state 0) L cnt ≠
        (DLSRes.found q, c2)) ∧
    (∃ q c2, depth_limited_search goal_state n (Node.root initial_state 0) d 0 =
      (DLSRes.found q, c2) ∧ q.length = d + 1) := by
  have hnos : ∀ L cnt, L < d →
      (depth_limited_search goal_state n (Node.root initial_state 0) L cnt).1 ≠
        DLSRes.noSol := by
    intro L cnt hL
    have hd1 : 1 ≤ d := by omega
    have hn2 : 2 ≤ n := by
      cases hreach with
      | refl => omega
      | step hm _ => exact legal_n_two hv hm
    exact dls_not_noSol hn2 L (Node.root initial_state 0) cnt hv
  have hnotfound : ∀ L, L < d → ∀ cnt q c2,
      depth_limited_search goal_state n (Node.root initial_state 0) L cnt ≠
        (DLSRes.found q, c2) := by
    intro L hL cnt q c2 heq
    obtain ⟨nd, _, _, _, k, hk, hreach2, _⟩ :=
      dls_found_spec L (Node.root initial_state 0) cnt q c2
        (show ChainOK initial_state n (Node.root initial_state 0) from rfl) heq
    have := hmin k hreach2
    omega
  refine ⟨?_, hnotfound, ?_⟩
  · have h := idsLoop_optimal hreach hmin hnos 100 0 0 (by omega) (by omega)
    exact h
  · obtain ⟨q, c2, hfound⟩ := dls_complete d (Node.root initial_state 0) 0 (Nat.le_refl _) hreach
    obtain ⟨nd, hnd, _, hp, k, hk, hreach2, hcost⟩ :=
      dls_found_spec d (Node.root initial_state 0) 0 q c2
        (show ChainOK initial_state n (Node.root initial_state 0) from rfl) hfound
    have hkd : k = d := by
      have := hmin k hreach2
      omega
    refine ⟨q, c2, hfound, ?_⟩
    rw [hp, reconstruct_length_chain hnd, hcost]
    have hroot : (Node.root initial_state 0).cost = 0 := rfl
    omega

/-- C2 witness: the one-move 2x2 instance `(1, 0, 3, 2)`. -/
theorem ids_optimal_witness :
    ∃ p c, iterative_deepening_search [1, 0, 3, 2] (get_goal_state 2) 2 = (some p, c) ∧
      p.length = 1 + 1 :=
  (ids_optimal (by decide)
    (@ReachIn.step 2 Move.DOWN [1, 0, 3, 2] (get_goal_state 2) 0 (by decide)
      (ReachIn.refl _))
    (fun k hk => by
      cases k with
      | zero => cases hk
      | succ k => omega)
    (by omega)).1

/-! ## C8: all five strategies on `initial = goal` -/

theorem reconstruct_root (s : List Nat) (h : Nat) :
    reconstruct_path (Node.root s h) = [⟨s, none⟩] := rfl

/-- C8.  When the initial state equals the goal state, each of the five
strategies returns the singleton root path (0 moves, action none) and an
expansion count of 1. -/
theorem goal_start_all_strategies (s : List Nat) (n fuel : Nat) :
    breadth_first_search s s n (fuel + 1) = (some [⟨s, none⟩], 1) ∧
    depth_first_search s s n (fuel + 1) = (some [⟨s, none⟩], 1) ∧
    iterative_deepening_search s s n = (some [⟨s, none⟩], 1) ∧
    a_star_search s s n (fuel + 1) manhattan_distance = (some [⟨s, none⟩], 1) ∧
    greedy_search s s n (fuel + 1) manhattan_distance = (some [⟨s, none⟩], 1) := by
  refine ⟨?_, ?_, ?_, ?_, ?_⟩
  · simp [breadth_first_search, bfsLoop, Node.state, reconstruct_path, reconstruct_aux]
  · simp [depth_first_search, dfsLoop, Node.state, reconstruct_path, reconstruct_aux]
  · have h1 : depth_limited_search s n (Node.root s 0) 0 0 = (DLSRes.found [⟨s, none⟩], 1) := by
      simp [depth_limited_search, Node.state, reconstruct_path, reconstruct_aux]
    rw [iterative_deepening_search, show (100 : Nat) = 99 + 1 from rfl, idsLoop, h1]
  · simp [a_star_search, astarLoop, heappop, Node.state, reconstruct_path, reconstruct_aux]
  · simp [greedy_search, greedyLoop, heappop, Node.state, reconstruct_path, reconstruct_aux]

/-! ## C1 groundwork: walk algebra and exact distances -/

theorem reachIn_zero {n : Nat} {s t : List Nat} (h : ReachIn n 0 s t) : s = t := by
  cases h
  rfl

theorem reachIn_trans {n : Nat} {j k : Nat} {s t u : List Nat} (h1 : ReachIn n j s t)
    (h2 : ReachIn n k t u) : ReachIn n (j + k) s u := by
  induction h1 with
  | refl => simpa using h2
  | step hm _h ih =>
    have := ReachIn.step hm (ih h2)
    rw [show ∀ a b : Nat, a + b + 1 = a + 1 + b from fun a b => by omega] at this
    exact this

/-- Peel the last move off a non-empty walk. -/
theorem reachIn_snoc_decomp {n : Nat} :
    ∀ {k : Nat} {init s : List Nat}, ReachIn n (k + 1) init s →
      ∃ t m, ReachIn n k init t ∧ m ∈ get_possible_moves t n ∧ s = apply_move t m n := by
  intro k
  induction k with
  | zero =>
    intro init s h
    cases h with
    | step hm h2 =>
      have := reachIn_zero h2
      exact ⟨init, _, ReachIn.refl _, hm, this.symm⟩
  | succ k ih =>
    intro init s h
    cases h with
    | step hm h2 =>
      obtain ⟨t, m2, hwalk, hm2, hs⟩ := ih h2
      exact ⟨t, m2, ReachIn.step hm hwalk, hm2, hs⟩

/-- Every reachable state has an exact distance. -/
theorem exists_isDist {init : List Nat} {n : Nat} {s : List Nat}
    (h : ∃ j, ReachIn n j init s) : ∃ d, IsDist init n s d := by
  obtain ⟨j, hj⟩ := h
  induction j using Nat.strong_induction_on with
  | _ j ih =>
    by_cases hmin : ∃ j2, j2 < j ∧ ReachIn n j2 init s
    · obtain ⟨j2, hlt, hj2⟩ := hmin
      exact ih j2 hlt hj2
    · push_neg at hmin
      refine ⟨j, hj, fun j2 hj2 => ?_⟩
      by_contra hc
      exact absurd hj2 (hmin j2 (by omega))

theorem isDist_unique {init : List Nat} {n : Nat} {s : List Nat} {d d2 : Nat}
    (h1 : IsDist init n s d) (h2 : IsDist init n s d2) : d = d2 :=
  Nat.le_antisymm (h1.2 d2 h2.1) (h2.2 d h1.1)

theorem isDist_self (init : List Nat) (n : Nat) : IsDist init n init 0 :=
  ⟨ReachIn.refl _, fun _ _ => Nat.zero_le _⟩

theorem isDist_zero {init : List Nat} {n : Nat} {s : List Nat} (h : IsDist init n s 0) :
    s = init := (reachIn_zero h.1).symm

/-- A state at distance `k + 1` has an optimal predecessor at distance `k`. -/
theorem isDist_pred {init : List Nat} {n : Nat} {s : List Nat} {k : Nat}
    (h : IsDist init n s (k + 1)) :
    ∃ t m, IsDist init n t k ∧ m ∈ get_possible_moves t n ∧ s = apply_move t m n := by
  obtain ⟨t, m, hwalk, hm, hs⟩ := reachIn_snoc_decomp h.1
  obtain ⟨d, hd⟩ := exists_isDist ⟨k, hwalk⟩
  have hdk : d ≤ k := hd.2 k hwalk
  have hge : k ≤ d := by
    have hsd : ReachIn n (d + 1) init s := hs ▸ hd.1.snoc hm
    have := h.2 (d + 1) hsd
    omega
  have : d = k := by omega
  exact ⟨t, m, this ▸ hd, hm, hs⟩

/-- The distance of a successor is at most one more. -/
theorem isDist_succ_le {init : List Nat} {n : Nat} {s : List Nat} {k : Nat}
    (h : IsDist init n s k) {m : Move} (hm : m ∈ get_possible_moves s n) :
    ∃ d2, IsDist init n (apply_move s m n) d2 ∧ d2 ≤ k + 1 := by
  have hw : ReachIn n (k + 1) init (apply_move s m n) := h.1.snoc hm
  obtain ⟨d2, hd2⟩ := exists_isDist ⟨k + 1, hw⟩
  exact ⟨d2, hd2, hd2.2 (k + 1) hw⟩

/-- Every legal move has a legal inverse from the resulting state. -/
theorem exists_reverse_move {n : Nat} {s : List Nat} {m : Move} (hs : ValidState s n)
    (hm : m ∈ get_possible_moves s n) :
    ∃ m2, m2 ∈ get_possible_moves (apply_move s m n) n ∧
      apply_move (apply_move s m n) m2 n = s := by
  have hn1 := legal_n_pos hs hm
  obtain ⟨hpos, hlt, hne⟩ := legal_swap_spec hs hm
  have he : s.indexOf 0 < n * n := by
    have h := blank_lt_length hs hn1
    rwa [length_of_valid hs] at h
  have hdm := Nat.div_add_mod (s.indexOf 0) n
  have hmlt : s.indexOf 0 % n < n := Nat.mod_lt _ (by omega)
  have hidx := indexOf_apply_move hs hm
  obtain ⟨q, hq⟩ : ∃ q, s.indexOf 0 / n = q := ⟨_, rfl⟩
  obtain ⟨r, hr⟩ : ∃ r, s.indexOf 0 % n = r := ⟨_, rfl⟩
  rw [hq, hr] at hdm
  rw [hr] at hmlt
  have hqn : q < n := by
    rw [← hq]
    exact (Nat.div_lt_iff_lt_mul (by omega)).2 (by omega)
  cases m with
  | UP =>
    have hq1 : 1 ≤ q := by rw [UP_mem_iff, hq] at hm; omega
    have h1 : n ≤ s.indexOf 0 := by
      have h2 : n * 1 ≤ n * q := Nat.mul_le_mul_left n hq1
      omega
    refine ⟨Move.DOWN, ?_, ?_⟩
    · rw [DOWN_mem_iff, hidx]
      have htn : (swap_index_of s Move.UP n).toNat = s.indexOf 0 - n := by
        simp only [swap_index_of]
        omega
      rw [htn]
      have hmul : n * (q - 1) + n = n * q := by
        have h2 := Nat.mul_succ n (q - 1)
        have h3 : (q - 1).succ = q := by omega
        rw [h3] at h2
        omega
      have hsub : s.indexOf 0 - n = r + n * (q - 1) := by omega
      rw [hsub, Nat.add_mul_div_left _ _ (by omega : 0 < n), Nat.div_eq_of_lt hmlt]
      omega
    · apply apply_move_back hs hm
      simp only [swap_index_of] at hpos hlt hne ⊢
      rw [hidx]
      simp only [swap_index_of]
      omega
  | DOWN =>
    refine ⟨Move.UP, ?_, ?_⟩
    · rw [UP_mem_iff, hidx]
      have htn : (swap_index_of s Move.DOWN n).toNat = s.indexOf 0 + n := by
        simp only [swap_index_of]
        omega
      rw [htn]
      have hmul : n * (q + 1) = n * q + n := Nat.mul_succ _ _
      have hsum : s.indexOf 0 + n = r + n * (q + 1) := by omega
      rw [hsum, Nat.add_mul_div_left _ _ (by omega : 0 < n), Nat.div_eq_of_lt hmlt]
      omega
    · apply apply_move_back hs hm
      simp only [swap_index_of] at hpos hlt hne ⊢
      rw [hidx]
      simp only [swap_index_of]
      omega
  | LEFT =>
    have hr1 : 1 ≤ r := by rw [LEFT_mem_iff, hr] at hm; omega
    refine ⟨Move.RIGHT, ?_, ?_⟩
    · rw [RIGHT_mem_iff, hidx]
      have htn : (swap_index_of s Move.LEFT n).toNat = s.indexOf 0 - 1 := by
        simp only [swap_index_of]
        omega
      rw [htn]
      have hsub : s.indexOf 0 - 1 = r - 1 + n * q := by omega
      rw [hsub, Nat.add_mul_mod_self_left, Nat.mod_eq_of_lt (by omega)]
      omega
    · apply apply_move_back hs hm
      simp only [swap_index_of] at hpos hlt hne ⊢
      rw [hidx]
      simp only [swap_index_of]
      omega
  | RIGHT =>
    have hr2 : r < n - 1 := by rw [RIGHT_mem_iff, hr] at hm; exact hm
    refine ⟨Move.LEFT, ?_, ?_⟩
    · rw [LEFT_mem_iff, hidx]
      have htn : (swap_index_of s Move.RIGHT n).toNat = s.indexOf 0 + 1 := by
        simp only [swap_index_of]
        omega
      rw [htn]
      have hsum : s.indexOf 0 + 1 = r + 1 + n * q := by omega
      rw [hsum, Nat.add_mul_mod_self_left, Nat.mod_eq_of_lt (by omega)]
      omega
    · apply apply_move_back hs hm
      simp only [swap_index_of] at hpos hlt hne ⊢
      rw [hidx]
      simp only [swap_index_of]
      omega

/-! ### BFS: detailed characterization of one expansion -/

theorem pairwise_of_all {α : Type} {R : α → α → Prop} :
    ∀ (l : List α), (∀ a ∈ l, ∀ b ∈ l, R a b) → l.Pairwise R := by
  intro l
  induction l with
  | nil => intro _; exact List.Pairwise.nil
  | cons a t ih =>
    intro h
    refine List.Pairwise.cons (fun b hb => h a (List.mem_cons_self _ _) b
      (List.mem_cons_of_mem _ hb)) (ih ?_)
    intro x hx y hy
    exact h x (List.mem_cons_of_mem _ hx) y (List.mem_cons_of_mem _ hy)

theorem bfsExpand_spec (n : Nat) (node : Node) (queue : List Node) (E : List (List Nat)) :
    ∃ newnodes,
      (bfsExpand n node (queue, E)).1 = queue ++ newnodes ∧
      (∀ nd ∈ newnodes, ∃ m, m ∈ get_possible_moves node.state n ∧
        nd = Node.child (apply_move node.state m n) node m (node.cost + 1) 0 ∧
        apply_move node.state m n ∉ E) ∧
      (∀ s ∈ E, s ∈ (bfsExpand n node (queue, E)).2) ∧
      (∀ s ∈ (bfsExpand n node (queue, E)).2, s ∈ E ∨ ∃ nd ∈ newnodes, nd.state = s) ∧
      (∀ m ∈ get_possible_moves node.state n,
        apply_move node.state m n ∈ (bfsExpand n node (queue, E)).2) ∧
      (∀ nd ∈ newnodes, nd.state ∈ (bfsExpand n node (queue, E)).2) ∧
      (bfsExpand n node (queue, E)).2.length = E.length + newnodes.length ∧
      (E.Nodup → (bfsExpand n node (queue, E)).2.Nodup) := by
  suffices h : ∀ (moves : List Move) (acc : List Node × List (List Nat)),
      ∃ newnodes,
        (moves.foldl (fun acc move =>
          let neighbor_state := apply_move node.state move n
          if neighbor_state ∈ acc.2 then acc
          else (acc.1 ++ [Node.child neighbor_state node move (node.cost + 1) 0],
                neighbor_state :: acc.2)) acc).1 = acc.1 ++ newnodes ∧
        (∀ nd ∈ newnodes, ∃ m, m ∈ moves ∧
          nd = Node.child (apply_move node.state m n) node m (node.cost + 1) 0 ∧
          apply_move node.state m n ∉ acc.2) ∧
        (∀ s ∈ acc.2, s ∈ (moves.foldl (fun acc move =>
          let neighbor_state := apply_move node.state move n
          if neighbor_state ∈ acc.2 then acc
          else (acc.1 ++ [Node.child neighbor_state node move (node.cost + 1) 0],
                neighbor_state :: acc.2)) acc).2) ∧
        (∀ s ∈ (moves.foldl (fun acc move =>
          let neighbor_state := apply_move node.state move n
          if neighbor_state ∈ acc.2 then acc
          else (acc.1 ++ [Node.child neighbor_state node move (node.cost + 1) 0],
                neighbor_state :: acc.2)) acc).2, s ∈ acc.2 ∨ ∃ nd ∈ newnodes, nd.state = s) ∧
        (∀ m ∈ moves, apply_move node.state m n ∈ (moves.foldl (fun acc move =>
          let neighbor_state := apply_move node.state move n
          if neighbor_state ∈ acc.2 then acc
          else (acc.1 ++ [Node.child neighbor_state node move (node.cost + 1) 0],
                neighbor_state :: acc.2)) acc).2) ∧
        (∀ nd ∈ newnodes, nd.state ∈ (moves.foldl (fun acc move =>
          let neighbor_state := apply_move node.state move n
          if neighbor_state ∈ acc.2 then acc
          else (acc.1 ++ [Node.child neighbor_state node move (node.cost + 1) 0],
                neighbor_state :: acc.2)) acc).2) ∧
        (moves.foldl (fun acc move =>
          let neighbor_state := apply_move node.state move n
          if neighbor_state ∈ acc.2 then acc
          else (acc.1 ++ [Node.child neighbor_state node move (node.cost + 1) 0],
                neighbor_state :: acc.2)) acc).2.length = acc.2.length + newnodes.length ∧
        (acc.2.Nodup → (moves.foldl (fun acc move =>
          let neighbor_state := apply_move node.state move n
          if neighbor_state ∈ acc.2 then acc
          else (acc.1 ++ [Node.child neighbor_state node move (node.cost + 1) 0],
                neighbor_state :: acc.2)) acc).2.Nodup) by
    exact h (get_possible_moves node.state n) (queue, E)
  intro moves
  induction moves with
  | nil =>
    intro acc
    exact ⟨[], (List.append_nil _).symm, by simp, fun s hs => hs,
      fun s hs => Or.inl hs, by simp, by simp, by simp, fun h => h⟩
  | cons mv rest ih =>
    intro acc
    by_cases hseen : apply_move node.state mv n ∈ acc.2
    · obtain ⟨newnodes, h1, h2, h3, h4, h5, h6, h7, h8⟩ := ih acc
      simp only [List.foldl_cons, hseen, if_true]
      refine ⟨newnodes, h1, ?_, h3, h4, ?_, h6, h7, h8⟩
      · intro nd hnd
        obtain ⟨m, hm, he, hne⟩ := h2 nd hnd
        exact ⟨m, List.mem_cons_of_mem _ hm, he, hne⟩
      · intro m hm
        rcases List.mem_cons.1 hm with rfl | hm2
        · exact h3 _ hseen
        · exact h5 m hm2
    · obtain ⟨newnodes, h1, h2, h3, h4, h5, h6, h7, h8⟩ :=
        ih (acc.1 ++ [Node.child (apply_move node.state mv n) node mv (node.cost + 1) 0],
            apply_move node.state mv n :: acc.2)
      simp only [List.foldl_cons, hseen, if_false]
      refine ⟨Node.child (apply_move node.state mv n) node mv (node.cost + 1) 0 :: newnodes,
        ?_, ?_, ?_, ?_, ?_, ?_, ?_, ?_⟩
      · rw [h1, List.append_assoc]
        rfl
      · intro nd hnd
        rcases List.mem_cons.1 hnd with rfl | hnd2
        · exact ⟨mv, List.mem_cons_self _ _, rfl, hseen⟩
        · obtain ⟨m, hm, he, hne⟩ := h2 nd hnd2
          refine ⟨m, List.mem_cons_of_mem _ hm, he, fun hc => hne ?_⟩
          exact List.mem_cons_of_mem _ hc
      · intro s hs
        exact h3 s (List.mem_cons_of_mem _ hs)
      · intro s hs
        rcases h4 s hs with hs2 | hs2
        · rcases List.mem_cons.1 hs2 with rfl | hs3
          · exact Or.inr ⟨_, List.mem_cons_self _ _, rfl⟩
          · exact Or.inl hs3
        · obtain ⟨nd, hnd, hnds⟩ := hs2
          exact Or.inr ⟨nd, List.mem_cons_of_mem _ hnd, hnds⟩
      · intro m hm
        rcases List.mem_cons.1 hm with rfl | hm2
        · exact h3 _ (List.mem_cons_self _ _)
        · exact h5 m hm2
      · intro nd hnd
        rcases List.mem_cons.1 hnd with rfl | hnd2
        · exact h3 _ (List.mem_cons_self _ _)
        · exact h6 nd hnd2
      · rw [h7]
        simp
        omega
      · intro hnd
        exact h8 (List.nodup_cons.2 ⟨hseen, hnd⟩)

/-- A duplicate-free list of valid states is capped by the state bound. -/
theorem explored_le_bound {E : List (List Nat)} {n : Nat} (hnd : E.Nodup)
    (hval : ∀ s ∈ E, ValidState s n) : E.length ≤ stateBound n := by
  have hcard : stateBound n = (n * n) ^ (n * n) := by
    unfold stateBound
    rw [Fintype.card_fun]
    simp
  by_cases hz : n * n = 0
  · cases E with
    | nil => simp
    | cons a t =>
      have ha : a = [] := by
        have := hval a (List.mem_cons_self _ _)
        rw [ValidState, hz] at this
        simpa using this.eq_nil
      cases t with
      | nil =>
        rw [show ([a] : List (List Nat)).length = 1 from rfl, hcard, hz]
        simp
      | cons b t2 =>
        have hb : b = [] := by
          have := hval b (List.mem_cons_of_mem _ (List.mem_cons_self _ _))
          rw [ValidState, hz] at this
          simpa using this.eq_nil
        exfalso
        have : a ∉ b :: t2 := (List.nodup_cons.1 hnd).1
        rw [ha, hb] at this
        exact this (List.mem_cons_self _ _)
  · have hpos : 0 < n * n := by omega
    have hinj : ∀ x ∈ E, ∀ y ∈ E,
        (fun (s : List Nat) => fun (i : Fin (n * n)) =>
          (⟨s.getD i 0 % (n * n), Nat.mod_lt _ hpos⟩ : Fin (n * n))) x =
        (fun (s : List Nat) => fun (i : Fin (n * n)) =>
          (⟨s.getD i 0 % (n * n), Nat.mod_lt _ hpos⟩ : Fin (n * n))) y → x = y := by
      intro x hx y hy hxy
      have hxv := hval x hx
      have hyv := hval y hy
      have hlx : x.length = n * n := length_of_valid hxv
      have hly : y.length = n * n := length_of_valid hyv
      apply List.ext_getElem (by omega)
      intro i hi1 hi2
      have hi : i < n * n := by omega
      have h1 := congrFun hxy ⟨i, hi⟩
      have hxval : x[i] < n * n := by
        have hmem : x[i] ∈ x := List.getElem_mem hi1
        have := hxv.mem_iff.1 hmem
        exact List.mem_range.1 this
      have hyval : y[i] < n * n := by
        have hmem : y[i] ∈ y := List.getElem_mem hi2
        have := hyv.mem_iff.1 hmem
        exact List.mem_range.1 this
      have h2 : x.getD i 0 % (n * n) = y.getD i 0 % (n * n) := congrArg Fin.val h1
      rw [List.getD_eq_getElem _ 0 hi1, List.getD_eq_getElem _ 0 hi2,
        Nat.mod_eq_of_lt hxval, Nat.mod_eq_of_lt hyval] at h2
      exact h2
    have hmapnd := hnd.map_on hinj
    have h3 := hmapnd.length_le_card
    rw [List.length_map] at h3
    exact h3

/-- Walks on valid states can be reversed. -/
theorem reachIn_symm {n : Nat} :
    ∀ {k : Nat} {s t : List Nat}, ReachIn n k s t → ValidState s n → ReachIn n k t s := by
  intro k s t h
  induction h with
  | refl => intro _; exact ReachIn.refl _
  | step hm h2 ih =>
    intro hv
    rename_i m s2 t2 k2
    have hs1 : ValidState (apply_move s2 m n) n := valid_apply_move m hv
    obtain ⟨m2, hm2, hback⟩ := exists_reverse_move hv hm
    have hrev : ReachIn n 1 (apply_move s2 m n) s2 := by
      refine ReachIn.step hm2 ?_
      rw [hback]
      exact ReachIn.refl _
    exact reachIn_trans (ih hs1) hrev

/-! ### BFS: the loop invariant is preserved by one expansion -/

/-- Expanding the head of the frontier (when it is not the goal) preserves
the BFS invariant. -/
theorem bfsInv_step {init goal : List Nat} {n : Nat} {node : Node}
    {rest : List Node} {E : List (List Nat)}
    (hinv : BfsInv init goal n (node :: rest) E) (hng : node.state ≠ goal) :
    BfsInv init goal n (bfsExpand n node (rest, E)).1 (bfsExpand n node (rest, E)).2 := by
  obtain ⟨newnodes, hF, hnew, hEsub, hEchar, hnb, hns, _hElen, hEnd⟩ :=
    bfsExpand_spec n node rest E
  have hchain_node : ChainOK init n node := hinv.chain node (List.mem_cons_self _ _)
  have hdist_node : IsDist init n node.state node.cost :=
    hinv.costdist node (List.mem_cons_self _ _)
  have hsorted := List.pairwise_cons.1 hinv.sorted
  have hnewprops : ∀ nd ∈ newnodes, nd.cost = node.cost + 1 ∧ ChainOK init n nd ∧
      IsDist init n nd.state (node.cost + 1) ∧ nd.state ∉ E ∧
      ∃ m ∈ get_possible_moves node.state n, nd.state = apply_move node.state m n := by
    intro nd hnd
    obtain ⟨m, hm, heq, hnotE⟩ := hnew nd hnd
    subst heq
    refine ⟨rfl, ⟨hchain_node, hm, rfl, rfl⟩, ?_, hnotE, ⟨m, hm, rfl⟩⟩
    obtain ⟨d2, hd2, hle⟩ := isDist_succ_le hdist_node hm
    have hge : node.cost + 1 ≤ d2 := by
      by_contra hc
      push_neg at hc
      rcases Nat.lt_or_ge d2 node.cost with hlt | hge2
      · have h := hinv.low_expl _ d2 hd2 ?_
        · exact hnotE h.1
        · intro nd2 hnd2
          rcases List.mem_cons.1 hnd2 with rfl | h2
          · exact hlt
          · exact Nat.lt_of_lt_of_le hlt (hsorted.1 nd2 h2)
      · have hd2e : d2 = node.cost := by omega
        rw [hd2e] at hd2
        rcases Nat.eq_zero_or_pos node.cost with hz | hpos
        · rw [hz] at hd2
          have hsi := isDist_zero hd2
          rw [hsi] at hnotE
          exact hnotE hinv.init_expl
        · obtain ⟨k1, hk1⟩ : ∃ k1, node.cost = k1 + 1 := ⟨node.cost - 1, by omega⟩
          rw [hk1] at hd2
          obtain ⟨t, m2, hdt, hm2, hst⟩ := isDist_pred hd2
          have ht := hinv.low_expl t k1 hdt ?_
          · rcases hinv.expl_node t ht.1 with ⟨nd0, hnd0, heq0⟩ | hfull
            · exact absurd heq0 (ht.2 nd0 hnd0)
            · rw [hst] at hnotE
              exact hnotE (hfull m2 hm2)
          · intro nd2 hnd2
            rcases List.mem_cons.1 hnd2 with rfl | h2
            · omega
            · have := hsorted.1 nd2 h2
              omega
    have hd2e : d2 = node.cost + 1 := Nat.le_antisymm hle hge
    rw [hd2e] at hd2
    exact hd2
  have hcd2 : ∀ nd ∈ rest ++ newnodes, IsDist init n nd.state nd.cost := by
    intro nd hnd
    rcases List.mem_append.1 hnd with h | h
    · exact hinv.costdist nd (List.mem_cons_of_mem _ h)
    · rw [(hnewprops nd h).1]
      exact (hnewprops nd h).2.2.1
  have hlowE2 : ∀ k s, IsDist init n s k → (∀ nd ∈ rest ++ newnodes, k < nd.cost) →
      s ∈ (bfsExpand n node (rest, E)).2 := by
    intro k
    induction k using Nat.strong_induction_on with
    | _ k ih =>
      intro s hks hall
      rcases k with _ | k1
      · have hsi : s = init := isDist_zero hks
        rw [hsi]
        exact hEsub _ hinv.init_expl
      · obtain ⟨t, m2, hdt, hm2, hst⟩ := isDist_pred hks
        have htE2 : t ∈ (bfsExpand n node (rest, E)).2 := by
          refine ih k1 (Nat.lt_succ_self _) t hdt ?_
          intro nd2 hnd2
          have := hall nd2 hnd2
          omega
        rcases hEchar t htE2 with htE | ⟨ndt, hndt, hndts⟩
        · rcases hinv.expl_node t htE with ⟨nd0, hnd0, heq0⟩ | hfull
          · rcases List.mem_cons.1 hnd0 with rfl | h0
            · subst heq0
              rw [hst]
              exact hnb m2 hm2
            · have hdc := hinv.costdist nd0 (List.mem_cons_of_mem _ h0)
              rw [heq0] at hdc
              have he := isDist_unique hdc hdt
              have h2 := hall nd0 (List.mem_append.2 (Or.inl h0))
              omega
          · rw [hst]
            exact hEsub _ (hfull m2 hm2)
        · have hdtn : IsDist init n t (node.cost + 1) := hndts ▸ (hnewprops ndt hndt).2.2.1
          have he := isDist_unique hdtn hdt
          have h2 := hall ndt (List.mem_append.2 (Or.inr hndt))
          rw [(hnewprops ndt hndt).1] at h2
          omega
  rw [hF]
  refine ⟨?_, hcd2, ?_, ?_, ?_, ?_, ?_, ?_, ?_, ?_, ?_⟩
  · intro nd hnd
    rcases List.mem_append.1 hnd with h | h
    · exact hinv.chain nd (List.mem_cons_of_mem _ h)
    · exact (hnewprops nd h).2.1
  · rw [List.pairwise_append]
    refine ⟨hsorted.2, pairwise_of_all _ ?_, ?_⟩
    · intro a ha b hb
      rw [(hnewprops a ha).1, (hnewprops b hb).1]
    · intro a ha b hb
      rw [(hnewprops b hb).1]
      exact hinv.span a (List.mem_cons_of_mem _ ha) node (List.mem_cons_self _ _)
  · intro a ha b hb
    rcases List.mem_append.1 ha with ha2 | ha2 <;> rcases List.mem_append.1 hb with hb2 | hb2
    · exact hinv.span a (List.mem_cons_of_mem _ ha2) b (List.mem_cons_of_mem _ hb2)
    · rw [(hnewprops b hb2).1]
      have := hinv.span a (List.mem_cons_of_mem _ ha2) node (List.mem_cons_self _ _)
      omega
    · rw [(hnewprops a ha2).1]
      have := hsorted.1 b hb2
      omega
    · rw [(hnewprops a ha2).1, (hnewprops b hb2).1]
      omega
  · intro s hs
    rcases hEchar s hs with hsE | ⟨nd, hnd, hnds⟩
    · rcases hinv.expl_node s hsE with ⟨nd0, hnd0, heq0⟩ | hfull
      · rcases List.mem_cons.1 hnd0 with rfl | h0
        · exact Or.inr (fun m hm => heq0 ▸ hnb m (heq0 ▸ hm))
        · exact Or.inl ⟨nd0, List.mem_append.2 (Or.inl h0), heq0⟩
      · exact Or.inr (fun m hm => hEsub _ (hfull m hm))
    · exact Or.inl ⟨nd, List.mem_append.2 (Or.inr hnd), hnds⟩
  · intro nd hnd
    rcases List.mem_append.1 hnd with h | h
    · exact hEsub _ (hinv.front_expl nd (List.mem_cons_of_mem _ h))
    · exact hns nd h
  · exact hEsub _ hinv.init_expl
  · intro s k hks hall
    refine ⟨hlowE2 k s hks hall, ?_⟩
    intro nd hnd heq
    have hdc := hcd2 nd hnd
    rw [heq] at hdc
    have he := isDist_unique hdc hks
    have h2 := hall nd hnd
    omega
  · intro hg
    rcases hEchar goal hg with hgE | ⟨nd, hnd, hnds⟩
    · obtain ⟨nd0, hnd0, heq0⟩ := hinv.goal_front hgE
      rcases List.mem_cons.1 hnd0 with rfl | h0
      · exact absurd heq0 hng
      · exact ⟨nd0, List.mem_append.2 (Or.inl h0), heq0⟩
    · exact ⟨nd, List.mem_append.2 (Or.inr hnd), hnds⟩
  · exact hEnd hinv.expl_nodup
  · intro s hs
    rcases hEchar s hs with hsE | ⟨nd, hnd, hnds⟩
    · exact hinv.expl_valid s hsE
    · obtain ⟨m, hm, hse⟩ := (hnewprops nd hnd).2.2.2.2
      rw [← hnds, hse]
      exact valid_apply_move m
        (hinv.expl_valid node.state (hinv.front_expl node (List.mem_cons_self _ _)))

/-! ### BFS: soundness and completeness of the fuel-indexed loop -/

/-- A rooted chain realizes a walk of length `cost` from the root to its
state. -/
theorem chain_reach {init : List Nat} {n : Nat} :
    ∀ {nd : Node}, ChainOK init n nd → ReachIn n nd.cost init nd.state := by
  intro nd
  induction nd with
  | root s h =>
    intro hc
    rw [show (Node.root s h).state = s from rfl] at *
    rw [hc]
    exact ReachIn.refl _
  | child s p a c h ih =>
    intro hc
    obtain ⟨hp, ha, hs, hcost⟩ := hc
    have := (ih hp).snoc ha
    rw [← hs] at this
    rw [show (Node.child s p a c h).state = s from rfl,
      show (Node.child s p a c h).cost = c from rfl, hcost]
    exact this

/-- The invariant holds for the BFS starting configuration. -/
theorem bfsInv_init {init goal : List Nat} {n : Nat} (hval : ValidState init n) :
    BfsInv init goal n [Node.root init 0] [init] := by
  refine ⟨?_, ?_, ?_, ?_, ?_, ?_, ?_, ?_, ?_, ?_, ?_⟩
  · intro nd hnd
    rw [List.mem_singleton.1 hnd]
    rfl
  · intro nd hnd
    rw [List.mem_singleton.1 hnd]
    exact isDist_self init n
  · exact List.pairwise_singleton _ _
  · intro a ha b hb
    rw [List.mem_singleton.1 ha, List.mem_singleton.1 hb]
    exact Nat.le_succ 0
  · intro s hs
    exact Or.inl ⟨Node.root init 0, List.mem_singleton_self _, (List.mem_singleton.1 hs).symm⟩
  · intro nd hnd
    rw [List.mem_singleton.1 hnd]
    exact List.mem_singleton_self _
  · exact List.mem_singleton_self _
  · intro s k hks hall
    exfalso
    have := hall (Node.root init 0) (List.mem_singleton_self _)
    simp [Node.cost] at this
  · intro hg
    exact ⟨Node.root init 0, List.mem_singleton_self _, (List.mem_singleton.1 hg).symm⟩
  · exact List.nodup_singleton _
  · intro s hs
    rw [List.mem_singleton.1 hs]
    exact hval

/-- Any path returned by the BFS loop from an invariant-satisfying
configuration is a valid solution path of length `d + 1` for the exact goal
distance `d`. -/
theorem bfsLoop_inv_sound {init goal : List Nat} {n d : Nat}
    (hd : IsDist init n goal d) :
    ∀ fuel (F : List Node) (E : List (List Nat)) cnt p c2,
      BfsInv init goal n F E → bfsLoop goal n fuel F E cnt = (some p, c2) →
      PathSpec init goal n p ∧ p.length = d + 1 := by
  intro fuel
  induction fuel with
  | zero =>
    intro F E cnt p c2 _ hrun
    exact absurd (congrArg Prod.fst hrun) (by simp [bfsLoop])
  | succ fuel ih =>
    intro F E cnt p c2 hinv hrun
    cases F with
    | nil => exact absurd (congrArg Prod.fst hrun) (by simp [bfsLoop])
    | cons node rest =>
      rw [bfsLoop] at hrun
      by_cases hg : node.state = goal
      · rw [if_pos hg] at hrun
        have hp : p = reconstruct_path node := by
          have := congrArg Prod.fst hrun
          simpa using this.symm
        have hchain := hinv.chain node (List.mem_cons_self _ _)
        have hcost : node.cost = d :=
          isDist_unique (hg ▸ hinv.costdist node (List.mem_cons_self _ _)) hd
        rw [hp]
        refine ⟨pathSpec_of_chain hchain hg, ?_⟩
        rw [reconstruct_length_chain hchain, hcost]
      · rw [if_neg hg] at hrun
        exact ih _ _ _ p c2 (bfsInv_step hinv hg) hrun

/-- From any invariant-satisfying configuration, some fuel makes the BFS
loop return a path (completeness; the goal must be at a finite distance). -/
theorem bfsLoop_inv_complete {init goal : List Nat} {n d : Nat}
    (hd : IsDist init n goal d) :
    ∀ a b (F : List Node) (E : List (List Nat)) cnt,
      BfsInv init goal n F E → stateBound n - E.length = a → F.length = b →
      ∃ fuel p c2, bfsLoop goal n fuel F E cnt = (some p, c2) := by
  intro a
  induction a using Nat.strong_induction_on with
  | _ a iha =>
    intro b
    induction b using Nat.strong_induction_on with
    | _ b ihb =>
      intro F E cnt hinv ha hb
      cases F with
      | nil =>
        exfalso
        have hge := hinv.low_expl goal d hd (by intro nd hnd; exact absurd hnd (List.not_mem_nil _))
        obtain ⟨nd, hnd, _⟩ := hinv.goal_front hge.1
        exact List.not_mem_nil nd hnd
      | cons node rest =>
        by_cases hg : node.state = goal
        · refine ⟨1, reconstruct_path node, cnt + 1, ?_⟩
          rw [bfsLoop, if_pos hg]
        · obtain ⟨newnodes, hF, _hnew, _hEsub, _hEchar, _hnb, _hns, hElen, _hEnd⟩ :=
            bfsExpand_spec n node rest E
          have hinv2 := bfsInv_step hinv hg
          have hbound : (bfsExpand n node (rest, E)).2.length ≤ stateBound n :=
            explored_le_bound hinv2.expl_nodup hinv2.expl_valid
          cases newnodes with
          | nil =>
            have hlen2 : (bfsExpand n node (rest, E)).2.length = E.length := by
              rw [hElen]
              rfl
            obtain ⟨fuel, p, c2, hrun⟩ := ihb rest.length (by rw [← hb]; simp)
              (bfsExpand n node (rest, E)).1 (bfsExpand n node (rest, E)).2 (cnt + 1)
              hinv2 (by rw [hlen2, ha]) (by rw [hF]; simp)
            refine ⟨fuel + 1, p, c2, ?_⟩
            rw [bfsLoop, if_neg hg]
            exact hrun
          | cons nd0 nds =>
            have hlen2 : E.length < (bfsExpand n node (rest, E)).2.length := by
              rw [hElen]
              simp
            have ha2 : stateBound n - (bfsExpand n node (rest, E)).2.length < a := by
              omega
            obtain ⟨fuel, p, c2, hrun⟩ := iha _ ha2 (bfsExpand n node (rest, E)).1.length
              (bfsExpand n node (rest, E)).1 (bfsExpand n node (rest, E)).2 (cnt + 1)
              hinv2 rfl rfl
            refine ⟨fuel + 1, p, c2, ?_⟩
            rw [bfsLoop, if_neg hg]
            exact hrun

/-! ### Binary-heap verification: index and permutation helpers -/

theorem keyAt_set_ne (l : List (Nat × Node)) (i : Nat) (v : Nat × Node) (j : Nat)
    (h : i ≠ j) : keyAt (l.set i v) j = keyAt l j := by
  unfold keyAt
  by_cases hj : j < l.length
  · have hj2 : j < (l.set i v).length := by simpa using hj
    rw [List.getD_eq_getElem _ _ hj2, List.getD_eq_getElem _ _ hj,
      List.getElem_set_ne h]
  · rw [List.getD_eq_default _ _ (by simpa using Nat.le_of_not_lt hj),
      List.getD_eq_default _ _ (Nat.le_of_not_lt hj)]

theorem keyAt_set_self (l : List (Nat × Node)) (v : Nat × Node) (i : Nat)
    (h : i < l.length) : keyAt (l.set i v) i = v.1 := by
  unfold keyAt
  have h2 : i < (l.set i v).length := by simpa using h
  rw [List.getD_eq_getElem _ _ h2, List.getElem_set_self]

theorem getD_fst_eq_keyAt (l : List (Nat × Node)) (i : Nat) (d : Nat × Node)
    (h : i < l.length) : (l.getD i d).1 = keyAt l i := by
  unfold keyAt
  rw [List.getD_eq_getElem _ _ h, List.getD_eq_getElem _ _ h]

theorem set_getD_eq {α : Type} (l : List α) (i : Nat) (d : α) (hi : i < l.length) :
    l.set i (l.getD i d) = l := by
  apply List.ext_getElem
  · simp
  · intro k hk hk2
    rcases eq_or_ne i k with rfl | hne
    · rw [List.getElem_set_self, List.getD_eq_getElem _ _ hi]
    · rw [List.getElem_set_ne hne]

theorem perm_set_set_swap {α : Type} [DecidableEq α] (l : List α) (i j : Nat) (x d : α)
    (hi : i < l.length) (hj : j < l.length) (hne : i ≠ j) :
    ((l.set i (l.getD j d)).set j x).Perm (l.set i x) := by
  rw [List.getD_eq_getElem _ _ hj, List.perm_iff_count]
  intro b
  have hj2 : j < (l.set i l[j]).length := by simpa using hj
  rw [List.count_set _ _ _ _ hj2, List.count_set _ _ _ _ hi, List.count_set _ _ _ _ hi,
    List.getElem_set_ne hne]
  omega

/-- In a well-shaped heap the root key is minimal. -/
theorem heapProp_root_min {H : List (Nat × Node)} (hH : HeapProp H) :
    ∀ j, j < H.length → keyAt H 0 ≤ keyAt H j := by
  intro j
  induction j using Nat.strong_induction_on with
  | _ j ih =>
    intro hj
    rcases Nat.eq_zero_or_pos j with rfl | hp
    · exact Nat.le_refl _
    · exact Nat.le_trans (ih ((j - 1) / 2) (by omega) (by omega)) (hH j hp hj)

/-- Full correctness of the heapq bubble-up pass (`_siftdown` with
`startpos = 0`, the only form the algorithms use): provided the array is a
heap except around the hole at `pos` (conditions D1-D3), the result is a
heap, a permutation of the array with `newitem` written into the hole, and
of unchanged length. -/
theorem siftdownLoop_zero_spec {P : Nat × Node → Prop} (hKI : KeyIff P)
    {newitem : Nat × Node} (hPn : P newitem) :
    ∀ pos (H : List (Nat × Node)), pos < H.length → (∀ x ∈ H, P x) →
      (∀ j, 0 < j → j < H.length → j ≠ pos → (j - 1) / 2 ≠ pos →
        keyAt H ((j - 1) / 2) ≤ keyAt H j) →
      (∀ c, c < H.length → (c = 2 * pos + 1 ∨ c = 2 * pos + 2) → newitem.1 ≤ keyAt H c) →
      (0 < pos → ∀ c, c < H.length → (c = 2 * pos + 1 ∨ c = 2 * pos + 2) →
        keyAt H ((pos - 1) / 2) ≤ keyAt H c) →
      HeapProp (siftdownLoop 0 newitem H pos) ∧
      (siftdownLoop 0 newitem H pos).Perm (H.set pos newitem) ∧
      (siftdownLoop 0 newitem H pos).length = H.length := by
  intro pos
  induction pos using Nat.strong_induction_on with
  | _ pos ih =>
    intro H hpos hAll hD1 hD2 hD3
    rcases Nat.eq_zero_or_pos pos with hz | hp
    · subst hz
      rw [siftdownLoop, if_neg (by omega)]
      refine ⟨?_, List.Perm.refl _, by simp⟩
      intro j hj0 hjlen
      rw [List.length_set] at hjlen
      by_cases hpar : (j - 1) / 2 = 0
      · rw [hpar, keyAt_set_self _ _ _ hpos, keyAt_set_ne _ _ _ _ (by omega)]
        exact hD2 j hjlen (by omega)
      · rw [keyAt_set_ne _ _ _ _ (fun h => hpar h.symm), keyAt_set_ne _ _ _ _ (by omega)]
        exact hD1 j hj0 hjlen (by omega) hpar
    · have hpp : (pos - 1) / 2 < pos := by omega
      have hpplen : (pos - 1) / 2 < H.length := by omega
      have hparmem : H.getD ((pos - 1) / 2) newitem ∈ H := by
        rw [List.getD_eq_getElem _ _ hpplen]
        exact List.getElem_mem hpplen
      have hPpar : P (H.getD ((pos - 1) / 2) newitem) := hAll _ hparmem
      have hparkey : (H.getD ((pos - 1) / 2) newitem).1 = keyAt H ((pos - 1) / 2) :=
        getD_fst_eq_keyAt _ _ _ hpplen
      rw [siftdownLoop, if_pos hp]
      simp only []
      by_cases hcmp : tupLt newitem (H.getD ((pos - 1) / 2) newitem) = true
      · rw [if_pos hcmp]
        have hklt : newitem.1 < keyAt H ((pos - 1) / 2) := by
          rw [← hparkey]
          exact (hKI _ _ hPn hPpar).1 hcmp
        obtain ⟨hH2, hperm2, hlen2⟩ := ih ((pos - 1) / 2) hpp
          (H.set pos (H.getD ((pos - 1) / 2) newitem))
          (by simpa using hpplen)
          (by
            intro x hx
            rcases List.mem_or_eq_of_mem_set hx with h | h
            · exact hAll x h
            · rw [h]
              exact hPpar)
          (by
            intro j hj0 hjlen hjne hjpne
            rw [List.length_set] at hjlen
            by_cases hj_pos : j = pos
            · exact absurd (by omega : (j - 1) / 2 = (pos - 1) / 2) hjpne
            · by_cases hjp_pos : (j - 1) / 2 = pos
              · rw [hjp_pos, keyAt_set_self _ _ _ hpos,
                  keyAt_set_ne _ _ _ _ (fun h => hj_pos h.symm), hparkey]
                exact hD3 hp j hjlen (by omega)
              · rw [keyAt_set_ne _ _ _ _ (fun h => hjp_pos h.symm),
                  keyAt_set_ne _ _ _ _ (fun h => hj_pos h.symm)]
                exact hD1 j hj0 hjlen hj_pos hjp_pos)
          (by
            intro c hclen hcor
            rw [List.length_set] at hclen
            by_cases hc : c = pos
            · rw [hc, keyAt_set_self _ _ _ hpos, hparkey]
              exact Nat.le_of_lt hklt
            · rw [keyAt_set_ne _ _ _ _ (fun h => hc h.symm)]
              have hceq : (c - 1) / 2 = (pos - 1) / 2 := by omega
              have h1 := hD1 c (by omega) hclen hc (by omega)
              rw [hceq] at h1
              omega)
          (by
            intro hpp0 c hclen hcor
            rw [List.length_set] at hclen
            have hbase := hD1 ((pos - 1) / 2) hpp0 hpplen (by omega) (by omega)
            by_cases hc : c = pos
            · rw [hc, keyAt_set_self _ _ _ hpos, hparkey,
                keyAt_set_ne _ _ _ _ (by omega)]
              exact hbase
            · rw [keyAt_set_ne _ _ _ _ (fun h => hc h.symm),
                keyAt_set_ne _ _ _ _ (by omega)]
              have hceq : (c - 1) / 2 = (pos - 1) / 2 := by omega
              have h1 := hD1 c (by omega) hclen hc (by omega)
              rw [hceq] at h1
              omega)
        refine ⟨hH2, hperm2.trans ?_, by rw [hlen2]; simp⟩
        exact perm_set_set_swap H pos ((pos - 1) / 2) newitem newitem hpos hpplen (by omega)
      · rw [if_neg hcmp]
        have hkge : keyAt H ((pos - 1) / 2) ≤ newitem.1 := by
          rw [← hparkey]
          by_contra hlt
          exact hcmp ((hKI _ _ hPn hPpar).2 (by rw [hparkey]; omega))
        refine ⟨?_, List.Perm.refl _, by simp⟩
        intro j hj0 hjlen
        rw [List.length_set] at hjlen
        by_cases hj_pos : j = pos
        · rw [hj_pos, keyAt_set_self _ _ _ hpos,
            keyAt_set_ne _ _ _ _ (by omega)]
          exact hkge
        · by_cases hjp_pos : (j - 1) / 2 = pos
          · rw [hjp_pos, keyAt_set_self _ _ _ hpos,
              keyAt_set_ne _ _ _ _ (fun h => hj_pos h.symm)]
            exact hD2 j hjlen (by omega)
          · rw [keyAt_set_ne _ _ _ _ (fun h => hjp_pos h.symm),
              keyAt_set_ne _ _ _ _ (fun h => hj_pos h.symm)]
            exact hD1 j hj0 hjlen hj_pos hjp_pos

/-- Full correctness of the descending phase of heapq `_siftup`: starting
from a hole at `pos` in an array that is a heap away from the hole, the
loop moves the smaller child up into the hole until reaching a leaf
position, preserving the multiset (with `newitem` written into the final
hole) and the heap shape away from the final hole. -/
theorem siftupLoop_zero_spec {P : Nat × Node → Prop} (hKI : KeyIff P)
    {endpos : Nat} {ni : Nat × Node} (hPn : P ni) :
    ∀ k pos (H : List (Nat × Node)), endpos - pos = k → H.length = endpos →
      pos < endpos → (∀ x ∈ H, P x) →
      (∀ j, 0 < j → j < endpos → j ≠ pos → (j - 1) / 2 ≠ pos →
        keyAt H ((j - 1) / 2) ≤ keyAt H j) →
      (0 < pos → ∀ c, c < endpos → (c = 2 * pos + 1 ∨ c = 2 * pos + 2) →
        keyAt H ((pos - 1) / 2) ≤ keyAt H c) →
      (siftupLoop endpos ni H pos).1.Perm (H.set pos ni) ∧
      (siftupLoop endpos ni H pos).1.length = endpos ∧
      (siftupLoop endpos ni H pos).2 < endpos ∧
      endpos ≤ 2 * (siftupLoop endpos ni H pos).2 + 1 ∧
      (siftupLoop endpos ni H pos).1.getD (siftupLoop endpos ni H pos).2 dEntry = ni ∧
      (∀ x ∈ (siftupLoop endpos ni H pos).1, P x) ∧
      (∀ j, 0 < j → j < endpos → j ≠ (siftupLoop endpos ni H pos).2 →
        (j - 1) / 2 ≠ (siftupLoop endpos ni H pos).2 →
        keyAt (siftupLoop endpos ni H pos).1 ((j - 1) / 2) ≤
          keyAt (siftupLoop endpos ni H pos).1 j) := by
  intro k
  induction k using Nat.strong_induction_on with
  | _ k ih =>
    intro pos H hk hlen hpos hAll hS2 hS4
    have hposlen : pos < H.length := by omega
    by_cases hlt : 2 * pos + 1 < endpos
    · rw [siftupLoop]
      simp only []
      rw [dif_pos hlt]
      have hmain : ∀ c, c < endpos → (c = 2 * pos + 1 ∨ c = 2 * pos + 2) →
          (∀ s, s < endpos → (s = 2 * pos + 1 ∨ s = 2 * pos + 2) →
            keyAt H c ≤ keyAt H s) →
          (siftupLoop endpos ni (H.set pos (H.getD c ni)) c).1.Perm (H.set pos ni) ∧
          (siftupLoop endpos ni (H.set pos (H.getD c ni)) c).1.length = endpos ∧
          (siftupLoop endpos ni (H.set pos (H.getD c ni)) c).2 < endpos ∧
          endpos ≤ 2 * (siftupLoop endpos ni (H.set pos (H.getD c ni)) c).2 + 1 ∧
          (siftupLoop endpos ni (H.set pos (H.getD c ni)) c).1.getD
            (siftupLoop endpos ni (H.set pos (H.getD c ni)) c).2 dEntry = ni ∧
          (∀ x ∈ (siftupLoop endpos ni (H.set pos (H.getD c ni)) c).1, P x) ∧
          (∀ j, 0 < j → j < endpos → j ≠ (siftupLoop endpos ni (H.set pos (H.getD c ni)) c).2 →
            (j - 1) / 2 ≠ (siftupLoop endpos ni (H.set pos (H.getD c ni)) c).2 →
            keyAt (siftupLoop endpos ni (H.set pos (H.getD c ni)) c).1 ((j - 1) / 2) ≤
              keyAt (siftupLoop endpos ni (H.set pos (H.getD c ni)) c).1 j) := by
        intro c hclt hcor hcmin
        have hclen : c < H.length := by omega
        have hkeyc : (H.getD c ni).1 = keyAt H c := getD_fst_eq_keyAt _ _ _ hclen
        obtain ⟨h1, h2, h3, h4, h5, h6, h7⟩ := ih (endpos - c) (by omega) c
          (H.set pos (H.getD c ni)) rfl (by simpa using hlen) hclt
          (by
            intro x hx
            rcases List.mem_or_eq_of_mem_set hx with h | h
            · exact hAll x h
            · rw [h]
              exact hAll _ (by
                rw [List.getD_eq_getElem _ _ hclen]
                exact List.getElem_mem hclen))
          (by
            intro j hj0 hjlen hjc hjpc
            by_cases hjpos : j = pos
            · subst hjpos
              rw [keyAt_set_self _ _ _ hposlen, keyAt_set_ne _ _ _ _ (by omega), hkeyc]
              exact hS4 hj0 c hclt hcor
            · by_cases hjppos : (j - 1) / 2 = pos
              · rw [hjppos, keyAt_set_self _ _ _ hposlen,
                  keyAt_set_ne _ _ _ _ (fun h => hjpos h.symm), hkeyc]
                exact hcmin j hjlen (by omega)
              · rw [keyAt_set_ne _ _ _ _ (fun h => hjppos h.symm),
                  keyAt_set_ne _ _ _ _ (fun h => hjpos h.symm)]
                exact hS2 j hj0 hjlen hjpos hjppos)
          (by
            intro hc0 d hdlt hdor
            have hcp : (c - 1) / 2 = pos := by omega
            rw [hcp, keyAt_set_self _ _ _ hposlen,
              keyAt_set_ne _ _ _ _ (by omega), hkeyc]
            have h1 := hS2 d (by omega) hdlt (by omega) (by omega)
            have hde : (d - 1) / 2 = c := by omega
            rw [hde] at h1
            exact h1)
        refine ⟨h1.trans ?_, h2, h3, h4, h5, h6, h7⟩
        exact perm_set_set_swap H pos c ni ni hposlen hclen (by omega)
      by_cases hcond : 2 * pos + 1 + 1 < endpos ∧
          ¬ tupLt (H.getD (2 * pos + 1) ni) (H.getD (2 * pos + 1 + 1) ni) = true
      · rw [if_pos hcond]
        refine hmain (2 * pos + 1 + 1) hcond.1 (by omega) ?_
        intro s hslt hsor
        have hllen : 2 * pos + 1 < H.length := by omega
        have hrlen : 2 * pos + 1 + 1 < H.length := by omega
        have hkge : keyAt H (2 * pos + 1 + 1) ≤ keyAt H (2 * pos + 1) := by
          have hPl : P (H.getD (2 * pos + 1) ni) := hAll _ (by
            rw [List.getD_eq_getElem _ _ hllen]
            exact List.getElem_mem hllen)
          have hPr : P (H.getD (2 * pos + 1 + 1) ni) := hAll _ (by
            rw [List.getD_eq_getElem _ _ hrlen]
            exact List.getElem_mem hrlen)
          have := hcond.2
          rw [← getD_fst_eq_keyAt _ _ ni hrlen, ← getD_fst_eq_keyAt _ _ ni hllen]
          by_contra hgt
          exact this ((hKI _ _ hPl hPr).2 (by omega))
        rcases hsor with rfl | rfl
        · exact hkge
        · exact Nat.le_refl _
      · rw [if_neg hcond]
        refine hmain (2 * pos + 1) hlt (by omega) ?_
        intro s hslt hsor
        rcases hsor with rfl | rfl
        · exact Nat.le_refl _
        · have hllen : 2 * pos + 1 < H.length := by omega
          have hrlen : 2 * pos + 2 < H.length := by omega
          have hPl : P (H.getD (2 * pos + 1) ni) := hAll _ (by
            rw [List.getD_eq_getElem _ _ hllen]
            exact List.getElem_mem hllen)
          have hPr : P (H.getD (2 * pos + 1 + 1) ni) := hAll _ (by
            rw [List.getD_eq_getElem _ _ (by omega : 2 * pos + 1 + 1 < H.length)]
            exact List.getElem_mem (by omega))
          have hcmp : tupLt (H.getD (2 * pos + 1) ni) (H.getD (2 * pos + 1 + 1) ni) = true := by
            by_contra hc
            exact hcond ⟨by omega, hc⟩
          have hklt := (hKI _ _ hPl hPr).1 hcmp
          rw [getD_fst_eq_keyAt _ _ ni hllen,
            getD_fst_eq_keyAt _ _ ni (by omega : 2 * pos + 1 + 1 < H.length)] at hklt
          have he : 2 * pos + 1 + 1 = 2 * pos + 2 := by omega
          rw [he] at hklt
          omega
    · rw [siftupLoop]
      simp only []
      rw [dif_neg hlt]
      refine ⟨List.Perm.refl _, by simp [hlen], hpos, by omega, ?_, ?_, ?_⟩
      · rw [List.getD_eq_getElem _ _ (by simpa using hposlen), List.getElem_set_self]
      · intro x hx
        rcases List.mem_or_eq_of_mem_set hx with h | h
        · exact hAll x h
        · rw [h]
          exact hPn
      · intro j hj0 hjlen hjpos hjppos
        rw [keyAt_set_ne _ _ _ _ (fun h => hjpos h.symm),
          keyAt_set_ne _ _ _ _ (fun h => hjppos h.symm)]
        exact hS2 j hj0 hjlen hjpos hjppos

theorem keyAt_append (l l2 : List (Nat × Node)) (i : Nat) (h : i < l.length) :
    keyAt (l ++ l2) i = keyAt l i := by
  unfold keyAt
  rw [List.getD_eq_getElem _ _ (by simp; omega), List.getD_eq_getElem _ _ h,
    List.getElem_append_left h]

/-- Full correctness of heapq `_siftup` at the root: rebuilding after the
root of a heap has been overwritten yields a heap with the same elements. -/
theorem siftup_zero_spec {P : Nat × Node → Prop} (hKI : KeyIff P)
    {H : List (Nat × Node)} (hne : 0 < H.length) (hAll : ∀ x ∈ H, P x)
    (hpre : ∀ j, 0 < j → j < H.length → (j - 1) / 2 ≠ 0 →
      keyAt H ((j - 1) / 2) ≤ keyAt H j) :
    HeapProp (siftup H 0) ∧ (siftup H 0).Perm H ∧
    (siftup H 0).length = H.length ∧ (∀ x ∈ siftup H 0, P x) := by
  have hni_mem : H.getD 0 (0, Node.root [] 0) ∈ H := by
    rw [List.getD_eq_getElem _ _ hne]
    exact List.getElem_mem hne
  have hPn : P (H.getD 0 (0, Node.root [] 0)) := hAll _ hni_mem
  obtain ⟨u1, u2, u3, u4, u5, u6, u7⟩ :=
    @siftupLoop_zero_spec P hKI H.length (H.getD 0 (0, Node.root [] 0)) hPn
      H.length 0 H (by omega) rfl hne hAll
      (fun j hj0 hjl _ hp2 => hpre j hj0 hjl hp2)
      (fun h => absurd h (Nat.lt_irrefl 0))
  have hd : dEntry = ((0 : Nat), Node.root [] 0) := rfl
  obtain ⟨v1, v2, v3⟩ :=
    @siftdownLoop_zero_spec P hKI (H.getD 0 (0, Node.root [] 0)) hPn
      (siftupLoop H.length (H.getD 0 (0, Node.root [] 0)) H 0).2
      (siftupLoop H.length (H.getD 0 (0, Node.root [] 0)) H 0).1
      (by omega) u6
      (by
        intro j hj0 hjlen hjne hjpne
        exact u7 j hj0 (by omega) hjne hjpne)
      (by
        intro c hclen hcor
        exact absurd hclen (by omega))
      (by
        intro h0 c hclen hcor
        exact absurd hclen (by omega))
  have hfix : (siftupLoop H.length (H.getD 0 (0, Node.root [] 0)) H 0).1.set
      (siftupLoop H.length (H.getD 0 (0, Node.root [] 0)) H 0).2
      (H.getD 0 (0, Node.root [] 0)) =
      (siftupLoop H.length (H.getD 0 (0, Node.root [] 0)) H 0).1 := by
    nth_rewrite 3 [← u5]
    exact set_getD_eq _ _ _ (by omega)
  have hperm : (siftup H 0).Perm H := by
    show (siftdownLoop 0 (H.getD 0 (0, Node.root [] 0))
      (siftupLoop H.length (H.getD 0 (0, Node.root [] 0)) H 0).1
      (siftupLoop H.length (H.getD 0 (0, Node.root [] 0)) H 0).2).Perm H
    refine (v2.trans (by rw [hfix])).trans ?_
    refine u1.trans ?_
    rw [set_getD_eq _ _ _ hne]
  refine ⟨v1, hperm, ?_, ?_⟩
  · have := hperm.length_eq
    exact this
  · intro x hx
    exact hAll x (hperm.mem_iff.1 hx)

/-- Full correctness of heapq `heappush`: on a well-shaped heap of entries
drawn from `P`, the push preserves the heap shape and adds exactly the new
item to the multiset of entries. -/
theorem heappush_spec {P : Nat × Node → Prop} (hKI : KeyIff P)
    {heap : List (Nat × Node)} {item : Nat × Node}
    (hAll : ∀ x ∈ heap, P x) (hPi : P item) (hH : HeapProp heap) :
    HeapProp (heappush heap item) ∧ (heappush heap item).Perm (item :: heap) ∧
    (heappush heap item).length = heap.length + 1 ∧ (∀ x ∈ heappush heap item, P x) := by
  obtain ⟨v1, v2, v3⟩ :=
    @siftdownLoop_zero_spec P hKI item hPi heap.length (heap ++ [item])
      (by simp)
      (by
        intro x hx
        rcases List.mem_append.1 hx with h | h
        · exact hAll x h
        · rw [List.mem_singleton.1 h]
          exact hPi)
      (by
        intro j hj0 hjlen hjne hjpne
        rw [List.length_append, List.length_singleton] at hjlen
        have hjlt : j < heap.length := by omega
        rw [keyAt_append _ _ _ hjlt, keyAt_append _ _ _ (by omega)]
        exact hH j hj0 hjlt)
      (by
        intro c hclen hcor
        rw [List.length_append, List.length_singleton] at hclen
        omega)
      (by
        intro h0 c hclen hcor
        rw [List.length_append, List.length_singleton] at hclen
        omega)
  have hgd : (heap ++ [item]).getD heap.length dEntry = item := by
    rw [List.getD_eq_getElem _ _ (by simp),
      List.getElem_append_right (Nat.le_refl heap.length)]
    simp
  have hset : (heap ++ [item]).set heap.length item = heap ++ [item] := by
    nth_rewrite 2 [← hgd]
    exact set_getD_eq (heap ++ [item]) heap.length dEntry (by simp)
  have hperm : (heappush heap item).Perm (item :: heap) := by
    show (siftdownLoop 0 item (heap ++ [item]) heap.length).Perm (item :: heap)
    refine (v2.trans (by rw [hset])).trans ?_
    exact List.perm_append_singleton _ _
  refine ⟨v1, hperm, ?_, ?_⟩
  · have := hperm.length_eq
    simpa using this
  · intro x hx
    rcases List.mem_cons.1 (hperm.mem_iff.1 hx) with h | h
    · rw [h]
      exact hPi
    · exact hAll x h

/-- Full correctness of heapq `heappop`: on a nonempty well-shaped heap it
returns a minimal-key entry together with a well-shaped heap of the
remaining entries. -/
theorem heappop_spec {P : Nat × Node → Prop} (hKI : KeyIff P)
    {heap : List (Nat × Node)} (hAll : ∀ x ∈ heap, P x) (hH : HeapProp heap)
    (hne : heap ≠ []) :
    ∃ it h2, heappop heap = some (it, h2) ∧ heap.Perm (it :: h2) ∧ HeapProp h2 ∧
      (∀ x ∈ h2, P x) ∧ (∀ e ∈ heap, it.1 ≤ e.1) ∧ h2.length + 1 = heap.length := by
  obtain ⟨last, hlast⟩ := Option.isSome_iff_exists.1 (List.getLast?_isSome.2 hne)
  have hlastmem : last ∈ heap := List.mem_of_getLast?_eq_some hlast
  have hdecomp : heap.dropLast ++ [last] = heap := by
    have h1 := List.getLast?_eq_getLast heap hne
    rw [hlast] at h1
    have h2 : last = heap.getLast hne := Option.some.inj h1
    rw [h2]
    exact List.dropLast_append_getLast hne
  cases hdl : heap.dropLast with
  | nil =>
    have hone : heap = [last] := by
      rw [← hdecomp, hdl]
      rfl
    subst hone
    refine ⟨last, [], ?_, List.Perm.refl _, ?_, ?_, ?_, rfl⟩
    · rfl
    · intro j hj0 hjlen
      simp at hjlen
    · intro x hx
      exact absurd hx (List.not_mem_nil x)
    · intro e he
      rw [List.mem_singleton.1 he]
  | cons r0 t =>
    have hdll : heap.dropLast.length = heap.length - 1 := List.length_dropLast heap
    have hdlt : t.length + 1 = heap.length - 1 := by
      have h2 := hdll
      rw [hdl] at h2
      simpa using h2
    have hlen2 : 2 ≤ heap.length := by
      have h1 : heap.length ≠ 0 := by
        intro h2
        exact hne (List.length_eq_zero.1 h2)
      omega
    have hset : (r0 :: t).set 0 last = last :: t := rfl
    have hkey : ∀ i, 0 < i → i < heap.length - 1 → keyAt (last :: t) i = keyAt heap i := by
      intro i hi0 hilen
      have h1 : keyAt (last :: t) i = keyAt (r0 :: t) i := by
        unfold keyAt
        cases i with
        | zero => omega
        | succ i2 => rw [List.getD_cons_succ, List.getD_cons_succ]
      rw [h1, ← hdl]
      unfold keyAt
      rw [List.getD_eq_getElem _ _ (by rw [hdll]; omega),
        List.getD_eq_getElem _ _ (by omega), List.getElem_dropLast]
    have hsub : ∀ x ∈ last :: t, x ∈ heap := by
      intro x hx
      rcases List.mem_cons.1 hx with h | h
      · rw [h]
        exact hlastmem
      · have h2 : x ∈ heap.dropLast := by
          rw [hdl]
          exact List.mem_cons_of_mem _ h
        exact (List.dropLast_sublist heap).subset h2
    obtain ⟨w1, w2, w3, w4⟩ := @siftup_zero_spec P hKI (last :: t)
      (by simp)
      (fun x hx => hAll x (hsub x hx))
      (by
        intro j hj0 hjlen hjp
        simp only [List.length_cons] at hjlen
        have hjheap : j < heap.length - 1 := by omega
        rw [hkey j hj0 hjheap, hkey ((j - 1) / 2) (by omega) (by omega)]
        exact hH j hj0 (by omega))
    have hrun : heappop heap = some (r0, siftup ((r0 :: t).set 0 last) 0) := by
      unfold heappop
      rw [hlast, hdl]
    rw [hset] at hrun
    have hr0key : keyAt heap 0 = r0.1 := by
      unfold keyAt
      rw [← hdecomp, hdl]
      rfl
    refine ⟨r0, siftup (last :: t) 0, hrun, ?_, w1, w4, ?_, ?_⟩
    · have hp1 : heap.Perm (r0 :: (last :: t)) := by
        rw [← hdecomp, hdl]
        exact List.Perm.cons r0 (List.perm_append_singleton _ _)
      exact hp1.trans (List.Perm.cons r0 w2.symm)
    · intro e he
      obtain ⟨i, hi, hie⟩ := List.getElem_of_mem he
      have h1 := heapProp_root_min hH i hi
      rw [hr0key] at h1
      unfold keyAt at h1
      rw [List.getD_eq_getElem _ _ hi, hie] at h1
      exact h1
    · rw [w3]
      simp only [List.length_cons]
      omega

/-! ### Manhattan distance is admissible -/

theorem natDiff_add_one_le (a b : Nat) : natDiff (a + 1) b ≤ natDiff a b + 1 := by
  unfold natDiff
  omega

theorem natDiff_le_add_one (a b : Nat) : natDiff a b ≤ natDiff (a + 1) b + 1 := by
  unfold natDiff
  omega

theorem sum_map_range_one (k : Nat) (f g : Nat → Nat) (a : Nat) (ha : a < k)
    (hoff : ∀ i, i < k → i ≠ a → f i = g i) :
    ((List.range k).map f).sum + g a = ((List.range k).map g).sum + f a := by
  induction k with
  | zero => omega
  | succ k ih =>
    rw [List.range_succ, List.map_append, List.map_append, List.sum_append, List.sum_append]
    simp only [List.map_cons, List.map_nil, List.sum_cons, List.sum_nil]
    by_cases hak : a = k
    · subst hak
      have hmap : (List.range a).map f = (List.range a).map g := by
        apply List.map_congr_left
        intro i hi
        exact hoff i (by have := List.mem_range.1 hi; omega) (by
          have := List.mem_range.1 hi
          omega)
      rw [hmap]
      omega
    · have hak2 : a < k := by omega
      have h1 := ih hak2 (fun i hi hia => hoff i (by omega) hia)
      have h2 : f k = g k := hoff k (by omega) (fun h => hak h.symm)
      omega

theorem sum_map_range_two (k : Nat) (f g : Nat → Nat) (a b : Nat) (ha : a < k)
    (hb : b < k) (hne : a ≠ b)
    (hoff : ∀ i, i < k → i ≠ a → i ≠ b → f i = g i) :
    ((List.range k).map f).sum + g a + g b = ((List.range k).map g).sum + f a + f b := by
  have h1 := sum_map_range_one k f (fun i => if i = a then g i else f i) a ha
    (by
      intro i hi hia
      simp [hia])
  have h2 := sum_map_range_one k (fun i => if i = a then g i else f i) g b hb
    (by
      intro i hi hib
      by_cases hia : i = a
      · simp [hia]
      · simp [hia]
        exact hoff i hi hia hib)
  have hba : ¬ b = a := fun h => hne h.symm
  have hha : (fun i => if i = a then g i else f i) a = g a := by simp
  have hhb : (fun i => if i = a then g i else f i) b = f b := by
    simp only []
    rw [if_neg hba]
  rw [hha] at h1
  rw [hhb] at h2
  omega

/-- One legal move changes the Manhattan heuristic by at most one (the
direction needed for admissibility). -/
theorem manhattan_lipschitz {n : Nat} {s : List Nat} {m : Move} (hs : ValidState s n)
    (hm : m ∈ get_possible_moves s n) (goal : List Nat) :
    manhattan_distance s goal n ≤ manhattan_distance (apply_move s m n) goal n + 1 := by
  have hn1 := legal_n_pos hs hm
  obtain ⟨hpos, hlt, hne⟩ := legal_swap_spec hs hm
  have hsl : s.length = n * n := length_of_valid hs
  have he : s.indexOf 0 < s.length := blank_lt_length hs hn1
  have hj : (swap_index_of s m n).toNat < s.length := by omega
  have h0 : s[s.indexOf 0] = 0 := List.getElem_indexOf he
  have hlen2 : (apply_move s m n).length = s.length := length_apply_move s m n
  have hkey : tile_dist n ((swap_index_of s m n).toNat) (goal.indexOf (s.getD ((swap_index_of s m n).toNat) 0)) ≤
      tile_dist n (s.indexOf 0) (goal.indexOf (s.getD ((swap_index_of s m n).toNat) 0)) + 1 := by
    have hdm := Nat.div_add_mod (s.indexOf 0) n
    have hmlt : s.indexOf 0 % n < n := Nat.mod_lt _ (by omega)
    obtain ⟨q, hq⟩ : ∃ q, s.indexOf 0 / n = q := ⟨_, rfl⟩
    obtain ⟨r, hr⟩ : ∃ r, s.indexOf 0 % n = r := ⟨_, rfl⟩
    rw [hq, hr] at hdm
    rw [hr] at hmlt
    obtain ⟨gi, hgi⟩ : ∃ gi, goal.indexOf (s.getD ((swap_index_of s m n).toNat) 0) = gi :=
      ⟨_, rfl⟩
    rw [hgi]
    unfold tile_dist
    rw [hq, hr]
    cases m with
    | UP =>
      have hq1 : 1 ≤ q := by rw [UP_mem_iff, hq] at hm; omega
      have h1 : n ≤ s.indexOf 0 := by
        have h2 : n * 1 ≤ n * q := Nat.mul_le_mul_left n hq1
        omega
      have htn : (swap_index_of s Move.UP n).toNat = s.indexOf 0 - n := by
        simp only [swap_index_of]
        omega
      rw [htn]
      have hmul : n * (q - 1) + n = n * q := by
        have h2 := Nat.mul_succ n (q - 1)
        have h3 : (q - 1).succ = q := by omega
        rw [h3] at h2
        omega
      have hsub : s.indexOf 0 - n = r + n * (q - 1) := by omega
      rw [hsub, Nat.add_mul_div_left _ _ (by omega : 0 < n), Nat.div_eq_of_lt hmlt,
        Nat.add_mul_mod_self_left, Nat.mod_eq_of_lt hmlt, Nat.zero_add]
      have h4 := natDiff_le_add_one (q - 1) (gi / n)
      have h5 : q - 1 + 1 = q := by omega
      rw [h5] at h4
      omega
    | DOWN =>
      have htn : (swap_index_of s Move.DOWN n).toNat = s.indexOf 0 + n := by
        simp only [swap_index_of]
        omega
      rw [htn]
      have hsum : s.indexOf 0 + n = r + n * (q + 1) := by
        have hmul2 : n * (q + 1) = n * q + n := Nat.mul_succ n q
        omega
      rw [hsum, Nat.add_mul_div_left _ _ (by omega : 0 < n), Nat.div_eq_of_lt hmlt,
        Nat.add_mul_mod_self_left, Nat.mod_eq_of_lt hmlt, Nat.zero_add]
      have h4 := natDiff_add_one_le q (gi / n)
      omega
    | LEFT =>
      have hr1 : 1 ≤ r := by rw [LEFT_mem_iff, hr] at hm; omega
      have htn : (swap_index_of s Move.LEFT n).toNat = s.indexOf 0 - 1 := by
        simp only [swap_index_of]
        omega
      rw [htn]
      have hsub : s.indexOf 0 - 1 = r - 1 + n * q := by omega
      rw [hsub, Nat.add_mul_div_left _ _ (by omega : 0 < n), Nat.div_eq_of_lt (by omega),
        Nat.add_mul_mod_self_left, Nat.mod_eq_of_lt (by omega), Nat.zero_add]
      have h4 := natDiff_le_add_one (r - 1) (gi % n)
      have h5 : r - 1 + 1 = r := by omega
      rw [h5] at h4
      omega
    | RIGHT =>
      have hr2 : r < n - 1 := by rw [RIGHT_mem_iff, hr] at hm; exact hm
      have htn : (swap_index_of s Move.RIGHT n).toNat = s.indexOf 0 + 1 := by
        simp only [swap_index_of]
        omega
      rw [htn]
      have hsum : s.indexOf 0 + 1 = r + 1 + n * q := by omega
      rw [hsum, Nat.add_mul_div_left _ _ (by omega : 0 < n), Nat.div_eq_of_lt (by omega),
        Nat.add_mul_mod_self_left, Nat.mod_eq_of_lt (by omega), Nat.zero_add]
      have h4 := natDiff_add_one_le r (gi % n)
      omega
  have htne : s.getD ((swap_index_of s m n).toNat) 0 ≠ 0 := by
    rw [List.getD_eq_getElem s 0 hj]
    intro hzero
    have hnd := valid_nodup hs
    have h1 := List.indexOf_getElem hnd ((swap_index_of s m n).toNat) hj
    rw [hzero] at h1
    exact hne h1.symm
  have hsum := sum_map_range_two s.length
    (fun i => if s.getD i 0 = 0 then 0 else tile_dist n i (goal.indexOf (s.getD i 0)))
    (fun i => if (apply_move s m n).getD i 0 = 0 then 0
      else tile_dist n i (goal.indexOf ((apply_move s m n).getD i 0)))
    (s.indexOf 0) ((swap_index_of s m n).toNat) he hj (fun h => hne h.symm)
    (by
      intro i hi hie hij
      have hgd : (apply_move s m n).getD i 0 = s.getD i 0 := by
        rw [List.getD_eq_getElem (apply_move s m n) 0
          (show i < (apply_move s m n).length by omega), List.getD_eq_getElem s 0 hi]
        simp only [apply_move_eq s m n]
        rw [List.getElem_set_ne (fun h => hij h.symm), List.getElem_set_ne (fun h => hie h.symm)]
      simp only []
      rw [hgd])
  have hfe : (fun i => if s.getD i 0 = 0 then 0
      else tile_dist n i (goal.indexOf (s.getD i 0))) (s.indexOf 0) = 0 := by
    simp only []
    rw [List.getD_eq_getElem s 0 he, h0]
    simp
  have hgj : (fun i => if (apply_move s m n).getD i 0 = 0 then 0
      else tile_dist n i (goal.indexOf ((apply_move s m n).getD i 0)))
      ((swap_index_of s m n).toNat) = 0 := by
    simp only []
    have h1 : (apply_move s m n).getD ((swap_index_of s m n).toNat) 0 = 0 := by
      rw [List.getD_eq_getElem _ 0 (by omega)]
      simp only [apply_move_eq s m n, List.getElem_set_self]
      rw [List.getD_eq_getElem s 0 he, h0]
    rw [h1]
    simp
  have hge : (fun i => if (apply_move s m n).getD i 0 = 0 then 0
      else tile_dist n i (goal.indexOf ((apply_move s m n).getD i 0))) (s.indexOf 0) =
      tile_dist n (s.indexOf 0) (goal.indexOf (s.getD ((swap_index_of s m n).toNat) 0)) := by
    simp only []
    have h1 : (apply_move s m n).getD (s.indexOf 0) 0 = s.getD ((swap_index_of s m n).toNat) 0 := by
      rw [List.getD_eq_getElem _ 0 (by omega)]
      simp only [apply_move_eq s m n]
      rw [List.getElem_set_ne hne, List.getElem_set_self]
    rw [h1, if_neg htne]
  have hfj : (fun i => if s.getD i 0 = 0 then 0
      else tile_dist n i (goal.indexOf (s.getD i 0))) ((swap_index_of s m n).toNat) =
      tile_dist n ((swap_index_of s m n).toNat)
        (goal.indexOf (s.getD ((swap_index_of s m n).toNat) 0)) := by
    simp only []
    rw [if_neg htne]
  have hms : manhattan_distance s goal n =
      ((List.range s.length).map (fun i => if s.getD i 0 = 0 then 0
        else tile_dist n i (goal.indexOf (s.getD i 0)))).sum := rfl
  have hms2 : manhattan_distance (apply_move s m n) goal n =
      ((List.range s.length).map (fun i => if (apply_move s m n).getD i 0 = 0 then 0
        else tile_dist n i (goal.indexOf ((apply_move s m n).getD i 0)))).sum := by
    unfold manhattan_distance
    rw [hlen2]
  rw [hfe, hgj, hge, hfj] at hsum
  rw [hms, hms2]
  omega

/-- Manhattan distance never overestimates the number of moves to the
goal: it is an admissible heuristic. -/
theorem manhattan_admissible {n : Nat} (hn : 1 ≤ n) :
    ∀ {d : Nat} {s goal : List Nat}, ReachIn n d s goal → goal = get_goal_state n →
      ValidState s n → manhattan_distance s (get_goal_state n) n ≤ d := by
  intro d s goal h
  induction h with
  | refl s2 =>
    intro hg hv
    subst hg
    exact Nat.le_of_eq (manhattan_goal_zero hn)
  | step hm h2 ih =>
    rename_i m s2 t2 k2
    intro hg hv
    have h3 := ih hg (valid_apply_move m hv)
    have h4 := manhattan_lipschitz hv hm (get_goal_state n)
    omega

/-- A walk can be laid out as an explicit vertex list with suffix walks
to the target from every vertex. -/
theorem reachIn_path_exists {n : Nat} :
    ∀ {L : Nat} {S goal : List Nat}, ReachIn n L S goal →
      ∃ vs : List (List Nat), vs.length = L + 1 ∧ vs.getD 0 [] = S ∧
        (∀ i, i < L → ∃ m ∈ get_possible_moves (vs.getD i []) n,
          vs.getD (i + 1) [] = apply_move (vs.getD i []) m n) ∧
        (∀ i, i ≤ L → ReachIn n (L - i) (vs.getD i []) goal) := by
  intro L S goal h
  induction h with
  | refl s =>
    refine ⟨[s], rfl, rfl, by omega, ?_⟩
    intro i hi
    have hi0 : i = 0 := by omega
    subst hi0
    exact ReachIn.refl s
  | step hm h2 ih =>
    rename_i m s2 t2 k2
    obtain ⟨vs, hlen, hhead, hedge, hsuf⟩ := ih
    refine ⟨s2 :: vs, by simp [hlen], rfl, ?_, ?_⟩
    · intro i hi
      cases i with
      | zero =>
        refine ⟨m, hm, ?_⟩
        rw [List.getD_cons_succ, List.getD_cons_zero, hhead]
      | succ i2 =>
        rw [List.getD_cons_succ, List.getD_cons_succ]
        exact hedge i2 (by omega)
    · intro i hi
      cases i with
      | zero =>
        rw [List.getD_cons_zero]
        exact ReachIn.step hm h2
      | succ i2 =>
        rw [List.getD_cons_succ]
        have h3 := hsuf i2 (by omega)
        have h4 : k2 + 1 - (i2 + 1) = k2 - i2 := by omega
        rw [h4]
        exact h3

/-! ### A*: entry comparison, dict bookkeeping -/

/-- On well-formed A* entries the Python tuple comparison is exactly the
order on priorities. -/
theorem keyIff_of_entryOK (goal : List Nat) (n : Nat) (P : Nat × Node → Prop)
    (hP : ∀ e, P e → EntryOK goal n e) : KeyIff P := by
  intro a b ha hb
  obtain ⟨hfa, hha⟩ := hP a ha
  obtain ⟨hfb, hhb⟩ := hP b hb
  unfold tupLt
  by_cases h1 : a.1 = b.1
  · rw [if_neg (not_not_intro h1)]
    by_cases h2 : a.2.state = b.2.state
    · rw [if_neg (not_not_intro h2)]
      simp
      omega
    · rw [if_pos h2]
      simp only [decide_eq_true_eq]
      omega
  · rw [if_pos h1]
    simp only [decide_eq_true_eq]

/-- States along a rooted chain are valid whenever the root is. -/
theorem chain_valid {init : List Nat} {n : Nat} (hv : ValidState init n) :
    ∀ {nd : Node}, ChainOK init n nd → ValidState nd.state n := by
  intro nd
  induction nd with
  | root s h =>
    intro hc
    rw [show (Node.root s h).state = s from rfl, hc]
    exact hv
  | child s p a c h ih =>
    intro hc
    obtain ⟨hp, ha, hs, hcost⟩ := hc
    rw [show (Node.child s p a c h).state = s from rfl, hs]
    exact valid_apply_move a (ih hp)

theorem dictGet_cons (k : List Nat) (v : Nat) (d : List (List Nat × Nat)) (k2 : List Nat) :
    dictGet ((k, v) :: d) k2 = if k = k2 then some v else dictGet d k2 := rfl

theorem dictGet_eq_none_iff :
    ∀ (d : List (List Nat × Nat)) (k : List Nat),
      dictGet d k = none ↔ k ∉ d.map Prod.fst := by
  intro d
  induction d with
  | nil => intro k; simp [dictGet]
  | cons p rest ih =>
    intro k
    cases p with
    | mk k2 v =>
      rw [dictGet_cons]
      by_cases h : k2 = k
      · subst h
        simp
      · rw [if_neg h, ih k]
        simp only [List.map_cons]
        constructor
        · intro h1 h2
          rcases List.mem_cons.1 h2 with h3 | h3
          · exact h h3.symm
          · exact h1 h3
        · intro h1 h2
          exact h1 (List.mem_cons_of_mem _ h2)

theorem sum_map_nodup_one {α : Type} [DecidableEq α] :
    ∀ (l : List α) (f g : α → Nat) (a : α), l.Nodup → a ∈ l →
      (∀ x ∈ l, x ≠ a → f x = g x) →
      (l.map f).sum + g a = (l.map g).sum + f a := by
  intro l
  induction l with
  | nil =>
    intro f g a _ ha
    exact absurd ha (List.not_mem_nil a)
  | cons x t ih =>
    intro f g a hnd ha hoff
    obtain ⟨hx, hndt⟩ := List.nodup_cons.1 hnd
    simp only [List.map_cons, List.sum_cons]
    rcases List.mem_cons.1 ha with rfl | hat
    · have hmap : t.map f = t.map g := by
        apply List.map_congr_left
        intro y hy
        exact hoff y (List.mem_cons_of_mem _ hy) (fun h => hx (h ▸ hy))
      rw [hmap]
      omega
    · have h1 := ih f g a hndt hat (fun y hy hya => hoff y (List.mem_cons_of_mem _ hy) hya)
      have h2 : f x = g x := hoff x (List.mem_cons_self _ _) (fun h => hx (h ▸ hat))
      omega

theorem dictKeys_nodup (d : List (List Nat × Nat)) : (dictKeys d).Nodup :=
  List.nodup_dedup _

theorem mem_dictKeys_iff (d : List (List Nat × Nat)) (k : List Nat) :
    k ∈ dictKeys d ↔ k ∈ d.map Prod.fst := List.mem_dedup

/-- Updating a known key with a strictly smaller value makes progress. -/
theorem dictLt_cons_update {k : List Nat} {v c : Nat} {d : List (List Nat × Nat)}
    (hget : dictGet d k = some c) (hlt : v < c) : dictLt ((k, v) :: d) d := by
  have hmem : k ∈ d.map Prod.fst := by
    by_contra h
    rw [← dictGet_eq_none_iff] at h
    rw [h] at hget
    exact absurd hget (by simp)
  have hkeys : dictKeys ((k, v) :: d) = dictKeys d := by
    unfold dictKeys
    rw [List.map_cons]
    exact List.dedup_cons_of_mem hmem
  refine Or.inr ⟨by rw [hkeys], ?_⟩
  unfold dictSum
  rw [hkeys]
  have h1 := sum_map_nodup_one (dictKeys d)
    (fun k2 => (dictGet ((k, v) :: d) k2).getD 0)
    (fun k2 => (dictGet d k2).getD 0) k (dictKeys_nodup d)
    ((mem_dictKeys_iff d k).2 hmem)
    (by
      intro x hx hxk
      simp only []
      rw [dictGet_cons, if_neg (fun h => hxk h.symm)])
  simp only [] at h1
  rw [dictGet_cons, if_pos rfl] at h1
  rw [hget] at h1
  simp only [Option.getD_some] at h1
  omega

/-- Inserting a fresh key makes progress. -/
theorem dictLt_cons_new {k : List Nat} {v : Nat} {d : List (List Nat × Nat)}
    (hget : dictGet d k = none) : dictLt ((k, v) :: d) d := by
  have hmem : k ∉ d.map Prod.fst := (dictGet_eq_none_iff d k).1 hget
  have hkeys : dictKeys ((k, v) :: d) = k :: dictKeys d := by
    unfold dictKeys
    rw [List.map_cons]
    exact List.dedup_cons_of_not_mem hmem
  refine Or.inl ?_
  rw [hkeys]
  simp

theorem dictLt_trans {d3 d2 d1 : List (List Nat × Nat)} (h32 : dictLt d3 d2)
    (h21 : dictLt d2 d1) : dictLt d3 d1 := by
  unfold dictLt at h32 h21 ⊢
  omega

/-- The number of distinct valid-state keys is capped by the state bound. -/
theorem dictKeys_length_le {d : List (List Nat × Nat)} {n : Nat}
    (hval : ∀ p ∈ d, ValidState p.1 n) : (dictKeys d).length ≤ stateBound n := by
  apply explored_le_bound (dictKeys_nodup d)
  intro s hs
  obtain ⟨p, hp, hps⟩ := List.mem_map.1 ((mem_dictKeys_iff d s).1 hs)
  rw [← hps]
  exact hval p hp

theorem astarExpand_eq_fold (goal : List Nat) (n : Nat) (node : Node)
    (acc : List (Nat × Node) × List (List Nat × Nat)) :
    astarExpand goal n manhattan_distance node acc =
      (get_possible_moves node.state n).foldl (astarStep goal n node) acc := rfl

theorem astarStep_none {goal : List Nat} {n : Nat} {node : Node}
    {acc : List (Nat × Node) × List (List Nat × Nat)} {mv : Move}
    (hd : dictGet acc.2 (apply_move node.state mv n) = none) :
    astarStep goal n node acc mv =
      (heappush acc.1 (node.cost + 1 + manhattan_distance (apply_move node.state mv n) goal n,
        Node.child (apply_move node.state mv n) node mv (node.cost + 1)
          (manhattan_distance (apply_move node.state mv n) goal n)),
       (apply_move node.state mv n, node.cost + 1) :: acc.2) := by
  unfold astarStep
  simp only []
  rw [hd]
  rfl

theorem astarStep_update {goal : List Nat} {n : Nat} {node : Node}
    {acc : List (Nat × Node) × List (List Nat × Nat)} {mv : Move} {c : Nat}
    (hd : dictGet acc.2 (apply_move node.state mv n) = some c)
    (hlt : node.cost + 1 < c) :
    astarStep goal n node acc mv =
      (heappush acc.1 (node.cost + 1 + manhattan_distance (apply_move node.state mv n) goal n,
        Node.child (apply_move node.state mv n) node mv (node.cost + 1)
          (manhattan_distance (apply_move node.state mv n) goal n)),
       (apply_move node.state mv n, node.cost + 1) :: acc.2) := by
  unfold astarStep
  simp only []
  rw [hd]
  simp only []
  rw [if_pos (decide_eq_true hlt)]

theorem astarStep_skip {goal : List Nat} {n : Nat} {node : Node}
    {acc : List (Nat × Node) × List (List Nat × Nat)} {mv : Move} {c : Nat}
    (hd : dictGet acc.2 (apply_move node.state mv n) = some c)
    (hge : ¬ node.cost + 1 < c) :
    astarStep goal n node acc mv = acc := by
  unfold astarStep
  simp only []
  rw [hd]
  simp only []
  rw [if_neg]
  intro h1
  exact hge (of_decide_eq_true h1)

/-- Characterization of one full A* expansion (the `for move` loop body of
algorithms.a_star_search with the Manhattan heuristic). -/
theorem astarExpand_spec {init goal : List Nat} {n : Nat} {node : Node}
    ( _hvinit : ValidState init n) (hchain : ChainOK init n node)
    (hvnode : ValidState node.state n) :
    ∀ (moves : List Move), (∀ m ∈ moves, m ∈ get_possible_moves node.state n) →
    ∀ (acc : List (Nat × Node) × List (List Nat × Nat)),
      (∀ e ∈ acc.1, EntryOK goal n e ∧ ChainOK init n e.2) → HeapProp acc.1 →
      (∀ p ∈ acc.2, ValidState p.1 n) →
      (∀ e ∈ acc.1, e ∈ (moves.foldl (astarStep goal n node) acc).1) ∧
      (∀ e ∈ (moves.foldl (astarStep goal n node) acc).1,
        EntryOK goal n e ∧ ChainOK init n e.2) ∧
      HeapProp (moves.foldl (astarStep goal n node) acc).1 ∧
      (∀ s c, dictGet acc.2 s = some c →
        ∃ c2, dictGet (moves.foldl (astarStep goal n node) acc).2 s = some c2 ∧ c2 ≤ c) ∧
      (∀ s c2, dictGet (moves.foldl (astarStep goal n node) acc).2 s = some c2 →
        dictGet acc.2 s = some c2 ∨ (c2 = node.cost + 1 ∧
          ∃ e ∈ (moves.foldl (astarStep goal n node) acc).1,
            e.2.state = s ∧ e.2.cost = c2)) ∧
      (∀ m ∈ moves, ∃ c2,
        dictGet (moves.foldl (astarStep goal n node) acc).2 (apply_move node.state m n) =
          some c2 ∧ c2 ≤ node.cost + 1) ∧
      (∀ p ∈ (moves.foldl (astarStep goal n node) acc).2, ValidState p.1 n) ∧
      (((moves.foldl (astarStep goal n node) acc).1 = acc.1 ∧
        (moves.foldl (astarStep goal n node) acc).2 = acc.2) ∨
        dictLt (moves.foldl (astarStep goal n node) acc).2 acc.2) := by
  intro moves
  induction moves with
  | nil =>
    intro _ acc hEC hHP hKV
    exact ⟨fun e he => he, hEC, hHP,
      fun s c h => ⟨c, h, Nat.le_refl c⟩,
      fun s c2 h => Or.inl h,
      fun m hm => absurd hm (List.not_mem_nil m),
      hKV, Or.inl ⟨rfl, rfl⟩⟩
  | cons mv rest ih =>
    intro hmoves acc hEC hHP hKV
    have hmv : mv ∈ get_possible_moves node.state n := hmoves mv (List.mem_cons_self _ _)
    have hrest : ∀ m ∈ rest, m ∈ get_possible_moves node.state n :=
      fun m hm => hmoves m (List.mem_cons_of_mem _ hm)
    rw [List.foldl_cons]
    by_cases hpush : astarStep goal n node acc mv =
        (heappush acc.1 (node.cost + 1 + manhattan_distance (apply_move node.state mv n) goal n,
          Node.child (apply_move node.state mv n) node mv (node.cost + 1)
            (manhattan_distance (apply_move node.state mv n) goal n)),
         (apply_move node.state mv n, node.cost + 1) :: acc.2) ∧
        ((dictGet acc.2 (apply_move node.state mv n) = none) ∨
          (∃ c, dictGet acc.2 (apply_move node.state mv n) = some c ∧ node.cost + 1 < c))
    · obtain ⟨hstepeq, hguard⟩ := hpush
      have hPitem : EntryOK goal n
          (node.cost + 1 + manhattan_distance (apply_move node.state mv n) goal n,
            Node.child (apply_move node.state mv n) node mv (node.cost + 1)
              (manhattan_distance (apply_move node.state mv n) goal n)) ∧
          ChainOK init n (Node.child (apply_move node.state mv n) node mv (node.cost + 1)
            (manhattan_distance (apply_move node.state mv n) goal n)) :=
        ⟨⟨rfl, rfl⟩, ⟨hchain, hmv, rfl, rfl⟩⟩
      obtain ⟨hp1, hp2, hp3, hp4⟩ := heappush_spec
        (keyIff_of_entryOK goal n (fun e => EntryOK goal n e ∧ ChainOK init n e.2)
          (fun e h => h.1))
        (fun e he => hEC e he) hPitem hHP
      obtain ⟨c1, c2, c3, c4, c5, c6, c7, c8⟩ := ih hrest (astarStep goal n node acc mv)
        (by rw [hstepeq]; exact hp4)
        (by rw [hstepeq]; exact hp1)
        (by
          rw [hstepeq]
          intro p hp
          rcases List.mem_cons.1 hp with rfl | hp2
          · exact valid_apply_move mv hvnode
          · exact hKV p hp2)
      have hmempush : ∀ e ∈ acc.1, e ∈ (astarStep goal n node acc mv).1 := by
        rw [hstepeq]
        intro e he
        exact hp2.symm.mem_iff.1 (List.mem_cons_of_mem _ he)
      have hitem_mem : (node.cost + 1 + manhattan_distance (apply_move node.state mv n) goal n,
          Node.child (apply_move node.state mv n) node mv (node.cost + 1)
            (manhattan_distance (apply_move node.state mv n) goal n)) ∈
          (astarStep goal n node acc mv).1 := by
        rw [hstepeq]
        exact hp2.symm.mem_iff.1 (List.mem_cons_self _ _)
      have hdstep : dictGet (astarStep goal n node acc mv).2 (apply_move node.state mv n) =
          some (node.cost + 1) := by
        rw [hstepeq, dictGet_cons, if_pos rfl]
      have hdother : ∀ s, s ≠ apply_move node.state mv n →
          dictGet (astarStep goal n node acc mv).2 s = dictGet acc.2 s := by
        intro s hs
        rw [hstepeq, dictGet_cons, if_neg (fun h => hs h.symm)]
      refine ⟨?_, c2, c3, ?_, ?_, ?_, c7, ?_⟩
      · intro e he
        exact c1 e (hmempush e he)
      · intro s c hsc
        by_cases hseq : s = apply_move node.state mv n
        · subst hseq
          have hle : node.cost + 1 ≤ c := by
            rcases hguard with hnone | ⟨c0, hc0, hlt0⟩
            · rw [hnone] at hsc
              exact absurd hsc (by simp)
            · rw [hc0] at hsc
              have h9 : c0 = c := Option.some.inj hsc
              omega
          obtain ⟨cf, hcf, hcfle⟩ := c4 _ _ hdstep
          exact ⟨cf, hcf, by omega⟩
        · obtain ⟨cf, hcf, hcfle⟩ := c4 s c (by rw [hdother s hseq]; exact hsc)
          exact ⟨cf, hcf, hcfle⟩
      · intro s cf hcf
        rcases c5 s cf hcf with h | h
        · by_cases hseq : s = apply_move node.state mv n
          · subst hseq
            rw [hdstep] at h
            have hcfe : node.cost + 1 = cf := Option.some.inj h
            refine Or.inr ⟨hcfe.symm, ?_⟩
            refine ⟨_, c1 _ hitem_mem, rfl, hcfe⟩
          · rw [hdother s hseq] at h
            exact Or.inl h
        · exact Or.inr h
      · intro m hm
        rcases List.mem_cons.1 hm with rfl | hm2
        · obtain ⟨cf, hcf, hcfle⟩ := c4 _ _ hdstep
          exact ⟨cf, hcf, hcfle⟩
        · exact c6 m hm2
      · refine Or.inr ?_
        have hstepLt : dictLt (astarStep goal n node acc mv).2 acc.2 := by
          rw [hstepeq]
          rcases hguard with hnone | ⟨c0, hc0, hlt0⟩
          · exact dictLt_cons_new hnone
          · exact dictLt_cons_update hc0 hlt0
        rcases c8 with ⟨_, hd2⟩ | hlt2
        · rw [hd2]
          exact hstepLt
        · exact dictLt_trans hlt2 hstepLt
    · have hskip : astarStep goal n node acc mv = acc := by
        cases hd : dictGet acc.2 (apply_move node.state mv n) with
        | none =>
          exact absurd ⟨astarStep_none hd, Or.inl hd⟩ hpush
        | some c =>
          by_cases hlt : node.cost + 1 < c
          · exact absurd ⟨astarStep_update hd hlt, Or.inr ⟨c, hd, hlt⟩⟩ hpush
          · exact astarStep_skip hd hlt
      have hdex : ∃ c, dictGet acc.2 (apply_move node.state mv n) = some c ∧
          c ≤ node.cost + 1 := by
        cases hd : dictGet acc.2 (apply_move node.state mv n) with
        | none =>
          exact absurd ⟨astarStep_none hd, Or.inl hd⟩ hpush
        | some c =>
          by_cases hlt : node.cost + 1 < c
          · exact absurd ⟨astarStep_update hd hlt, Or.inr ⟨c, hd, hlt⟩⟩ hpush
          · exact ⟨c, rfl, by omega⟩
      rw [hskip]
      obtain ⟨c1, c2, c3, c4, c5, c6, c7, c8⟩ := ih hrest acc hEC hHP hKV
      refine ⟨c1, c2, c3, c4, c5, ?_, c7, c8⟩
      intro m hm
      rcases List.mem_cons.1 hm with rfl | hm2
      · obtain ⟨c, hc, hcle⟩ := hdex
        obtain ⟨cf, hcf, hcfle⟩ := c4 _ _ hc
        exact ⟨cf, hcf, by omega⟩
      · exact c6 m hm2

/-- Under the A* invariant, the frontier always holds an entry whose
priority is at most the optimal solution cost. -/
theorem astarInv_frontier_low {init : List Nat} {n : Nat} {vs : List (List Nat)} {L : Nat}
    {heap : List (Nat × Node)} {dict : List (List Nat × Nat)}
    (hn : 1 ≤ n) (hvinit : ValidState init n)
    (hsuf : ∀ i, i ≤ L → ReachIn n (L - i) (vs.getD i []) (get_goal_state n))
    (hinv : AstarInv init (get_goal_state n) n vs L heap dict) :
    ∃ e ∈ heap, e.1 ≤ L := by
  obtain ⟨c0, hc0, hc0le⟩ := hinv.base
  suffices walk : ∀ k j, j ≤ L → L - j = k →
      (∃ c, dictGet dict (vs.getD j []) = some c ∧ c ≤ j) → ∃ e ∈ heap, e.1 ≤ L by
    exact walk (L - 0) 0 (Nat.zero_le _) rfl ⟨c0, hc0, by omega⟩
  intro k
  induction k using Nat.strong_induction_on with
  | _ k ih =>
    intro j hj hk hdict
    obtain ⟨c, hc, hcle⟩ := hdict
    rcases hinv.pathinv j c hj hc hcle with ⟨e, he, hes, hec⟩ | ⟨hjL, c2, hc2, hc2le⟩
    · obtain ⟨⟨hef, heh⟩, hechain⟩ := hinv.entry_ok e he
      have hvstate : ValidState (vs.getD j []) n := by
        rw [← hes]
        exact chain_valid hvinit hechain
      have hadm : manhattan_distance (vs.getD j []) (get_goal_state n) n ≤ L - j :=
        manhattan_admissible hn (hsuf j hj) rfl hvstate
      refine ⟨e, he, ?_⟩
      rw [hef, heh, hes]
      omega
    · exact ih (L - (j + 1)) (by omega) (j + 1) hjL rfl ⟨c2, hc2, hc2le⟩

/-- When A* pops a goal entry under the invariant, the reconstructed path
is a valid optimal solution path. -/
theorem astar_goal_pop {init : List Nat} {n : Nat} {vs : List (List Nat)} {L : Nat}
    {heap : List (Nat × Node)} {dict : List (List Nat × Nat)} {f : Nat} {nd : Node}
    {h2 : List (Nat × Node)}
    (hn : 1 ≤ n) (hvinit : ValidState init n)
    (hdist : IsDist init n (get_goal_state n) L)
    (hsuf : ∀ i, i ≤ L → ReachIn n (L - i) (vs.getD i []) (get_goal_state n))
    (hinv : AstarInv init (get_goal_state n) n vs L heap dict)
    (hpop : heappop heap = some ((f, nd), h2)) (hgoal : nd.state = get_goal_state n) :
    (reconstruct_path nd).length = L + 1 ∧
    PathSpec init (get_goal_state n) n (reconstruct_path nd) := by
  have hne : heap ≠ [] := by
    intro h
    rw [h] at hpop
    exact absurd hpop (by simp [heappop])
  obtain ⟨it, h2x, hpop2, hperm, _, _, hmin, _⟩ := heappop_spec
    (keyIff_of_entryOK (get_goal_state n) n _ (fun e h => h.1))
    hinv.entry_ok hinv.hprop hne
  rw [hpop2] at hpop
  have hit : it = (f, nd) := congrArg Prod.fst (Option.some.inj hpop)
  have hmem : (f, nd) ∈ heap := by
    rw [← hit]
    exact hperm.mem_iff.2 (List.mem_cons_self _ _)
  obtain ⟨⟨hef, heh⟩, hchainnd⟩ := hinv.entry_ok (f, nd) hmem
  have hh0 : nd.heuristic = 0 := by
    rw [heh]
    simp only []
    rw [hgoal, manhattan_goal_zero hn]
  obtain ⟨e, he, helow⟩ := astarInv_frontier_low hn hvinit hsuf hinv
  have hfle : f ≤ L := by
    have h1 := hmin e he
    rw [hit] at h1
    simp only [] at h1
    omega
  have hcost_le : nd.cost ≤ L := by
    simp only [] at hef
    omega
  have hcost_ge : L ≤ nd.cost := hdist.2 nd.cost (hgoal ▸ chain_reach hchainnd)
  have hcost : nd.cost = L := by omega
  refine ⟨?_, pathSpec_of_chain hchainnd hgoal⟩
  rw [reconstruct_length_chain hchainnd, hcost]

/-- One non-goal A* expansion preserves the invariant, and either leaves
the frontier one shorter with the dict untouched or makes dict progress. -/
theorem astarInv_step {init : List Nat} {n : Nat} {vs : List (List Nat)} {L : Nat}
    {heap : List (Nat × Node)} {dict : List (List Nat × Nat)} {f : Nat} {nd : Node}
    {h2 : List (Nat × Node)}
    (hvinit : ValidState init n)
    (hedge : ∀ i, i < L → ∃ m ∈ get_possible_moves (vs.getD i []) n,
      vs.getD (i + 1) [] = apply_move (vs.getD i []) m n)
    (hvsL : vs.getD L [] = get_goal_state n)
    (hinv : AstarInv init (get_goal_state n) n vs L heap dict)
    (hpop : heappop heap = some ((f, nd), h2)) (hng : nd.state ≠ get_goal_state n) :
    AstarInv init (get_goal_state n) n vs L
      (astarExpand (get_goal_state n) n manhattan_distance nd (h2, dict)).1
      (astarExpand (get_goal_state n) n manhattan_distance nd (h2, dict)).2 ∧
    (((astarExpand (get_goal_state n) n manhattan_distance nd (h2, dict)).1 = h2 ∧
      (astarExpand (get_goal_state n) n manhattan_distance nd (h2, dict)).2 = dict) ∨
      dictLt (astarExpand (get_goal_state n) n manhattan_distance nd (h2, dict)).2 dict) ∧
    (astarExpand (get_goal_state n) n manhattan_distance nd (h2, dict)).2.length ≥ 0 := by
  have hne : heap ≠ [] := by
    intro h
    rw [h] at hpop
    exact absurd hpop (by simp [heappop])
  obtain ⟨it, h2x, hpop2, hperm, hHP2, hP2, _, hlen⟩ := heappop_spec
    (keyIff_of_entryOK (get_goal_state n) n _ (fun e h => h.1))
    hinv.entry_ok hinv.hprop hne
  rw [hpop2] at hpop
  have hit : it = (f, nd) := congrArg Prod.fst (Option.some.inj hpop)
  have hh2 : h2x = h2 := congrArg Prod.snd (Option.some.inj hpop)
  rw [hit] at hperm
  rw [hh2] at hperm hHP2 hP2
  have hmem : (f, nd) ∈ heap := hperm.mem_iff.2 (List.mem_cons_self _ _)
  obtain ⟨⟨hef, heh⟩, hchainnd0⟩ := hinv.entry_ok (f, nd) hmem
  have hchainnd : ChainOK init n nd := hchainnd0
  have hvnode : ValidState nd.state n := chain_valid hvinit hchainnd
  rw [astarExpand_eq_fold]
  obtain ⟨c1, c2, c3, c4, c5, c6, c7, c8⟩ := astarExpand_spec hvinit hchainnd hvnode
    (get_possible_moves nd.state n) (fun m hm => hm) (h2, dict) hP2 hHP2 hinv.keys_valid
  refine ⟨⟨c2, c3, ?_, ?_, c7⟩, c8, Nat.zero_le _⟩
  · intro i c hi hci hcle
    rcases c5 _ _ hci with hold | ⟨hceq, e, heF, hes, hec⟩
    · rcases hinv.pathinv i c hi hold hcle with ⟨e, he, hes, hec⟩ | ⟨hiL, cx, hcx, hcxle⟩
      · rcases List.mem_cons.1 (hperm.mem_iff.1 he) with heq | heh2
        · rw [heq] at hes hec
          have hes2 : nd.state = vs.getD i [] := hes
          have hec2 : nd.cost ≤ i := hec
          clear hes hec
          have hes := hes2
          have hec := hec2
          have hiL : i < L := by
            rcases Nat.lt_or_ge i L with h | h
            · exact h
            · exfalso
              have hieq : i = L := by omega
              rw [hieq, hvsL] at hes
              exact hng hes
          obtain ⟨m, hm, hedge2⟩ := hedge i hiL
          rw [← hes] at hedge2 hm
          obtain ⟨cx, hcx, hcxle⟩ := c6 m hm
          rw [← hedge2] at hcx
          exact Or.inr ⟨hiL, cx, hcx, by omega⟩
        · exact Or.inl ⟨e, c1 e heh2, hes, hec⟩
      · obtain ⟨cxf, hcxf, hcxfle⟩ := c4 _ _ hcx
        exact Or.inr ⟨hiL, cxf, hcxf, by omega⟩
    · exact Or.inl ⟨e, heF, hes, by omega⟩
  · obtain ⟨c0, hc0, hc0le⟩ := hinv.base
    obtain ⟨c0f, hc0f, hc0fle⟩ := c4 _ _ hc0
    exact ⟨c0f, hc0f, by omega⟩

/-- Any path returned by the A* loop from an invariant state is a valid
optimal solution path. -/
theorem astarLoop_inv_sound {init : List Nat} {n : Nat} {vs : List (List Nat)} {L : Nat}
    (hn : 1 ≤ n) (hvinit : ValidState init n)
    (hdist : IsDist init n (get_goal_state n) L)
    (hedge : ∀ i, i < L → ∃ m ∈ get_possible_moves (vs.getD i []) n,
      vs.getD (i + 1) [] = apply_move (vs.getD i []) m n)
    (hvsL : vs.getD L [] = get_goal_state n)
    (hsuf : ∀ i, i ≤ L → ReachIn n (L - i) (vs.getD i []) (get_goal_state n)) :
    ∀ fuel (heap : List (Nat × Node)) (dict : List (List Nat × Nat)) cnt p c2,
      AstarInv init (get_goal_state n) n vs L heap dict →
      astarLoop (get_goal_state n) n manhattan_distance fuel heap dict cnt = (some p, c2) →
      p.length = L + 1 ∧ PathSpec init (get_goal_state n) n p := by
  intro fuel
  induction fuel with
  | zero =>
    intro heap dict cnt p c2 _ hrun
    exact absurd (congrArg Prod.fst hrun) (by simp [astarLoop])
  | succ fuel ih =>
    intro heap dict cnt p c2 hinv hrun
    rw [astarLoop] at hrun
    cases hpop : heappop heap with
    | none =>
      rw [hpop] at hrun
      exact absurd (congrArg Prod.fst hrun) (by simp)
    | some pr =>
      rcases pr with ⟨⟨f, nd⟩, h2⟩
      rw [hpop] at hrun
      simp only [] at hrun
      by_cases hg : nd.state = get_goal_state n
      · rw [if_pos hg] at hrun
        have hp : p = reconstruct_path nd := (Option.some.inj (congrArg Prod.fst hrun)).symm
        rw [hp]
        exact astar_goal_pop hn hvinit hdist hsuf hinv hpop hg
      · rw [if_neg hg] at hrun
        exact ih _ _ _ p c2 (astarInv_step hvinit hedge hvsL hinv hpop hg).1 hrun

/-- From any invariant state, some fuel makes the A* loop return an
optimal path (completeness). -/
theorem astarLoop_inv_complete {init : List Nat} {n : Nat} {vs : List (List Nat)} {L : Nat}
    (hn : 1 ≤ n) (hvinit : ValidState init n)
    (hdist : IsDist init n (get_goal_state n) L)
    (hedge : ∀ i, i < L → ∃ m ∈ get_possible_moves (vs.getD i []) n,
      vs.getD (i + 1) [] = apply_move (vs.getD i []) m n)
    (hvsL : vs.getD L [] = get_goal_state n)
    (hsuf : ∀ i, i ≤ L → ReachIn n (L - i) (vs.getD i []) (get_goal_state n)) :
    ∀ a b c (heap : List (Nat × Node)) (dict : List (List Nat × Nat)) cnt,
      AstarInv init (get_goal_state n) n vs L heap dict →
      stateBound n + 1 - (dictKeys dict).length = a → dictSum dict = b →
      heap.length = c →
      ∃ fuel p c2,
        astarLoop (get_goal_state n) n manhattan_distance fuel heap dict cnt =
          (some p, c2) ∧ p.length = L + 1 := by
  intro a
  induction a using Nat.strong_induction_on with
  | _ a iha =>
    intro b
    induction b using Nat.strong_induction_on with
    | _ b ihb =>
      intro c
      induction c using Nat.strong_induction_on with
      | _ c ihc =>
        intro heap dict cnt hinv ha hb hc
        obtain ⟨e0, he0, _⟩ := astarInv_frontier_low hn hvinit hsuf hinv
        have hne : heap ≠ [] := by
          intro h
          rw [h] at he0
          exact List.not_mem_nil e0 he0
        obtain ⟨it, h2x, hpopeq, hperm, hHP2, hP2, hmin, hlen⟩ := heappop_spec
          (keyIff_of_entryOK (get_goal_state n) n _ (fun e h => h.1))
          hinv.entry_ok hinv.hprop hne
        rcases it with ⟨f, nd⟩
        by_cases hg : nd.state = get_goal_state n
        · refine ⟨1, reconstruct_path nd, cnt + 1, ?_,
            (astar_goal_pop hn hvinit hdist hsuf hinv hpopeq hg).1⟩
          rw [astarLoop, hpopeq]
          simp only []
          rw [if_pos hg]
        · obtain ⟨hinv2, hmeasure, _⟩ := astarInv_step hvinit hedge hvsL hinv hpopeq hg
          rcases hmeasure with ⟨hX1, hX2⟩ | hdlt
          · obtain ⟨fuel, p, c2, hrun, hplen⟩ := ihc
              (astarExpand (get_goal_state n) n manhattan_distance nd (h2x, dict)).1.length
              (by rw [hX1]; omega)
              (astarExpand (get_goal_state n) n manhattan_distance nd (h2x, dict)).1
              (astarExpand (get_goal_state n) n manhattan_distance nd (h2x, dict)).2
              (cnt + 1) hinv2 (by rw [hX2]; exact ha) (by rw [hX2]; exact hb) rfl
            refine ⟨fuel + 1, p, c2, ?_, hplen⟩
            rw [astarLoop, hpopeq]
            simp only []
            rw [if_neg hg]
            exact hrun
          · rcases hdlt with hkeys | ⟨hkeq, hsum⟩
            · have hbound :
                  (dictKeys (astarExpand (get_goal_state n) n manhattan_distance nd
                    (h2x, dict)).2).length ≤ stateBound n :=
                dictKeys_length_le hinv2.keys_valid
              obtain ⟨fuel, p, c2, hrun, hplen⟩ := iha
                (stateBound n + 1 - (dictKeys (astarExpand (get_goal_state n) n
                  manhattan_distance nd (h2x, dict)).2).length)
                (by omega)
                (dictSum (astarExpand (get_goal_state n) n manhattan_distance nd (h2x, dict)).2)
                (astarExpand (get_goal_state n) n manhattan_distance nd (h2x, dict)).1.length
                (astarExpand (get_goal_state n) n manhattan_distance nd (h2x, dict)).1
                (astarExpand (get_goal_state n) n manhattan_distance nd (h2x, dict)).2
                (cnt + 1) hinv2 rfl rfl rfl
              refine ⟨fuel + 1, p, c2, ?_, hplen⟩
              rw [astarLoop, hpopeq]
              simp only []
              rw [if_neg hg]
              exact hrun
            · obtain ⟨fuel, p, c2, hrun, hplen⟩ := ihb
                (dictSum (astarExpand (get_goal_state n) n manhattan_distance nd (h2x, dict)).2)
                (by omega)
                (astarExpand (get_goal_state n) n manhattan_distance nd (h2x, dict)).1.length
                (astarExpand (get_goal_state n) n manhattan_distance nd (h2x, dict)).1
                (astarExpand (get_goal_state n) n manhattan_distance nd (h2x, dict)).2
                (cnt + 1) hinv2 (by rw [hkeq]; exact ha) rfl rfl
              refine ⟨fuel + 1, p, c2, ?_, hplen⟩
              rw [astarLoop, hpopeq]
              simp only []
              rw [if_neg hg]
              exact hrun

/-- Validity is preserved along walks. -/
theorem reachIn_valid {n : Nat} :
    ∀ {k : Nat} {s t : List Nat}, ReachIn n k s t → ValidState s n → ValidState t n := by
  intro k s t h
  induction h with
  | refl s2 => exact fun hv => hv
  | step hm h2 ih =>
    rename_i m s2 t2 k2
    intro hv
    exact ih (valid_apply_move m hv)

/-- A walk out of a state with no legal moves cannot go anywhere. -/
theorem reachIn_no_moves {n k : Nat} {s t : List Nat} (h : ReachIn n k s t)
    (hm : get_possible_moves s n = []) : t = s := by
  cases h with
  | refl => rfl
  | step hmm h2 =>
    rw [hm] at hmm
    exact absurd hmm (List.not_mem_nil _)

/-- The invariant holds for the A* starting configuration. -/
theorem astarInv_init {n : Nat} {S : List Nat} {vs : List (List Nat)} {L : Nat}
    (hvS : ValidState S n) (hvs0 : vs.getD 0 [] = S) :
    AstarInv S (get_goal_state n) n vs L
      [(manhattan_distance S (get_goal_state n) n,
        Node.root S (manhattan_distance S (get_goal_state n) n))]
      [(S, 0)] := by
  refine ⟨?_, ?_, ?_, ?_, ?_⟩
  · intro e he
    rw [List.mem_singleton.1 he]
    exact ⟨⟨(Nat.zero_add _).symm, rfl⟩, rfl⟩
  · intro j hj0 hjlen
    simp at hjlen
    omega
  · intro i c hi hci hcle
    by_cases hSk : S = vs.getD i []
    · exact Or.inl ⟨(manhattan_distance S (get_goal_state n) n,
        Node.root S (manhattan_distance S (get_goal_state n) n)),
        List.mem_singleton_self _, hSk, Nat.zero_le i⟩
    · rw [dictGet_cons, if_neg hSk] at hci
      exact absurd hci (by simp [dictGet])
  · refine ⟨0, ?_, Nat.le_refl 0⟩
    rw [hvs0]
    rw [dictGet_cons, if_pos rfl]
  · intro p hp
    rw [List.mem_singleton.1 hp]
    exact hvS

theorem bfs_self_eval (s : List Nat) (n fuel : Nat) :
    breadth_first_search s s n (fuel + 1) = (some [⟨s, none⟩], 1) := by
  simp [breadth_first_search, bfsLoop, Node.state, reconstruct_path, reconstruct_aux]

theorem astar_self_eval (s : List Nat) (n fuel : Nat) :
    a_star_search s s n (fuel + 1) manhattan_distance = (some [⟨s, none⟩], 1) := by
  simp [a_star_search, astarLoop, heappop, Node.state, reconstruct_path, reconstruct_aux]

theorem bfs_fuel_zero (s g : List Nat) (n : Nat) :
    breadth_first_search s g n 0 = (none, 0) := rfl

theorem astar_fuel_zero (s g : List Nat) (n : Nat) :
    a_star_search s g n 0 manhattan_distance = (none, 0) := rfl

/-- C1.  For every board dimension `n` and every state `S` reachable from
`get_goal_state n` by legal moves, `breadth_first_search` and
`a_star_search` with the Manhattan heuristic both return a path (at
sufficient fuel, `none` standing only for fuel exhaustion of the embedded
unbounded loop), and every path either returns has length exactly `d + 1`
where `d` is the exact goal distance of `S` — so the two paths have equal
length and both are optimal under unit-cost edges. -/
theorem bfs_astar_equal_optimal (n : Nat) (S : List Nat)
    (hreach : ∃ k, ReachIn n k (get_goal_state n) S) :
    ∃ d, IsDist S n (get_goal_state n) d ∧
      (∃ fuel p c, breadth_first_search S (get_goal_state n) n fuel = (some p, c) ∧
        p.length = d + 1) ∧
      (∃ fuel p c, a_star_search S (get_goal_state n) n fuel manhattan_distance =
        (some p, c) ∧ p.length = d + 1) ∧
      (∀ fuel p c, breadth_first_search S (get_goal_state n) n fuel = (some p, c) →
        p.length = d + 1) ∧
      (∀ fuel p c, a_star_search S (get_goal_state n) n fuel manhattan_distance =
        (some p, c) → p.length = d + 1) := by
  obtain ⟨k, hk⟩ := hreach
  by_cases hn : 1 ≤ n
  · have hvgoal : ValidState (get_goal_state n) n := goal_state_valid hn
    have hvS : ValidState S n := reachIn_valid hk hvgoal
    have hback : ReachIn n k S (get_goal_state n) := reachIn_symm hk hvgoal
    obtain ⟨d, hd⟩ := exists_isDist ⟨k, hback⟩
    obtain ⟨vs, hlen, hv0, hedge, hsuf⟩ := reachIn_path_exists hd.1
    have hvsL : vs.getD d [] = get_goal_state n := by
      have h1 := hsuf d (Nat.le_refl d)
      rw [Nat.sub_self] at h1
      exact reachIn_zero h1
    refine ⟨d, hd, ?_, ?_, ?_, ?_⟩
    · obtain ⟨fuel, p, c2, hrun⟩ := bfsLoop_inv_complete hd (stateBound n - 1) 1
        [Node.root S 0] [S] 0 (bfsInv_init hvS) rfl rfl
      have hlen2 := (bfsLoop_inv_sound hd fuel [Node.root S 0] [S] 0 p c2
        (bfsInv_init hvS) hrun).2
      exact ⟨fuel, p, c2, hrun, hlen2⟩
    · obtain ⟨fuel, p, c2, hrun, hplen⟩ := astarLoop_inv_complete hn hvS hd hedge hvsL hsuf
        (stateBound n + 1 - (dictKeys [(S, 0)]).length) (dictSum [(S, 0)]) 1
        [(manhattan_distance S (get_goal_state n) n,
          Node.root S (manhattan_distance S (get_goal_state n) n))]
        [(S, 0)] 0 (astarInv_init hvS hv0) rfl rfl rfl
      exact ⟨fuel, p, c2, hrun, hplen⟩
    · intro fuel p c hrun
      exact (bfsLoop_inv_sound hd fuel [Node.root S 0] [S] 0 p c (bfsInv_init hvS) hrun).2
    · intro fuel p c hrun
      exact (astarLoop_inv_sound hn hvS hd hedge hvsL hsuf fuel
        [(manhattan_distance S (get_goal_state n) n,
          Node.root S (manhattan_distance S (get_goal_state n) n))]
        [(S, 0)] 0 p c (astarInv_init hvS hv0) hrun).1
  · have hn0 : n = 0 := by omega
    subst hn0
    have hmoves : get_possible_moves (get_goal_state 0) 0 = [] := rfl
    have hSgoal : S = get_goal_state 0 := reachIn_no_moves hk hmoves
    subst hSgoal
    refine ⟨0, ⟨ReachIn.refl _, fun j _ => Nat.zero_le j⟩, ?_, ?_, ?_, ?_⟩
    · exact ⟨1, [⟨get_goal_state 0, none⟩], 1, bfs_self_eval _ 0 0, rfl⟩
    · exact ⟨1, [⟨get_goal_state 0, none⟩], 1, astar_self_eval _ 0 0, rfl⟩
    · intro fuel p c hrun
      cases fuel with
      | zero =>
        rw [bfs_fuel_zero] at hrun
        exact absurd (congrArg Prod.fst hrun) (by simp)
      | succ f =>
        rw [bfs_self_eval] at hrun
        have h1 := Option.some.inj (congrArg Prod.fst hrun)
        rw [← h1]
        rfl
    · intro fuel p c hrun
      cases fuel with
      | zero =>
        rw [astar_fuel_zero] at hrun
        exact absurd (congrArg Prod.fst hrun) (by simp)
      | succ f =>
        rw [astar_self_eval] at hrun
        have h1 := Option.some.inj (congrArg Prod.fst hrun)
        rw [← h1]
        rfl

/-- C1 witness: the theorem applied at `n = 2` to the state one UP move
away from the goal. -/
theorem bfs_astar_equal_optimal_witness :
    ∃ d, IsDist [1, 0, 3, 2] 2 (get_goal_state 2) d ∧
      (∃ fuel p c, breadth_first_search [1, 0, 3, 2] (get_goal_state 2) 2 fuel =
        (some p, c) ∧ p.length = d + 1) ∧
      (∃ fuel p c, a_star_search [1, 0, 3, 2] (get_goal_state 2) 2 fuel manhattan_distance =
        (some p, c) ∧ p.length = d + 1) ∧
      (∀ fuel p c, breadth_first_search [1, 0, 3, 2] (get_goal_state 2) 2 fuel =
        (some p, c) → p.length = d + 1) ∧
      (∀ fuel p c, a_star_search [1, 0, 3, 2] (get_goal_state 2) 2 fuel manhattan_distance =
        (some p, c) → p.length = d + 1) :=
  bfs_astar_equal_optimal 2 [1, 0, 3, 2]
    ⟨1, @ReachIn.step 2 Move.UP (get_goal_state 2) [1, 0, 3, 2] 0 (by decide)
      (ReachIn.refl _)⟩

end NPuzzle
